import Mathlib

/-!
# rEFInd: MBR activation (`refind/legacy.c`) and config loading (`refind/config.c`)

A shallow embedding of `ActivateMbrPartition` and `ScanLegacyVolume` and of
`ReadFile`, `ReadLine`, `ReadTokenLine`, `ReadConfig` and `AddStanzaEntries`, with
the properties of the specification proved or refuted over it.

Conventions of the embedding

* A byte (`UINT8`) is a `Fin 256`; a sector buffer (`UINT8 SectorBuffer[512]`) is a
  list of bytes, read with `getD _ 0` and written with `List.set`.
* The block device is explicit state: the content of every LBA, the log of the
  `ReadBlocks`/`WriteBlocks` calls issued so far (oldest first) and the status the
  firmware returns for each call, as a function of the history and of the call.
* `UINT32` arithmetic is taken modulo `2^32`, `UINTN` arithmetic modulo
  `2^UINTN_BITS`.
* The `for (ExtCurrent = ExtBase; ExtCurrent; ...)` loop need not terminate on a
  cyclic chain, so it is run with fuel; the status of a run is `none` when the fuel
  ran out while the loop was still going, and the device state reached so far is
  returned in every case.
* A `CHAR16` unit is a natural number; a string is the list of its units before the
  terminating 0, and the unit read at its end is 0. The line that `ReadLine`
  returns and the tokens that `ReadTokenLine` returns are such lists.
* `GlobalConfig` is explicit state: `ReadConfig` is a function from the value
  before the call to the value after it. The constants of `global.h` and the
  library function `Atoi` are parameters.
* The loops over the lines of a file are run with fuel and are proved to end with
  one step per remaining unit of the file and one more.
* A read of `TokenList[i]` at an index that is not below `TokenCount` has no
  behaviour defined by the source; the body of the loop of `AddStanzaEntries`
  returns `none` there.
-/

namespace Refind

/-! ## Bytes, sectors, status codes -/

abbrev Byte := Fin 256

abbrev Sector := List Byte

/-- The `EFI_STATUS` values the code distinguishes: `EFI_SUCCESS`, the two error
codes it produces itself, any other error code and any non-error warning code. -/
inductive EFI_STATUS where
  | EFI_SUCCESS
  | EFI_NOT_FOUND
  | EFI_LOAD_ERROR
  | otherError (code : Nat)
  | warning (code : Nat)
  deriving DecidableEq, Repr

/-- The macro `EFI_ERROR(Status)`: true exactly for error codes. -/
def EFI_ERROR : EFI_STATUS → Bool
  | .EFI_SUCCESS => false
  | .warning _ => false
  | _ => true

/-! ## The block device -/

/-- One call on the `EFI_BLOCK_IO` protocol, always for one 512-byte block. -/
inductive BlockOp where
  | read (lba : Nat)
  | write (lba : Nat) (data : Sector)
  deriving DecidableEq, Repr

/-- The device behind `EFI_BLOCK_IO *BlockIO`. -/
structure BlockDev where
  /-- Content of each block of the medium. -/
  disk : Nat → Sector
  /-- The calls issued so far, oldest first. -/
  log : List BlockOp
  /-- The status the firmware returns for a call, given the calls before it. -/
  status : List BlockOp → BlockOp → EFI_STATUS

/-- `BlockIO->ReadBlocks(BlockIO, MediaId, lba, 512, SectorBuffer)`: the status and
the buffer content after the call (the buffer is only used when the status is not
an error). -/
def ReadBlocks (io : BlockDev) (lba : Nat) : EFI_STATUS × Sector × BlockDev :=
  (io.status io.log (.read lba), io.disk lba, { io with log := io.log ++ [.read lba] })

/-- `BlockIO->WriteBlocks(BlockIO, MediaId, lba, 512, SectorBuffer)`. A call that
reports an error is taken to leave the medium as it was. -/
def WriteBlocks (io : BlockDev) (lba : Nat) (buf : Sector) : EFI_STATUS × BlockDev :=
  let st := io.status io.log (.write lba buf)
  if EFI_ERROR st then
    (st, { io with log := io.log ++ [.write lba buf] })
  else
    (st, { io with log := io.log ++ [.write lba buf],
                   disk := Function.update io.disk lba buf })

/-! ## Constants and macros that live in headers outside the sources -/

/-- The parts of the program that `legacy.c` takes from headers which are not among
the sources: `include/syslinux_mbr.h` (`MBR_BOOTCODE_SIZE`, the `syslinux_mbr`
array), the macro `IS_EXTENDED_PART_TYPE` and the width of `UINTN`. -/
structure Params where
  MBR_BOOTCODE_SIZE : Nat
  syslinux_mbr : List Byte
  IS_EXTENDED_PART_TYPE : Byte → Bool
  UINTN_BITS : Nat

/-- Modelled from the spec: `SYSLINUX_MBR_SIZE` is the length of the embedded
`syslinux_mbr` array (the header that defines both is not among the sources). -/
def Params.SYSLINUX_MBR_SIZE (p : Params) : Nat := p.syslinux_mbr.length

/-! ## Sector layout -/

/-- The 16-bit little-endian word at offset 510, `*((UINT16 *)(SectorBuffer + 510))`. -/
def Signature (buf : Sector) : Nat :=
  (buf.getD 510 0).val + 256 * (buf.getD 511 0).val

/-- A 32-bit little-endian field of the buffer. -/
def readU32 (buf : Sector) (off : Nat) : Nat :=
  (buf.getD off 0).val + 256 * (buf.getD (off + 1) 0).val
    + 65536 * (buf.getD (off + 2) 0).val + 16777216 * (buf.getD (off + 3) 0).val

/-- Modelled from the spec: the layout of `MBR_PARTITION_INFO` (its declaration is
not among the sources): four 16-byte entries at offset 446 of the sector, each with
the status flags in its first byte, then the standard IBM-PC fields: start CHS
(3 bytes), type byte (offset 4), end CHS (3 bytes), start LBA (offset 8, 32 bits)
and size in LBAs (offset 12, 32 bits). This is the offset of `MbrTable[i]`. -/
def entryOffset (i : Nat) : Nat := 446 + 16 * i

/-- The field `MbrTable[i].Flags`. -/
def Flags (buf : Sector) (i : Nat) : Byte := buf.getD (entryOffset i) 0

/-- The field `MbrTable[i].Type`. -/
def PartType (buf : Sector) (i : Nat) : Byte := buf.getD (entryOffset i + 4) 0

/-- The field `MbrTable[i].StartLBA`. -/
def StartLBA (buf : Sector) (i : Nat) : Nat := readU32 buf (entryOffset i + 8)

/-- The field `MbrTable[i].Size`. -/
def Size (buf : Sector) (i : Nat) : Nat := readU32 buf (entryOffset i + 12)

/-- The assignment `MbrTable[i].Flags = v`. -/
def setFlags (buf : Sector) (i : Nat) (v : Byte) : Sector := buf.set (entryOffset i) v

/-- `SetMem(Buffer, n, v)`: the first `n` bytes of the buffer become `v`. -/
def SetMem : Sector → Nat → Byte → Sector
  | [], _, _ => []
  | b :: bs, 0, _ => b :: bs
  | _ :: bs, n + 1, v => v :: SetMem bs n v

/-- `CopyMem(Buffer, src, n)`: the first `n` bytes of the buffer become those of
`src`. -/
def CopyMem : Sector → List Byte → Nat → Sector
  | [], _, _ => []
  | b :: bs, _, 0 => b :: bs
  | b :: bs, [], _ + 1 => b :: bs
  | _ :: bs, s :: ss, n + 1 => s :: CopyMem bs ss n

/-! ## `ActivateMbrPartition` -/

/-- The loop of lines 76-81: is some byte of the first `MBR_BOOTCODE_SIZE` bytes
not zero? -/
def HaveBootCode (p : Params) (buf : Sector) : Bool :=
  (List.range p.MBR_BOOTCODE_SIZE).any (fun i => buf.getD i 0 != 0)

/-- Lines 74-86: add the syslinux boot code when the sector has none. -/
def addBootCode (p : Params) (buf : Sector) : Sector :=
  if HaveBootCode p buf then buf
  else CopyMem (SetMem buf p.MBR_BOOTCODE_SIZE 0) p.syslinux_mbr p.SYSLINUX_MBR_SIZE

/-- The loop of lines 91-101 over the primary table, from slot `i` for `n` more
slots. `none` is the `return EFI_NOT_FOUND` of safety measure #2; otherwise the
buffer and `ExtBase` after the loop. -/
def mbrLoop (p : Params) (PartitionIndex : Nat) :
    Nat → Nat → Sector → Nat → Option (Sector × Nat)
  | 0, _, buf, ExtBase => some (buf, ExtBase)
  | n + 1, i, buf, ExtBase =>
    if Flags buf i ≠ 0x00 ∧ Flags buf i ≠ 0x80 then none
    else if i = PartitionIndex then
      mbrLoop p PartitionIndex n (i + 1) (setFlags buf i 0x80) ExtBase
    else if PartitionIndex ≥ 4 ∧ p.IS_EXTENDED_PART_TYPE (PartType buf i) = true then
      mbrLoop p PartitionIndex n (i + 1) (setFlags buf i 0x80) (StartLBA buf i)
    else
      mbrLoop p PartitionIndex n (i + 1) (setFlags buf i 0x00) ExtBase

/-- The loop of lines 123-138 over one EMBR, from slot `i` for `n` more slots.
`none` is the `return EFI_NOT_FOUND` of safety measure #4; otherwise the buffer,
`NextExtCurrent` and `LogicalPartitionIndex` after the loop. -/
def embrLoop (p : Params) (PartitionIndex ExtBase : Nat) :
    Nat → Nat → Sector → Nat → Nat → Option (Sector × Nat × Nat)
  | 0, _, buf, NextExtCurrent, LogicalPartitionIndex =>
    some (buf, NextExtCurrent, LogicalPartitionIndex)
  | n + 1, i, buf, NextExtCurrent, LogicalPartitionIndex =>
    if Flags buf i ≠ 0x00 ∧ Flags buf i ≠ 0x80 then none
    else if StartLBA buf i = 0 ∨ Size buf i = 0 then
      some (buf, NextExtCurrent, LogicalPartitionIndex)
    else if p.IS_EXTENDED_PART_TYPE (PartType buf i) = true then
      some (setFlags buf i (if PartitionIndex ≥ LogicalPartitionIndex then 0x80 else 0x00),
            (ExtBase + StartLBA buf i) % 2 ^ 32, LogicalPartitionIndex)
    else
      embrLoop p PartitionIndex ExtBase n (i + 1)
        (setFlags buf i (if PartitionIndex = LogicalPartitionIndex then 0x80 else 0x00))
        NextExtCurrent ((LogicalPartitionIndex + 1) % 2 ^ p.UINTN_BITS)

/-- The outcome of a run: the status returned (`none` when the fuel ran out while
the chain walk was still going), the device afterwards and the final value of the
local `LogicalPartitionIndex`. -/
structure Run where
  Status : Option EFI_STATUS
  io : BlockDev
  LogicalPartitionIndex : Nat

/-- The loop of lines 112-147 over the EMBR chain, entered with the given
`ExtCurrent` and `LogicalPartitionIndex`. -/
def walk (p : Params) (PartitionIndex ExtBase : Nat) : Nat → Nat → Nat → BlockDev → Run
  | 0, ExtCurrent, L, io =>
    if ExtCurrent = 0 then ⟨some .EFI_SUCCESS, io, L⟩ else ⟨none, io, L⟩
  | fuel + 1, ExtCurrent, L, io =>
    if ExtCurrent = 0 then ⟨some .EFI_SUCCESS, io, L⟩
    else
      match ReadBlocks io ExtCurrent with
      | (Status, buf, io1) =>
        if EFI_ERROR Status then ⟨some Status, io1, L⟩
        else if Signature buf ≠ 0xaa55 then ⟨some .EFI_NOT_FOUND, io1, L⟩
        else
          match embrLoop p PartitionIndex ExtBase 4 0 buf 0 L with
          | none => ⟨some .EFI_NOT_FOUND, io1, L⟩
          | some (buf1, NextExtCurrent, L1) =>
            match WriteBlocks io1 ExtCurrent buf1 with
            | (Status1, io2) =>
              if EFI_ERROR Status1 then ⟨some Status1, io2, L1⟩
              else if PartitionIndex < L1 then ⟨some .EFI_SUCCESS, io2, L1⟩
              else walk p PartitionIndex ExtBase fuel NextExtCurrent L1 io2

/-- The function `ActivateMbrPartition(BlockIO, PartitionIndex)` of `legacy.c`. -/
def ActivateMbrPartition (p : Params) (fuel : Nat) (io : BlockDev) (PartitionIndex : Nat) :
    Run :=
  match ReadBlocks io 0 with
  | (Status, buf, io1) =>
    if EFI_ERROR Status then ⟨some Status, io1, 4⟩
    else if Signature buf ≠ 0xaa55 then ⟨some .EFI_NOT_FOUND, io1, 4⟩
    else
      match mbrLoop p PartitionIndex 4 0 (addBootCode p buf) 0 with
      | none => ⟨some .EFI_NOT_FOUND, io1, 4⟩
      | some (buf1, ExtBase) =>
        match WriteBlocks io1 0 buf1 with
        | (Status1, io2) =>
          if EFI_ERROR Status1 then ⟨some Status1, io2, 4⟩
          else if PartitionIndex ≥ 4 then walk p PartitionIndex ExtBase fuel ExtBase 4 io2
          else ⟨some .EFI_SUCCESS, io2, 4⟩

/-! ## `ReadFile` (`config.c`) -/

/-- The constant `MAXCONFIGFILESIZE`. -/
def MAXCONFIGFILESIZE : Nat := 64 * 1024

/-- The constant `ENCODING_ISO8859_1`. -/
def ENCODING_ISO8859_1 : Nat := 0

/-- The constant `ENCODING_UTF8`. -/
def ENCODING_UTF8 : Nat := 1

/-- The constant `ENCODING_UTF16_LE`. -/
def ENCODING_UTF16_LE : Nat := 2

/-- The structure `REFIT_FILE` as `config.c` uses it. `Buffer` is `none` for `NULL`;
the four pointers are offsets from the start of the buffer, in bytes for the
`CHAR8` pointers and in 16-bit units for the `CHAR16` pointers. -/
structure REFIT_FILE where
  Buffer : Option (List Byte)
  BufferSize : Nat
  Encoding : Nat
  Current8Ptr : Nat
  End8Ptr : Nat
  Current16Ptr : Nat
  End16Ptr : Nat
  deriving DecidableEq, Repr

/-- What the firmware answers to the file calls of `ReadFile` for a given directory
and file name: the status of `Open`, the `FileSize` that `LibFileInfo` reports
(`none` when it returns `NULL`), the status of `Read` and the bytes of the file. -/
structure FileAccess where
  OpenStatus : EFI_STATUS
  FileSize : Option Nat
  ReadStatus : EFI_STATUS
  Content : List Byte

/-- Modelled from the spec: `CheckError` (defined in a source file that is not among
the sources) reports whether the status is an error, after printing a message. -/
def CheckError (Status : EFI_STATUS) : Bool := EFI_ERROR Status

/-- Lines 109-124 of `ReadFile`: detect the encoding of the buffer. -/
def detectEncoding (File : REFIT_FILE) (Buffer : List Byte) : REFIT_FILE :=
  let File := { File with Encoding := ENCODING_ISO8859_1 }
  if File.BufferSize ≥ 4 then
    if Buffer.getD 0 0 = 0xFF ∧ Buffer.getD 1 0 = 0xFE then
      { File with Encoding := ENCODING_UTF16_LE, Current16Ptr := File.Current16Ptr + 1 }
    else if Buffer.getD 0 0 = 0xEF ∧ Buffer.getD 1 0 = 0xBB ∧ Buffer.getD 2 0 = 0xBF then
      { File with Encoding := ENCODING_UTF8, Current8Ptr := File.Current8Ptr + 3 }
    else if Buffer.getD 1 0 = 0 ∧ Buffer.getD 3 0 = 0 then
      { File with Encoding := ENCODING_UTF16_LE }
    else File
  else File

/-- The function `ReadFile(BaseDir, FileName, File)` of `config.c`; `fs` stands for
the answers of the firmware for `BaseDir` and `FileName`. `Read` delivers the first
`BufferSize` bytes of the file, or the whole file when it is shorter, and sets
`BufferSize` to the number of bytes delivered. -/
def ReadFile (fs : FileAccess) (File : REFIT_FILE) : EFI_STATUS × REFIT_FILE :=
  let File := { File with Buffer := none, BufferSize := 0 }
  if CheckError fs.OpenStatus then (fs.OpenStatus, File)
  else
    match fs.FileSize with
    | none => (.EFI_LOAD_ERROR, File)
    | some FileSize =>
      let ReadSize := if FileSize > MAXCONFIGFILESIZE then MAXCONFIGFILESIZE else FileSize
      let File := { File with BufferSize := ReadSize }
      if CheckError fs.ReadStatus then (fs.ReadStatus, { File with Buffer := none })
      else
        let Buffer := fs.Content.take ReadSize
        let File := { File with Buffer := some Buffer, BufferSize := Buffer.length }
        let File := { File with
          Current8Ptr := 0, End8Ptr := File.BufferSize,
          Current16Ptr := 0, End16Ptr := File.BufferSize >>> 1 }
        (.EFI_SUCCESS, detectEncoding File Buffer)

/-- A `REFIT_FILE` before `ReadFile` has filled it. -/
def blankFile : REFIT_FILE := ⟨none, 0, 0, 0, 0, 0, 0⟩

/-- A file that opens and reads without error and holds the given bytes. -/
def fileWith (Content : List Byte) : FileAccess :=
  ⟨.EFI_SUCCESS, some Content.length, .EFI_SUCCESS, Content⟩

/-! ## Vocabulary of the statements -/

/-- A flag byte that passes the safety checks #2 and #4. -/
def flagOK (b : Byte) : Prop := b = 0x00 ∨ b = 0x80

instance (b : Byte) : Decidable (flagOK b) := by unfold flagOK; infer_instance

/-- The four flag bytes of the table of a sector. -/
def tableFlags (buf : Sector) : List Byte := [Flags buf 0, Flags buf 1, Flags buf 2, Flags buf 3]

/-- Error propagation over the calls `ops` issued after the history `hist`: a call
for which the device reports an error is the last one, and its status is the
result `res` of the run. -/
def ErrorsPropagate (st : List BlockOp → BlockOp → EFI_STATUS) (hist ops : List BlockOp)
    (res : Option EFI_STATUS) : Prop :=
  ∀ pre op post, ops = pre ++ op :: post → EFI_ERROR (st (hist ++ pre) op) = true →
    post = [] ∧ res = some (st (hist ++ pre) op)

/-- The number of active (flag 0x80) logical partitions of an EMBR among those the
scan of lines 123-138 counts from slot `i` with `n` slots left: the entries that are
not of extended type, up to the first link or the first entry with start LBA 0 or
size 0. -/
def activeLogical (p : Params) : Nat → Nat → Sector → Nat
  | 0, _, _ => 0
  | n + 1, i, buf =>
    if StartLBA buf i = 0 ∨ Size buf i = 0 then 0
    else if p.IS_EXTENDED_PART_TYPE (PartType buf i) = true then 0
    else (if Flags buf i = 0x80 then 1 else 0) + activeLogical p n (i + 1) buf

/-- The sectors written by a list of calls, in order. -/
def writtenSectors : List BlockOp → List Sector
  | [] => []
  | .read _ :: ops => writtenSectors ops
  | .write _ w :: ops => w :: writtenSectors ops

/-- The device after block `lba` has been read and then rewritten with `w`, both
calls succeeding. -/
def BlockDev.rewritten (io : BlockDev) (lba : Nat) (w : Sector) : BlockDev :=
  { io with log := io.log ++ [.read lba] ++ [.write lba w],
            disk := Function.update io.disk lba w }

/-- The number of primary entries of a sector that have an extended type and the
active flag 0x80. -/
def activeExtendedPrimaries (p : Params) (buf : Sector) : Nat :=
  ((List.range 4).filter
    (fun i => p.IS_EXTENDED_PART_TYPE (PartType buf i) && Flags buf i == 0x80)).length

/-- Every write of the list of calls goes to the block read by the call just before
it. -/
def WritesFollowReads (ops : List BlockOp) : Prop :=
  ∀ pre lba w post, ops = pre ++ BlockOp.write lba w :: post →
    ∃ pre1, pre = pre1 ++ [BlockOp.read lba]

/-! ## Concrete disks for the examples -/

/-- A 32-bit value as four little-endian bytes. -/
def le32 (n : Nat) : List Byte :=
  [Fin.ofNat n, Fin.ofNat (n / 256), Fin.ofNat (n / 65536), Fin.ofNat (n / 16777216)]

/-- A 16-byte partition entry with the given flags, type, start LBA and size. -/
def mkEntry (flags type : Byte) (start size : Nat) : List Byte :=
  [flags, 0, 0, 0, type, 0, 0, 0] ++ le32 start ++ le32 size

/-- An unused partition entry. -/
def emptyEntry : List Byte := mkEntry 0 0 0 0

/-- A sector with every boot-code byte equal to `boot`, the four given entries and
the signature `55 AA`. -/
def mkSector (boot : Byte) (e0 e1 e2 e3 : List Byte) : Sector :=
  List.replicate 446 boot ++ e0 ++ e1 ++ e2 ++ e3 ++ [0x55, 0xAA]

/-- Parameters for the examples: a 440-byte boot-code area, a stand-in template of
440 bytes `0x90`, the usual extended types 0x05, 0x0f and 0x85, a 64-bit `UINTN`. -/
def exParams : Params where
  MBR_BOOTCODE_SIZE := 440
  syslinux_mbr := List.replicate 440 0x90
  IS_EXTENDED_PART_TYPE := fun t => t = 0x05 || t = 0x0f || t = 0x85
  UINTN_BITS := 64

/-- A device on which every call succeeds. -/
def okStatus : List BlockOp → BlockOp → EFI_STATUS := fun _ _ => .EFI_SUCCESS

/-- A disk with four primary data partitions, the first one active. -/
def primaryDisk : Nat → Sector := fun lba =>
  if lba = 0 then
    mkSector 1 (mkEntry 0x80 0x83 63 100) (mkEntry 0 0x83 200 100)
      (mkEntry 0 0x83 400 100) (mkEntry 0 0x83 600 100)
  else List.replicate 512 0

/-- The sector 0 of scenario 6 of the specification: primary 0 active, primary 2 an
extended partition at LBA 1000. -/
def chainMbr : Sector :=
  mkSector 1 (mkEntry 0x80 0x83 63 100) (mkEntry 0 0x83 200 100)
    (mkEntry 0 0x05 1000 5000) emptyEntry

/-- The disk of scenario 6 of the specification: primary 2 is an extended partition
at LBA 1000; the EMBR at 1000 holds one logical partition and a link to the EMBR at
1200 (start LBA 200 relative to the extended partition); the EMBR at 1200 holds one
logical partition. -/
def chainDisk : Nat → Sector := fun lba =>
  if lba = 0 then chainMbr
  else if lba = 1000 then
    mkSector 0 (mkEntry 0 0x83 63 100) (mkEntry 0 0x05 200 100) emptyEntry emptyEntry
  else if lba = 1200 then
    mkSector 0 (mkEntry 0 0x83 63 100) emptyEntry emptyEntry emptyEntry
  else List.replicate 512 0

/-- The device holding `chainDisk`, with no call issued yet. -/
def chainDev : BlockDev := ⟨chainDisk, [], okStatus⟩

/-- As `chainDisk`, but the block at LBA 1200, where the second EMBR should be, is
all zero: it has no signature. -/
def brokenSecondDisk : Nat → Sector := fun lba =>
  if lba = 0 then chainMbr
  else if lba = 1000 then
    mkSector 0 (mkEntry 0 0x83 63 100) (mkEntry 0 0x05 200 100) emptyEntry emptyEntry
  else List.replicate 512 0

/-- The device holding `brokenSecondDisk`, with no call issued yet. -/
def brokenSecondDev : BlockDev := ⟨brokenSecondDisk, [], okStatus⟩

/-- As `primaryDisk`, with an all-zero boot-code area. -/
def blankBootDisk : Nat → Sector := fun lba =>
  if lba = 0 then
    mkSector 0 (mkEntry 0x80 0x83 63 100) (mkEntry 0 0x83 200 100)
      (mkEntry 0 0x83 400 100) (mkEntry 0 0x83 600 100)
  else List.replicate 512 0

/-- The device holding `blankBootDisk`, with no call issued yet. -/
def blankBootDev : BlockDev := ⟨blankBootDisk, [], okStatus⟩

/-- The device holding `primaryDisk`, with no call issued yet. -/
def primaryDev : BlockDev := ⟨primaryDisk, [], okStatus⟩

/-! ## `ReadLine` and `ReadTokenLine` (`config.c`) -/

/-- The test `*p == 13 || *p == 10` of `ReadLine`. -/
def isCRLF (c : Nat) : Bool := c == 13 || c == 10

/-- The `CHAR8` at offset `p` of the buffer, as a number. -/
def unit8 (Buffer : List Byte) (p : Nat) : Nat := (Buffer.getD p 0).val

/-- The `CHAR16` at offset `p` (in 16-bit units) of the buffer, little-endian. -/
def unit16 (Buffer : List Byte) (p : Nat) : Nat :=
  (Buffer.getD (2 * p) 0).val + 256 * (Buffer.getD (2 * p + 1) 0).val

/-- The two loops `for (; p < End; p++) if (...) break;` of `ReadLine`: `n` is the
distance from `p` to the end pointer, `stop` the test that breaks the loop, `unit`
gives `*p`. The result is `p` after the loop. -/
def scanLine (stop : Nat → Bool) (unit : Nat → Nat) : Nat → Nat → Nat
  | 0, p => p
  | n + 1, p => if stop (unit p) then p else scanLine stop unit n (p + 1)

/-- The function `ReadLine(File)` of `config.c`. The result is `none` for `NULL`,
otherwise the `CHAR16` units copied to the new line before its terminating 0
(`AllocatePool` is taken to succeed); the second component is the file with its
cursor moved. -/
def ReadLine (File : REFIT_FILE) : Option (List Nat) × REFIT_FILE :=
  match File.Buffer with
  | none => (none, File)
  | some Buffer =>
    if File.Encoding = ENCODING_ISO8859_1 ∨ File.Encoding = ENCODING_UTF8 then
      let p := File.Current8Ptr
      if p ≥ File.End8Ptr then (none, File)
      else
        let LineStart := p
        let LineEnd := scanLine isCRLF (unit8 Buffer) (File.End8Ptr - p) p
        let p := scanLine (fun c => !isCRLF c) (unit8 Buffer) (File.End8Ptr - LineEnd) LineEnd
        (some ((List.range' LineStart (LineEnd - LineStart)).map (unit8 Buffer)),
          { File with Current8Ptr := p })
    else if File.Encoding = ENCODING_UTF16_LE then
      let p := File.Current16Ptr
      if p ≥ File.End16Ptr then (none, File)
      else
        let LineStart := p
        let LineEnd := scanLine isCRLF (unit16 Buffer) (File.End16Ptr - p) p
        let p := scanLine (fun c => !isCRLF c) (unit16 Buffer) (File.End16Ptr - LineEnd) LineEnd
        (some ((List.range' LineStart (LineEnd - LineStart)).map (unit16 Buffer)),
          { File with Current16Ptr := p })
    else (none, File)

/-- The test `*p == ' ' || *p == '\t' || *p == '=' || *p == ','` of line 229. -/
def isSeparator (c : Nat) : Bool := c == 32 || c == 9 || c == 61 || c == 44

/-- The unit `*p` of a 0-terminated string of which the units from `p` on are `r`:
the terminating 0 once `r` is used up. -/
def cur (r : List Nat) : Nat := r.headD 0

/-- Lines 229-230, `while ((...) && !IsQuoted) p++;`. The string is given by its
units from `p` on, the result is the string from the new `p` on. -/
def skipWhitespace (IsQuoted : Bool) : List Nat → List Nat
  | [] => []
  | c :: r => if isSeparator c = true ∧ IsQuoted = false then skipWhitespace IsQuoted r else c :: r

/-- Lines 241-245, the loop that finds the end of the token and rewrites `/` to
`\` outside quotes. The result is the units of the token as `StrDuplicate` will
copy them, and the string from the new `p` on. -/
def findEndOfToken (IsQuoted : Bool) : List Nat → List Nat × List Nat
  | [] => ([], [])
  | c :: r =>
    if c ≠ 0 ∧ c ≠ 34 ∧ ((c ≠ 32 ∧ c ≠ 9 ∧ c ≠ 61 ∧ c ≠ 35 ∧ c ≠ 44) ∨ IsQuoted = true) then
      ((if c = 47 ∧ IsQuoted = false then 92 else c) :: (findEndOfToken IsQuoted r).1,
        (findEndOfToken IsQuoted r).2)
    else ([], c :: r)

/-- Lines 227-253, the loop `while (!LineFinished)` over one line: `p` is the string
from the cursor on, `toks` the token list so far (`AddListElement` appends). The
fuel bounds the number of iterations; the result is the token list and `IsQuoted`
after the loop. -/
def tokenLoop : Nat → Bool → List Nat → List (List Nat) → List (List Nat) × Bool
  | 0, IsQuoted, _, toks => (toks, IsQuoted)
  | fuel + 1, IsQuoted, p, toks =>
    let p1 := skipWhitespace IsQuoted p
    if cur p1 = 0 ∨ cur p1 = 35 then (toks, IsQuoted)
    else
      let q1 := if cur p1 = 34 then !IsQuoted else IsQuoted
      let p2 := if cur p1 = 34 then p1.tail else p1
      let Token := (findEndOfToken q1 p2).1
      let p3 := (findEndOfToken q1 p2).2
      let q2 := if cur p3 = 34 then !q1 else q1
      if cur p3 = 0 ∨ cur p3 = 35 then (toks ++ [Token], q2)
      else tokenLoop fuel q2 p3.tail (toks ++ [Token])

/-- The tokens of one line and `IsQuoted` afterwards, for a line entered with the
given `IsQuoted`. Every iteration of the loop but the last moves `p` forward, so
the fuel is never used up. -/
def tokenizeLine (IsQuoted : Bool) (Line : List Nat) : List (List Nat) × Bool :=
  tokenLoop (Line.length + 1) IsQuoted Line []

/-- The number of units between the cursor and the end of the buffer, in the
encoding of the file. -/
def remaining (File : REFIT_FILE) : Nat :=
  if File.Encoding = ENCODING_UTF16_LE then File.End16Ptr - File.Current16Ptr
  else File.End8Ptr - File.Current8Ptr

/-- The loop `while (TokenCount == 0)` of `ReadTokenLine`, lines 220-256; `IsQuoted`
is not reset between two lines. `none` stands for running out of fuel. -/
def readTokenLoop : Nat → Bool → REFIT_FILE → Option (List (List Nat) × REFIT_FILE)
  | 0, _, _ => none
  | fuel + 1, IsQuoted, File =>
    match ReadLine File with
    | (none, File1) => some ([], File1)
    | (some Line, File1) =>
      if (tokenizeLine IsQuoted Line).1.length = 0 then
        readTokenLoop fuel (tokenizeLine IsQuoted Line).2 File1
      else some ((tokenizeLine IsQuoted Line).1, File1)

/-- The function `ReadTokenLine(File, TokenList)` of `config.c`: the token list (its
length is the `TokenCount` returned) and the file with its cursor moved. Every line
read moves the cursor, so `remaining File + 1` iterations are enough and the result
is never `none`. -/
def ReadTokenLine (File : REFIT_FILE) : Option (List (List Nat) × REFIT_FILE) :=
  readTokenLoop (remaining File + 1) false File

/-! ## `ReadConfig` (`config.c`) -/

/-- The structure `GlobalConfig` as `config.c` uses it; a file name is `none` for
`NULL`. -/
structure REFIT_CONFIG where
  Timeout : Nat
  DisableFlags : Nat
  HideUIFlags : Nat
  ScanFor : List Nat
  BannerFileName : Option (List Nat)
  SelectionSmallFileName : Option (List Nat)
  SelectionBigFileName : Option (List Nat)
  DefaultSelection : Option (List Nat)
  TextOnly : Bool
  deriving DecidableEq, Repr

/-- The constants that `config.c` takes from `global.h`, and the library function
`Atoi`, none of which is among the sources. -/
structure ConfigParams where
  DISABLE_FLAG_SHELL : Nat
  DISABLE_FLAG_TOOLS : Nat
  DISABLE_FLAG_SINGLEUSER : Nat
  DISABLE_FLAG_HWTEST : Nat
  DISABLE_ALL : Nat
  HIDEUI_FLAG_BANNER : Nat
  HIDEUI_FLAG_FUNCS : Nat
  HIDEUI_FLAG_LABEL : Nat
  HIDEUI_ALL : Nat
  NUM_SCAN_OPTIONS : Nat
  Atoi : List Nat → Nat

/-- The units of a string literal such as `L"timeout"`. -/
def wstr (s : String) : List Nat := s.toList.map Char.toNat

/-- Lower case of a unit, for the letters A to Z. -/
def toLowerUnit (c : Nat) : Nat := if 65 ≤ c ∧ c ≤ 90 then c + 32 else c

/-- Modelled from the spec: `StriCmp(a, b) == 0`, the case-insensitive comparison of
two strings (the library function is not among the sources). -/
def StriEq (a b : List Nat) : Bool := a.map toLowerUnit == b.map toLowerUnit

/-- The function `HandleInt(TokenList, TokenCount, Value)`: the new `*Value`. -/
def HandleInt (c : ConfigParams) (TokenList : List (List Nat)) (Value : Nat) : Nat :=
  if TokenList.length < 2 then Value
  else if TokenList.length > 2 then Value
  else c.Atoi (TokenList.getD 1 [])

/-- The function `HandleString(TokenList, TokenCount, Value)`: the new `*Value`. -/
def HandleString (TokenList : List (List Nat)) (Value : Option (List Nat)) : Option (List Nat) :=
  if TokenList.length < 2 then Value
  else if TokenList.length > 2 then Value
  else some (TokenList.getD 1 [])

/-- The body of the loop of lines 326-341 for one `FlagName` (the warning printed
for an unknown flag is left out). -/
def disableFlag (c : ConfigParams) (cfg : REFIT_CONFIG) (FlagName : List Nat) : REFIT_CONFIG :=
  if StriEq FlagName (wstr "shell") then
    { cfg with DisableFlags := cfg.DisableFlags ||| c.DISABLE_FLAG_SHELL }
  else if StriEq FlagName (wstr "tools") then
    { cfg with DisableFlags := cfg.DisableFlags ||| c.DISABLE_FLAG_TOOLS }
  else if StriEq FlagName (wstr "singleuser") then
    { cfg with DisableFlags := cfg.DisableFlags ||| c.DISABLE_FLAG_SINGLEUSER }
  else if StriEq FlagName (wstr "hwtest") then
    { cfg with DisableFlags := cfg.DisableFlags ||| c.DISABLE_FLAG_HWTEST }
  else if StriEq FlagName (wstr "all") then
    { cfg with DisableFlags := c.DISABLE_ALL }
  else cfg

/-- The body of the loop of lines 351-369 for one `FlagName` (the warning printed
for an unknown flag is left out). -/
def hideuiFlag (c : ConfigParams) (cfg : REFIT_CONFIG) (FlagName : List Nat) : REFIT_CONFIG :=
  if StriEq FlagName (wstr "banner") then
    { cfg with HideUIFlags := cfg.HideUIFlags ||| c.HIDEUI_FLAG_BANNER }
  else if StriEq FlagName (wstr "shell") then
    { cfg with DisableFlags := cfg.DisableFlags ||| c.DISABLE_FLAG_SHELL }
  else if StriEq FlagName (wstr "tools") then
    { cfg with DisableFlags := cfg.DisableFlags ||| c.DISABLE_FLAG_TOOLS }
  else if StriEq FlagName (wstr "funcs") then
    { cfg with HideUIFlags := cfg.HideUIFlags ||| c.HIDEUI_FLAG_FUNCS }
  else if StriEq FlagName (wstr "label") then
    { cfg with HideUIFlags := cfg.HideUIFlags ||| c.HIDEUI_FLAG_LABEL }
  else if StriEq FlagName (wstr "all") then
    { cfg with HideUIFlags := c.HIDEUI_ALL,
               DisableFlags := cfg.DisableFlags ||| (c.DISABLE_FLAG_SHELL ||| c.DISABLE_FLAG_TOOLS) }
  else cfg

/-- The loop of lines 344-349 over the slots of `ScanFor`, from slot `i` for `n`
more slots. -/
def scanforLoop (TokenList : List (List Nat)) : Nat → Nat → List Nat → List Nat
  | 0, _, ScanFor => ScanFor
  | n + 1, i, ScanFor =>
    scanforLoop TokenList n (i + 1)
      (ScanFor.set i (if i < TokenList.length then cur (TokenList.getD i []) else 32))

/-- The body of the loop of `ReadConfig`, lines 322-389, for one token line. -/
def handleTokenLine (c : ConfigParams) (cfg : REFIT_CONFIG) (TokenList : List (List Nat)) :
    REFIT_CONFIG :=
  let T0 := TokenList.getD 0 []
  if StriEq T0 (wstr "timeout") then
    { cfg with Timeout := HandleInt c TokenList cfg.Timeout }
  else if StriEq T0 (wstr "disable") then
    (TokenList.drop 1).foldl (disableFlag c) cfg
  else if StriEq T0 (wstr "scanfor") then
    { cfg with ScanFor := scanforLoop TokenList c.NUM_SCAN_OPTIONS 0 cfg.ScanFor }
  else if StriEq T0 (wstr "hideui") then
    (TokenList.drop 1).foldl (hideuiFlag c) cfg
  else if StriEq T0 (wstr "banner") then
    { cfg with BannerFileName := HandleString TokenList cfg.BannerFileName }
  else if StriEq T0 (wstr "selection_small") then
    { cfg with SelectionSmallFileName := HandleString TokenList cfg.SelectionSmallFileName }
  else if StriEq T0 (wstr "selection_big") then
    { cfg with SelectionBigFileName := HandleString TokenList cfg.SelectionBigFileName }
  else if StriEq T0 (wstr "default_selection") then
    { cfg with DefaultSelection := HandleString TokenList cfg.DefaultSelection }
  else if StriEq T0 (wstr "textonly") then
    { cfg with TextOnly := true }
  else cfg

/-- The loop `for (;;)` of `ReadConfig`, lines 317-392. `none` stands for running
out of fuel. -/
def readConfigLoop (c : ConfigParams) : Nat → REFIT_FILE → REFIT_CONFIG → Option REFIT_CONFIG
  | 0, _, _ => none
  | fuel + 1, File, cfg =>
    match ReadTokenLine File with
    | none => none
    | some (TokenList, File1) =>
      if TokenList.length = 0 then some cfg
      else readConfigLoop c fuel File1 (handleTokenLine c cfg TokenList)

/-- The function `ReadConfig()` of `config.c`, as a function from the `GlobalConfig`
before the call to the `GlobalConfig` after it. `FileExists` is the answer of the
library function of that name for the configuration file, `fs` the answers of the
firmware to the file calls. Every token line read moves the cursor, so the fuel is
enough and the result is never `none`. -/
def ReadConfig (c : ConfigParams) (FileExists : Bool) (fs : FileAccess) (cfg : REFIT_CONFIG) :
    Option REFIT_CONFIG :=
  if !FileExists then some cfg
  else
    match ReadFile fs blankFile with
    | (Status, File) =>
      if EFI_ERROR Status then some cfg
      else readConfigLoop c (remaining File + 1) File cfg

/-! ## Vocabulary of the statements about the configuration file -/

/-- A byte of the file as a `CHAR16` unit, for a buffer in ISO-8859-1. -/
def widen (bytes : List Byte) : List Nat := bytes.map (fun b => b.val)

/-- A file in memory with the given buffer and encoding, the cursors at the start. -/
def fileOf (Buffer : List Byte) (Encoding : Nat) : REFIT_FILE :=
  ⟨some Buffer, Buffer.length, Encoding, 0, Buffer.length, 0, Buffer.length >>> 1⟩

/-- The lines that repeated calls of `ReadLine` return until it returns `NULL`;
`none` stands for running out of fuel. -/
def readAllLines : Nat → REFIT_FILE → Option (List (List Nat))
  | 0, _ => none
  | fuel + 1, File =>
    match ReadLine File with
    | (none, _) => some []
    | (some Line, File1) => (readAllLines fuel File1).map (fun ls => Line :: ls)

/-- The test of `ReadLine` for CR and LF, on bytes. -/
def isNewline (b : Byte) : Bool := b.val == 13 || b.val == 10

/-- Reference for C11, from the words of the specification: the buffer split at
every CR or LF byte, the first piece kept as it is and, of the other pieces, the
empty ones (inside or after a run of CR/LF bytes) dropped; nothing for an empty
buffer. -/
def splitLinesRef (bytes : List Byte) : List (List Byte) :=
  if bytes = [] then []
  else
    match bytes.splitOnP isNewline with
    | [] => []
    | first :: rest => first :: rest.filter (fun l => !l.isEmpty)

/-- The rewriting of `/` to `\` in a token. -/
def slashToBackslash (t : List Nat) : List Nat := t.map (fun c => if c = 47 then 92 else c)

/-- Reference for C15, from the words of the specification: the prefix of the line
before the first `#`, split at the separators, the empty pieces dropped, every `/`
replaced by `\`. -/
def tokensRef (Line : List Nat) : List (List Nat) :=
  (((Line.takeWhile (fun c => c != 35)).splitOnP isSeparator).filter
    (fun t => !t.isEmpty)).map slashToBackslash

/-- The tokens joined by single spaces. -/
def joinTokens : List (List Nat) → List Nat
  | [] => []
  | [t] => t
  | t :: ts => t ++ 32 :: joinTokens ts

/-- A unit that can stand inside an unquoted token. -/
def plainUnit (c : Nat) : Prop := c ≠ 0 ∧ c ≠ 34 ∧ c ≠ 35 ∧ isSeparator c = false

/-- The units that make up an unquoted token of a line without `"` and without 0. -/
def tokenUnit (c : Nat) : Bool := !isSeparator c && c != 35

/-- A token as the round trip of C12 allows it: not empty, and without 0, separator,
`"` or `#`. -/
def plainToken (t : List Nat) : Prop := t ≠ [] ∧ ∀ c ∈ t, plainUnit c

/-- The loop of `ReadTokenLine` with `IsQuoted` set to `FALSE` before every line:
the reading of the specification, against which C16 compares `readTokenLoop`. -/
def readTokenLoopFresh : Nat → REFIT_FILE → Option (List (List Nat) × REFIT_FILE)
  | 0, _ => none
  | fuel + 1, File =>
    match ReadLine File with
    | (none, File1) => some ([], File1)
    | (some Line, File1) =>
      if (tokenizeLine false Line).1.length = 0 then readTokenLoopFresh fuel File1
      else some ((tokenizeLine false Line).1, File1)

/-- Parameters for the examples: the flag values of rEFInd, four scan slots, and
for `Atoi` the value of the leading decimal digits. -/
def exConfigParams : ConfigParams where
  DISABLE_FLAG_SHELL := 1
  DISABLE_FLAG_TOOLS := 2
  DISABLE_FLAG_SINGLEUSER := 4
  DISABLE_FLAG_HWTEST := 8
  DISABLE_ALL := 0xffff
  HIDEUI_FLAG_BANNER := 1
  HIDEUI_FLAG_FUNCS := 2
  HIDEUI_FLAG_LABEL := 4
  HIDEUI_ALL := 0xffff
  NUM_SCAN_OPTIONS := 4
  Atoi := fun s => (s.takeWhile (fun c => 48 ≤ c ∧ c ≤ 57)).foldl (fun u c => u * 10 + (c - 48)) 0

/-- A `GlobalConfig` for the examples. -/
def exConfig : REFIT_CONFIG := ⟨5, 4, 0, [32, 32, 32, 32], none, none, none, none, false⟩

/-- The bytes of a string of ISO-8859-1 characters. -/
def bytesOf (s : String) : List Byte := s.toList.map (fun ch => Fin.ofNat ch.toNat)

/-- The token lines that repeated calls of `ReadTokenLine` return until it returns
a count of 0; `none` stands for running out of fuel. -/
def readAllTokenLines : Nat → REFIT_FILE → Option (List (List (List Nat)))
  | 0, _ => none
  | fuel + 1, File =>
    match ReadTokenLine File with
    | none => none
    | some (TokenList, File1) =>
      if TokenList.length = 0 then some []
      else (readAllTokenLines fuel File1).map (fun Ts => TokenList :: Ts)

/-- The body of the loop over one line, lines 228-252, as a function of `IsQuoted`
and of the string from `p` on: `none` when the loop is left at line 232 before a
token, otherwise the token, the new `IsQuoted`, `LineFinished` and the string from
the new `p` on. -/
def tokenStep (IsQuoted : Bool) (p : List Nat) : Option (List Nat × Bool × Bool × List Nat) :=
  let p1 := skipWhitespace IsQuoted p
  if cur p1 = 0 ∨ cur p1 = 35 then none
  else
    let q1 := if cur p1 = 34 then !IsQuoted else IsQuoted
    let p2 := if cur p1 = 34 then p1.tail else p1
    let p3 := (findEndOfToken q1 p2).2
    some ((findEndOfToken q1 p2).1, (if cur p3 = 34 then !q1 else q1),
      decide (cur p3 = 0 ∨ cur p3 = 35), p3.tail)

/-- The token lines of a list of lines, every line tokenized from the unquoted
state, the lines without a token left out: what the specification lets the calls of
`ReadTokenLine` return for a file with these lines. -/
def tokenLinesRef (Lines : List (List Nat)) : List (List (List Nat)) :=
  (Lines.map (fun Line => (tokenizeLine false Line).1)).filter (fun T => T.length != 0)

/-- The loop of lines 344-349 with the value for slot `i` given by `v i`. -/
def setLoop (v : Nat → Nat) : Nat → Nat → List Nat → List Nat
  | 0, _, S => S
  | n + 1, i, S => setLoop v n (i + 1) (S.set i (v i))

/-- The value that the `scanfor` line with tokens `TokenList` gives to slot `i`. -/
def scanforValue (TokenList : List (List Nat)) (i : Nat) : Nat :=
  if i < TokenList.length then cur (TokenList.getD i []) else 32

/-- A change of one field that is the identity or sets a constant. -/
def ConstOrId {α : Type} (f : α → α) : Prop := (∀ x, f x = x) ∨ ∃ k, ∀ x, f x = k

/-- A change of a flag field that ORs bits into it, after clearing it or not. -/
def OrLike (f : Nat → Nat) : Prop :=
  ∃ (keep : Bool) (k : Nat), ∀ x, f x = (if keep = true then x else 0) ||| k

/-- A change of `ScanFor` that is the identity or rewrites its first `n` slots. -/
def ScanLike (n : Nat) (f : List Nat → List Nat) : Prop :=
  (∀ x, f x = x) ∨ ∃ v, ∀ x, f x = setLoop v n 0 x

/-- A change of `GlobalConfig` given field by field. -/
structure FieldMaps where
  timeout : Nat → Nat
  disable : Nat → Nat
  hideui : Nat → Nat
  scanFor : List Nat → List Nat
  banner : Option (List Nat) → Option (List Nat)
  small : Option (List Nat) → Option (List Nat)
  big : Option (List Nat) → Option (List Nat)
  selection : Option (List Nat) → Option (List Nat)
  textOnly : Bool → Bool

/-- The `GlobalConfig` after the change. -/
def FieldMaps.apply (e : FieldMaps) (cfg : REFIT_CONFIG) : REFIT_CONFIG :=
  ⟨e.timeout cfg.Timeout, e.disable cfg.DisableFlags, e.hideui cfg.HideUIFlags,
   e.scanFor cfg.ScanFor, e.banner cfg.BannerFileName, e.small cfg.SelectionSmallFileName,
   e.big cfg.SelectionBigFileName, e.selection cfg.DefaultSelection, e.textOnly cfg.TextOnly⟩

/-- Every field changes in one of the ways the directives of `ReadConfig` allow. -/
def FieldMaps.Good (n : Nat) (e : FieldMaps) : Prop :=
  ConstOrId e.timeout ∧ OrLike e.disable ∧ OrLike e.hideui ∧ ScanLike n e.scanFor ∧
  ConstOrId e.banner ∧ ConstOrId e.small ∧ ConstOrId e.big ∧ ConstOrId e.selection ∧
  ConstOrId e.textOnly

/-- A function on `GlobalConfig` that changes every field on its own, in one of the
ways the directives of `ReadConfig` allow. -/
def Fieldwise (n : Nat) (F : REFIT_CONFIG → REFIT_CONFIG) : Prop :=
  ∃ e : FieldMaps, e.Good n ∧ ∀ cfg, F cfg = e.apply cfg

/-- The change of `GlobalConfig` that changes nothing. -/
def FieldMaps.same : FieldMaps :=
  ⟨fun x => x, fun x => x, fun x => x, fun x => x, fun x => x, fun x => x, fun x => x,
   fun x => x, fun x => x⟩

/-! ## Vocabulary of the statements about the chain walk -/

/-- The device after the calls `ops` have been issued on it, one after the other. -/
def BlockDev.after (io : BlockDev) : List BlockOp → BlockDev
  | [] => io
  | .read lba :: ops => BlockDev.after (ReadBlocks io lba).2.2 ops
  | .write lba w :: ops => BlockDev.after (WriteBlocks io lba w).2 ops

/-- The offset of one of the four flag bytes of the partition table. -/
def flagOffset (off : Nat) : Prop := ∃ i, i < 4 ∧ off = entryOffset i

/-- The LBAs of the read calls of a list of calls, in order. -/
def readLBAs : List BlockOp → List Nat
  | [] => []
  | .read lba :: ops => lba :: readLBAs ops
  | .write _ _ :: ops => readLBAs ops

/-- Slot `i` holds a logical partition for the scan of lines 123-138: start LBA and
size not zero, type not extended. -/
def dataEntry (p : Params) (buf : Sector) (i : Nat) : Prop :=
  StartLBA buf i ≠ 0 ∧ Size buf i ≠ 0 ∧ p.IS_EXTENDED_PART_TYPE (PartType buf i) = false

/-- Slot `i` holds a link for the scan of lines 123-138: start LBA and size not zero,
type extended. -/
def linkEntry (p : Params) (buf : Sector) (i : Nat) : Prop :=
  StartLBA buf i ≠ 0 ∧ Size buf i ≠ 0 ∧ p.IS_EXTENDED_PART_TYPE (PartType buf i) = true

/-- The sector `w` written to block `c` against the sector `s` read from it: the same
length; a byte differs only if it is one of the four flag bytes or, for block 0 when
the first `MBR_BOOTCODE_SIZE` bytes of `s` are all zero, one of those bytes; and in
each of the four partition entries the fifteen bytes after the flag byte, with the
type, the start LBA and the size, are those of `s`. -/
def changesOnlyFlags (p : Params) (c : Nat) (s w : Sector) : Prop :=
  w.length = s.length ∧
  (∀ off, w.getD off 0 ≠ s.getD off 0 →
    flagOffset off ∨ (c = 0 ∧ HaveBootCode p s = false ∧ off < p.MBR_BOOTCODE_SIZE)) ∧
  ∀ i, i < 4 →
    (∀ d, 1 ≤ d → d < 16 → w.getD (entryOffset i + d) 0 = s.getD (entryOffset i + d) 0) ∧
    PartType w i = PartType s i ∧ StartLBA w i = StartLBA s i ∧ Size w i = Size s i

/-- An EMBR of a well-formed chain: the signature, valid flags in slots 0 and 1, a
logical partition in slot 0, and in slot 1 a link or an entry that ends the scan
(start LBA 0 or size 0). -/
def wellFormedEmbr (p : Params) (buf : Sector) : Prop :=
  Signature buf = 0xaa55 ∧ flagOK (Flags buf 0) ∧ flagOK (Flags buf 1) ∧ dataEntry p buf 0 ∧
    (linkEntry p buf 1 ∨ StartLBA buf 1 = 0 ∨ Size buf 1 = 0)

/-- A disk whose chain of links is cyclic: primary 2 is an extended partition at LBA
1000, the EMBR at 1000 links to the EMBR at 1200 and the EMBR at 1200 links to
itself. Both hold one logical partition, in slot 0. -/
def cycleDisk : Nat → Sector := fun lba =>
  if lba = 0 then chainMbr
  else if lba = 1000 then
    mkSector 0 (mkEntry 0 0x83 63 100) (mkEntry 0 0x05 200 100) emptyEntry emptyEntry
  else if lba = 1200 then
    mkSector 0 (mkEntry 0 0x83 63 100) (mkEntry 0 0x05 200 100) emptyEntry emptyEntry
  else List.replicate 512 0

/-- The device holding `cycleDisk`, with no call issued yet. -/
def cycleDev : BlockDev := ⟨cycleDisk, [], okStatus⟩

/-- A disk whose chain of links is cyclic and holds no logical partition: primary 2 is
an extended partition at LBA 1000 and is the active entry, the EMBR at 1000 holds only
a link to the EMBR at 1200, and the EMBR at 1200 holds only a link to itself. Both
links are active already. -/
def loopDisk : Nat → Sector := fun lba =>
  if lba = 0 then
    mkSector 1 (mkEntry 0 0x83 63 100) (mkEntry 0 0x83 200 100)
      (mkEntry 0x80 0x05 1000 5000) emptyEntry
  else if lba = 1000 then
    mkSector 0 (mkEntry 0x80 0x05 200 100) emptyEntry emptyEntry emptyEntry
  else if lba = 1200 then
    mkSector 0 (mkEntry 0x80 0x05 200 100) emptyEntry emptyEntry emptyEntry
  else List.replicate 512 0

/-- The device holding `loopDisk`, with no call issued yet. -/
def loopDev : BlockDev := ⟨loopDisk, [], okStatus⟩

/-- The calls that read and rewrite the blocks `cs`, one after the other, with the
sectors `ws`. -/
def rewriteCalls : List Nat → List Sector → List BlockOp
  | c :: cs, w :: ws => .read c :: .write c w :: rewriteCalls cs ws
  | _, _ => []

/-- The fields of `REFIT_VOLUME` that `ScanLegacyVolume` reads. `BlockIo` and
`WholeDiskBlockIo` stand for the pointers `Volume->BlockIO` and
`Volume->WholeDiskBlockIO`; `OSName` is `none` for `NULL`. -/
structure REFIT_VOLUME where
  IsAppleLegacy : Bool
  HasBootCode : Bool
  BlockIo : Nat
  WholeDiskBlockIo : Nat
  BlockIOOffset : Nat
  OSName : Option (List Nat)
  deriving DecidableEq, Repr

/-- The loop of lines 313-317 over `Volumes`, from `VolumeIndex2` for `n` more
volumes: the value of `ShowVolume` after it. -/
def hideLoop (Volumes : List REFIT_VOLUME) (Volume : REFIT_VOLUME) (VolumeIndex : Nat) :
    Nat → Nat → Bool → Bool
  | 0, _, ShowVolume => ShowVolume
  | n + 1, VolumeIndex2, ShowVolume =>
    hideLoop Volumes Volume VolumeIndex n (VolumeIndex2 + 1)
      (match Volumes[VolumeIndex2]? with
       | some V2 =>
         if VolumeIndex2 ≠ VolumeIndex ∧ V2.HasBootCode = true ∧
            V2.WholeDiskBlockIo = Volume.WholeDiskBlockIo then false
         else ShowVolume
       | none => ShowVolume)

/-- The function `ScanLegacyVolume(Volume, VolumeIndex)` of `legacy.c`, with the
global array `Volumes` of `VolumesCount` volumes as a list: the value of `ShowVolume`
at line 320, that is, whether `AddLegacyEntry(NULL, Volume)` is called. -/
def ScanLegacyVolume (Volumes : List REFIT_VOLUME) (Volume : REFIT_VOLUME)
    (VolumeIndex : Nat) : Bool :=
  let r : Bool × Bool :=
    if Volume.IsAppleLegacy = true then (true, true)
    else if Volume.HasBootCode = true then
      (true,
       if Volume.BlockIo = Volume.WholeDiskBlockIo ∧ Volume.BlockIOOffset = 0 ∧
          Volume.OSName = none then true
       else false)
    else (false, false)
  let ShowVolume := r.1
  let HideIfOthersFound := r.2
  if HideIfOthersFound = true then
    hideLoop Volumes Volume VolumeIndex Volumes.length 0 ShowVolume
  else ShowVolume

/-- The volumes the statement on `ScanLegacyVolume` calls flagged: Apple legacy, or
boot code on the whole disk at offset 0 without an OS name. -/
def flagged (V : REFIT_VOLUME) : Prop :=
  V.IsAppleLegacy = true ∨
    (V.HasBootCode = true ∧ V.BlockIo = V.WholeDiskBlockIo ∧ V.BlockIOOffset = 0 ∧
      V.OSName = none)

/-- Some volume at an index other than `n` has boot code and the whole-disk handle of
`V`. -/
def otherBootable (Volumes : List REFIT_VOLUME) (V : REFIT_VOLUME) (n : Nat) : Prop :=
  ∃ m V2, m ≠ n ∧ Volumes[m]? = some V2 ∧ V2.HasBootCode = true ∧
    V2.WholeDiskBlockIo = V.WholeDiskBlockIo

/-- A disk with boot code in its MBR, seen as a whole-disk volume. -/
def exWholeDisk : REFIT_VOLUME := ⟨false, true, 7, 7, 0, none⟩

/-- A partition of the disk of `exWholeDisk` with boot code. -/
def exPartition : REFIT_VOLUME := ⟨false, true, 8, 7, 2048, none⟩

/-! ## `AddStanzaEntries` (`config.c`) -/

/-- The fields of `LOADER_ENTRY` that the loop of `AddStanzaEntries` sets, and
`Title`. `Image` is `me.Image`; images and device paths are handles, `none` is
`NULL`. The other fields of the menu entry `me` and `VolName` are set once before
the loop from the arguments and are left out. -/
structure LOADER_ENTRY where
  Title : Option (List Nat)
  Image : Option Nat
  LoaderPath : Option (List Nat)
  DevicePath : Option Nat
  UseGraphicsMode : Bool
  Enabled : Bool
  OSType : Nat
  LoadOptions : Option (List Nat)
  deriving DecidableEq, Repr

/-- The functions that `AddStanzaEntries` calls on its `Volume` and that are defined
outside the sources: `FileDevicePath(Volume->DeviceHandle, path)`,
`SetLoaderDefaults(Entry, path, Volume)`, `LoadIcns(Volume->RootDir, name, 128)` and
`DummyImage(128)`. -/
structure StanzaParams where
  FileDevicePath : List Nat → Option Nat
  SetLoaderDefaults : LOADER_ENTRY → List Nat → LOADER_ENTRY
  LoadIcns : List Nat → Option Nat
  DummyImage : Option Nat

/-- Modelled from the spec: `MergeStrings(&First, Second, AddChar)` of `lib.c` (not
among the sources) appends `Second` to the string `*First`, separated by `AddChar`
when `AddChar` is not 0 and `*First` is not `NULL`; the spec has `options` and
`initrd` append to `loadOptions`, space-separated. The result is the new `*First`. -/
def MergeStrings (First : Option (List Nat)) (Second : List Nat) (AddChar : Nat) :
    Option (List Nat) :=
  match First with
  | none => some Second
  | some f => some (f ++ (if AddChar ≠ 0 then [AddChar] else []) ++ Second)

/-- The body of the loop of `AddStanzaEntries`, lines 421-447, for one token line:
the entry and `DefaultsSet` after it. `none` stands for a read of `TokenList[1]` on a
line of one token, outside the list that `ReadTokenLine` returned, after which the
source defines no behaviour. -/
def stanzaLine (sp : StanzaParams) (Entry : LOADER_ENTRY) (DefaultsSet : Bool)
    (TokenList : List (List Nat)) : Option (LOADER_ENTRY × Bool) :=
  let T0 := TokenList.getD 0 []
  if StriEq T0 (wstr "loader") then
    match TokenList[1]? with
    | none => none
    | some T1 =>
      let Entry1 := { Entry with LoaderPath := some T1, DevicePath := sp.FileDevicePath T1 }
      let Entry2 := sp.SetLoaderDefaults Entry1 T1
      some ({ Entry2 with LoadOptions := none }, true)
  else if StriEq T0 (wstr "icon") then
    match TokenList[1]? with
    | none => none
    | some T1 =>
      some ({ Entry with
               Image := match sp.LoadIcns T1 with
                        | none => sp.DummyImage
                        | some Image => some Image }, DefaultsSet)
  else if StriEq T0 (wstr "initrd") then
    match TokenList[1]? with
    | none => none
    | some T1 =>
      some ({ Entry with
               LoadOptions :=
                 MergeStrings (MergeStrings Entry.LoadOptions (wstr "initrd=") 32) T1 0 },
            DefaultsSet)
  else if StriEq T0 (wstr "options") then
    match TokenList[1]? with
    | none => none
    | some T1 => some ({ Entry with LoadOptions := MergeStrings Entry.LoadOptions T1 32 },
                       DefaultsSet)
  else if StriEq T0 (wstr "ostype") then
    if TokenList.length > 1 then
      some ({ Entry with OSType := cur (TokenList.getD 1 []) }, DefaultsSet)
    else some (Entry, DefaultsSet)
  else if StriEq T0 (wstr "graphics") then
    match TokenList[1]? with
    | none => none
    | some T1 => some ({ Entry with UseGraphicsMode := StriEq T1 (wstr "on") }, DefaultsSet)
  else if StriEq T0 (wstr "disabled") then
    some ({ Entry with Enabled := false }, DefaultsSet)
  else some (Entry, DefaultsSet)

/-- How a run of `AddStanzaEntries` ends: it returns the entry, with the file as it
leaves it; or the body of its loop reads `TokenList[1]` outside the token list; or
the fuel of the embedding runs out. -/
inductive StanzaRun where
  | returned (Entry : LOADER_ENTRY) (File : REFIT_FILE)
  | readOutside
  | outOfFuel
  deriving DecidableEq, Repr

/-- Lines 448-451: the bogus loader of an entry without a `loader` line. -/
def stanzaFinish (sp : StanzaParams) (Entry : LOADER_ENTRY) (DefaultsSet : Bool) :
    LOADER_ENTRY :=
  if !DefaultsSet then sp.SetLoaderDefaults Entry (wstr "\\EFI\\BOOT\\nemo.efi") else Entry

/-- The loop `while` of `AddStanzaEntries`, lines 420-447, and the lines after it. -/
def stanzaLoop (sp : StanzaParams) :
    Nat → REFIT_FILE → LOADER_ENTRY → Bool → StanzaRun
  | 0, _, _, _ => .outOfFuel
  | fuel + 1, File, Entry, DefaultsSet =>
    match ReadTokenLine File with
    | none => .outOfFuel
    | some (TokenList, File1) =>
      if TokenList.length > 0 ∧ StriEq (TokenList.getD 0 []) (wstr "\x7d") = false then
        match stanzaLine sp Entry DefaultsSet TokenList with
        | none => .readOutside
        | some (Entry1, DefaultsSet1) => stanzaLoop sp fuel File1 Entry1 DefaultsSet1
      else .returned (stanzaFinish sp Entry DefaultsSet) File1

/-- The function `AddStanzaEntries(File, Volume, Title)` of `config.c`; the volume is
in the parameters `sp`. Every token line read moves the cursor of the file, so a
fuel of `remaining File + 1` is enough. -/
def AddStanzaEntries (sp : StanzaParams) (fuel : Nat) (File : REFIT_FILE)
    (Title : Option (List Nat)) : StanzaRun :=
  stanzaLoop sp fuel File ⟨Title, none, none, none, false, true, 32, none⟩ false

/-! ## Vocabulary of the statements about stanzas -/

/-- The token lines of a stanza body: those before the first line whose first token
is the closing brace. -/
def stanzaBody (Ts : List (List (List Nat))) : List (List (List Nat)) :=
  Ts.takeWhile (fun T => !StriEq (T.getD 0 []) (wstr "\x7d"))

/-- The fold of the loop body over token lines. -/
def stanzaLines (sp : StanzaParams) :
    List (List (List Nat)) → LOADER_ENTRY → Bool → Option (LOADER_ENTRY × Bool)
  | [], Entry, DefaultsSet => some (Entry, DefaultsSet)
  | T :: Ts, Entry, DefaultsSet =>
    match stanzaLine sp Entry DefaultsSet T with
    | none => none
    | some (Entry1, DefaultsSet1) => stanzaLines sp Ts Entry1 DefaultsSet1

/-- A line whose first token is `loader`. -/
def isLoaderLine (T : List (List Nat)) : Prop := StriEq (T.getD 0 []) (wstr "loader") = true

/-- A line whose directive reads its argument `TokenList[1]` without a test of
`TokenCount`. -/
def readsArgument (T : List (List Nat)) : Prop :=
  StriEq (T.getD 0 []) (wstr "loader") = true ∨ StriEq (T.getD 0 []) (wstr "icon") = true ∨
  StriEq (T.getD 0 []) (wstr "initrd") = true ∨ StriEq (T.getD 0 []) (wstr "options") = true ∨
  StriEq (T.getD 0 []) (wstr "graphics") = true

/-- What a line contributes to the load options, after the claim: the argument of an
`options` line, `initrd=` and the argument of an `initrd` line, nothing otherwise. -/
def optionItem (T : List (List Nat)) : Option (List Nat) :=
  if StriEq (T.getD 0 []) (wstr "options") then some (T.getD 1 [])
  else if StriEq (T.getD 0 []) (wstr "initrd") then some (wstr "initrd=" ++ T.getD 1 [])
  else none

/-- The space-separated concatenation of the items; `NULL` when there is none. -/
def joinOptions (items : List (List Nat)) : Option (List Nat) :=
  if items = [] then none else some (joinTokens items)

/-- Parameters for the examples: the device path is handle 1, icons are not found
and the dummy image is handle 9, and the defaults set the load options `ro`. -/
def exStanzaParams : StanzaParams where
  FileDevicePath := fun _ => some 1
  SetLoaderDefaults := fun Entry _ => { Entry with LoadOptions := some [114, 111], OSType := 76 }
  LoadIcns := fun _ => none
  DummyImage := some 9

/-! ## Vocabulary and disks for the active entries after a logical activation -/

/-- The number of entries of a sector, over all four slots, that are in use (start
LBA and size not zero), not of extended type, and active (flag 0x80): the active
logical partitions of an EMBR, whether the scan of lines 123-138 reaches them or not. -/
def activeNonLink (p : Params) (buf : Sector) : Nat :=
  ((List.range 4).filter
    (fun i => StartLBA buf i != 0 && Size buf i != 0 &&
      !p.IS_EXTENDED_PART_TYPE (PartType buf i) && Flags buf i == 0x80)).length

/-- A disk with two extended primaries: primary 2 at LBA 1000 and primary 3 at LBA
3000. The EMBR at 3000 holds one logical partition; the block at LBA 1000 is all
zero. -/
def twoExtendedDisk : Nat → Sector := fun lba =>
  if lba = 0 then
    mkSector 1 (mkEntry 0x80 0x83 63 100) (mkEntry 0 0x83 200 100)
      (mkEntry 0 0x05 1000 2000) (mkEntry 0 0x0f 3000 2000)
  else if lba = 3000 then
    mkSector 0 (mkEntry 0 0x83 63 100) emptyEntry emptyEntry emptyEntry
  else List.replicate 512 0

/-- The device holding `twoExtendedDisk`, with no call issued yet. -/
def twoExtendedDev : BlockDev := ⟨twoExtendedDisk, [], okStatus⟩

/-- As `chainDisk`, but the logical partition of the EMBR at LBA 1200, the second of
the chain, is marked active already. -/
def staleDisk : Nat → Sector := fun lba =>
  if lba = 0 then chainMbr
  else if lba = 1000 then
    mkSector 0 (mkEntry 0 0x83 63 100) (mkEntry 0 0x05 200 100) emptyEntry emptyEntry
  else if lba = 1200 then
    mkSector 0 (mkEntry 0x80 0x83 63 100) emptyEntry emptyEntry emptyEntry
  else List.replicate 512 0

/-- The device holding `staleDisk`, with no call issued yet. -/
def staleDev : BlockDev := ⟨staleDisk, [], okStatus⟩

/-- As `chainDisk`, but the EMBR at LBA 1000 holds, in slot 2 behind its link, one
more partition entry, marked active already. -/
def behindLinkDisk : Nat → Sector := fun lba =>
  if lba = 0 then chainMbr
  else if lba = 1000 then
    mkSector 0 (mkEntry 0 0x83 63 100) (mkEntry 0 0x05 200 100)
      (mkEntry 0x80 0x83 400 100) emptyEntry
  else if lba = 1200 then
    mkSector 0 (mkEntry 0 0x83 63 100) emptyEntry emptyEntry emptyEntry
  else List.replicate 512 0

/-- The device holding `behindLinkDisk`, with no call issued yet. -/
def behindLinkDev : BlockDev := ⟨behindLinkDisk, [], okStatus⟩

/-- The parameters of the examples with a 32-bit `UINTN`, as on IA32 firmware. -/
def exParams32 : Params := { exParams with UINTN_BITS := 32 }

/-- An EMBR with three logical partitions in slots 0 to 2 and, in slot 3, a link with
start LBA `n`; no entry is active. -/
def longEmbr (n : Nat) : Sector :=
  mkSector 0 (mkEntry 0 0x83 63 1) (mkEntry 0 0x83 64 1) (mkEntry 0 0x83 65 1)
    (mkEntry 0 0x05 n 1)

/-- A disk with a chain that does not come back to a block: primary 0 is an extended
partition at LBA 1, and every block n from 1 on is the EMBR `longEmbr n`, with three
logical partitions and a link to block n + 1. -/
def longDisk : Nat → Sector := fun lba =>
  if lba = 0 then mkSector 1 (mkEntry 0 0x05 1 4294967295) emptyEntry emptyEntry emptyEntry
  else longEmbr lba

/-- The device holding `longDisk`, with no call issued yet. -/
def longDev : BlockDev := ⟨longDisk, [], okStatus⟩

/-! # Theorems -/

/-! ## Basic facts about buffers -/

theorem getD_set_ne (buf : Sector) (i j : Nat) (v d : Byte) (h : i ≠ j) :
    (buf.set i v).getD j d = buf.getD j d := by
  simp [List.getD_eq_getElem?_getD, List.getElem?_set_ne h]

theorem getD_set_eq (buf : Sector) (i : Nat) (v d : Byte) (h : i < buf.length) :
    (buf.set i v).getD i d = v := by
  simp [List.getD_eq_getElem?_getD, h]

theorem length_of_getD_ne (buf : Sector) (i : Nat) (h : buf.getD i 0 ≠ 0) : i < buf.length := by
  by_contra hlt
  exact h (List.getD_eq_default _ _ (by omega))

theorem length_of_Signature (buf : Sector) (h : Signature buf = 0xaa55) : 512 ≤ buf.length := by
  have h1 : buf.getD 511 0 ≠ 0 := by
    intro h0
    unfold Signature at h
    rw [h0] at h
    have := (buf.getD 510 0).isLt
    simp at h
    omega
  have := length_of_getD_ne buf 511 h1
  omega

theorem SetMem_length (buf : Sector) (n : Nat) (v : Byte) : (SetMem buf n v).length = buf.length := by
  induction buf generalizing n with
  | nil => simp [SetMem]
  | cons b bs ih => cases n <;> simp [SetMem, ih]

theorem SetMem_getD_ge (buf : Sector) (n : Nat) (v : Byte) (j : Nat) (h : n ≤ j) :
    (SetMem buf n v).getD j 0 = buf.getD j 0 := by
  induction buf generalizing n j with
  | nil => simp [SetMem]
  | cons b bs ih =>
    cases n with
    | zero => simp [SetMem]
    | succ n =>
      cases j with
      | zero => omega
      | succ j => simpa [SetMem] using ih n j (by omega)

theorem CopyMem_length (buf : Sector) (src : List Byte) (n : Nat) :
    (CopyMem buf src n).length = buf.length := by
  induction buf generalizing src n with
  | nil => simp [CopyMem]
  | cons b bs ih =>
    cases n with
    | zero => simp [CopyMem]
    | succ n => cases src <;> simp [CopyMem, ih]

theorem CopyMem_getD_ge (buf : Sector) (src : List Byte) (n j : Nat) (h : n ≤ j) :
    (CopyMem buf src n).getD j 0 = buf.getD j 0 := by
  induction buf generalizing src n j with
  | nil => simp [CopyMem]
  | cons b bs ih =>
    cases n with
    | zero => simp [CopyMem]
    | succ n =>
      cases src with
      | nil => simp [CopyMem]
      | cons s ss =>
        cases j with
        | zero => omega
        | succ j => simpa [CopyMem] using ih ss n j (by omega)

theorem CopyMem_getD_lt (buf : Sector) (src : List Byte) (n j : Nat)
    (hn : j < n) (hs : j < src.length) (hb : j < buf.length) :
    (CopyMem buf src n).getD j 0 = src.getD j 0 := by
  induction buf generalizing src n j with
  | nil => simp at hb
  | cons b bs ih =>
    cases n with
    | zero => omega
    | succ n =>
      cases src with
      | nil => simp at hs
      | cons s ss =>
        cases j with
        | zero => simp [CopyMem]
        | succ j =>
          simp at hs hb
          simpa [CopyMem] using ih ss n j (by omega) (by omega) (by omega)

theorem HaveBootCode_false_iff (p : Params) (buf : Sector) :
    HaveBootCode p buf = false ↔ ∀ i, i < p.MBR_BOOTCODE_SIZE → buf.getD i 0 = 0 := by
  simp [HaveBootCode]

theorem addBootCode_length (p : Params) (buf : Sector) :
    (addBootCode p buf).length = buf.length := by
  unfold addBootCode
  split
  · rfl
  · rw [CopyMem_length, SetMem_length]

theorem addBootCode_getD_ge (p : Params) (buf : Sector) (j : Nat)
    (hB : p.MBR_BOOTCODE_SIZE ≤ j) (hS : p.SYSLINUX_MBR_SIZE ≤ j) :
    (addBootCode p buf).getD j 0 = buf.getD j 0 := by
  unfold addBootCode
  split
  · rfl
  · rw [CopyMem_getD_ge _ _ _ _ hS, SetMem_getD_ge _ _ _ _ hB]


theorem SetMem_zero_noop (buf : Sector) (n : Nat) (h : ∀ i, i < n → buf.getD i 0 = 0) :
    SetMem buf n 0 = buf := by
  induction buf generalizing n with
  | nil => simp [SetMem]
  | cons b bs ih =>
    cases n with
    | zero => simp [SetMem]
    | succ n =>
      have hb : b = 0 := by simpa using h 0 (by omega)
      have := ih n (fun i hi => by simpa using h (i + 1) (by omega))
      simp [SetMem, this, hb]

theorem addBootCode_eq (p : Params) (buf : Sector) :
    addBootCode p buf =
      if HaveBootCode p buf then buf else CopyMem buf p.syslinux_mbr p.SYSLINUX_MBR_SIZE := by
  unfold addBootCode
  split
  · rfl
  · rename_i h
    rw [SetMem_zero_noop]
    exact (HaveBootCode_false_iff p buf).1 (by simpa using h)

theorem addBootCode_getD_ge_syslinux (p : Params) (buf : Sector) (j : Nat)
    (hS : p.SYSLINUX_MBR_SIZE ≤ j) : (addBootCode p buf).getD j 0 = buf.getD j 0 := by
  rw [addBootCode_eq]
  split
  · rfl
  · rw [CopyMem_getD_ge _ _ _ _ hS]

/-! ## Partition-table fields under `setFlags` -/

theorem setFlags_length (buf : Sector) (i : Nat) (v : Byte) :
    (setFlags buf i v).length = buf.length := by
  simp [setFlags]

theorem setFlags_getD_ne (buf : Sector) (i : Nat) (v : Byte) (off : Nat)
    (h : off ≠ entryOffset i) : (setFlags buf i v).getD off 0 = buf.getD off 0 :=
  getD_set_ne buf _ _ v 0 (Ne.symm h)

theorem Flags_setFlags_eq (buf : Sector) (i : Nat) (v : Byte) (h : entryOffset i < buf.length) :
    Flags (setFlags buf i v) i = v :=
  getD_set_eq buf _ v 0 h

theorem Flags_setFlags_ne (buf : Sector) (i j : Nat) (v : Byte) (h : j ≠ i) :
    Flags (setFlags buf i v) j = Flags buf j := by
  apply setFlags_getD_ne
  unfold entryOffset; omega

theorem PartType_setFlags (buf : Sector) (i j : Nat) (v : Byte) :
    PartType (setFlags buf i v) j = PartType buf j := by
  apply setFlags_getD_ne
  unfold entryOffset; omega

theorem readU32_congr (a b : Sector) (off : Nat)
    (h : ∀ d, d < 4 → a.getD (off + d) 0 = b.getD (off + d) 0) : readU32 a off = readU32 b off := by
  unfold readU32
  have h0 := h 0 (by omega)
  rw [Nat.add_zero] at h0
  rw [h0, h 1 (by omega), h 2 (by omega), h 3 (by omega)]

theorem StartLBA_setFlags (buf : Sector) (i j : Nat) (v : Byte) :
    StartLBA (setFlags buf i v) j = StartLBA buf j := by
  apply readU32_congr
  intro d hd
  apply setFlags_getD_ne
  unfold entryOffset; omega

theorem Size_setFlags (buf : Sector) (i j : Nat) (v : Byte) :
    Size (setFlags buf i v) j = Size buf j := by
  apply readU32_congr
  intro d hd
  apply setFlags_getD_ne
  unfold entryOffset; omega

theorem Signature_congr (a b : Sector) (h0 : a.getD 510 0 = b.getD 510 0)
    (h1 : a.getD 511 0 = b.getD 511 0) : Signature a = Signature b := by
  unfold Signature; rw [h0, h1]

theorem Signature_setFlags (buf : Sector) (i : Nat) (v : Byte) (h : i < 4) :
    Signature (setFlags buf i v) = Signature buf := by
  apply Signature_congr <;> apply setFlags_getD_ne <;> (unfold entryOffset; omega)

/-! ## The loop over the primary table -/

theorem mbrLoop_frame (p : Params) (k n : Nat) : ∀ (i : Nat) (buf : Sector) (e : Nat) (w : Sector) (e1 : Nat),
    mbrLoop p k n i buf e = some (w, e1) →
    w.length = buf.length ∧
      ∀ off, (∀ j, i ≤ j → j < i + n → off ≠ entryOffset j) → w.getD off 0 = buf.getD off 0 := by
  induction n with
  | zero =>
    intro i buf e w e1 h
    simp [mbrLoop] at h
    obtain ⟨rfl, -⟩ := h
    exact ⟨rfl, fun _ _ => rfl⟩
  | succ n ih =>
    intro i buf e w e1 h
    unfold mbrLoop at h
    have key : ∀ v e2, mbrLoop p k n (i + 1) (setFlags buf i v) e2 = some (w, e1) →
        w.length = buf.length ∧
        ∀ off, (∀ j, i ≤ j → j < i + (n + 1) → off ≠ entryOffset j) →
          w.getD off 0 = buf.getD off 0 := by
      intro v e2 h2
      obtain ⟨hl, hf⟩ := ih _ _ _ _ _ h2
      refine ⟨by rw [hl, setFlags_length], fun off hoff => ?_⟩
      rw [hf off (fun j h1 h2 => hoff j (by omega) (by omega))]
      exact setFlags_getD_ne _ _ _ _ (hoff i (by omega) (by omega))
    split_ifs at h
    · exact key _ _ h
    · exact key _ _ h
    · exact key _ _ h

theorem mbrLoop_flags (p : Params) (k n : Nat) : ∀ (i : Nat) (buf : Sector) (e : Nat) (w : Sector) (e1 : Nat),
    mbrLoop p k n i buf e = some (w, e1) → entryOffset (i + n) ≤ buf.length →
    ∀ j, i ≤ j → j < i + n →
      Flags w j = if j = k then 0x80
        else if k ≥ 4 ∧ p.IS_EXTENDED_PART_TYPE (PartType buf j) = true then 0x80 else 0x00 := by
  induction n with
  | zero => intro i buf e w e1 _ _ j h1 h2; omega
  | succ n ih =>
    intro i buf e w e1 h hlen j h1 h2
    unfold mbrLoop at h
    have hi : entryOffset i < buf.length := by unfold entryOffset at hlen ⊢; omega
    have key : ∀ v e2, mbrLoop p k n (i + 1) (setFlags buf i v) e2 = some (w, e1) →
        (v = if i = k then 0x80
          else if k ≥ 4 ∧ p.IS_EXTENDED_PART_TYPE (PartType buf i) = true then 0x80 else 0x00) →
        Flags w j = if j = k then 0x80
          else if k ≥ 4 ∧ p.IS_EXTENDED_PART_TYPE (PartType buf j) = true then 0x80 else 0x00 := by
      intro v e2 h3 hv
      by_cases hji : j = i
      · subst hji
        have := (mbrLoop_frame p k n _ _ _ _ _ h3).2 (entryOffset j)
          (fun j2 h4 _ => by unfold entryOffset; omega)
        unfold Flags
        rw [this]
        have h5 := Flags_setFlags_eq buf j v hi
        unfold Flags at h5
        rw [h5, hv]
      · have := ih (i + 1) (setFlags buf i v) e2 w e1 h3
          (by rw [setFlags_length]; unfold entryOffset at hlen ⊢; omega) j (by omega) (by omega)
        rw [this, PartType_setFlags]
    split_ifs at h with h1 h2 h3
    · exact key _ _ h (by simp [h2])
    · exact key _ _ h (by simp [h2, h3])
    · exact key _ _ h (by simp [h2, h3])

theorem mbrLoop_isSome (p : Params) (k n : Nat) : ∀ (i : Nat) (buf : Sector) (e : Nat),
    (∀ j, i ≤ j → j < i + n → flagOK (Flags buf j)) →
    ∃ w e1, mbrLoop p k n i buf e = some (w, e1) := by
  induction n with
  | zero => intro i buf e _; exact ⟨buf, e, rfl⟩
  | succ n ih =>
    intro i buf e h
    unfold mbrLoop
    have hi := h i (by omega) (by omega)
    have key : ∀ v e2, ∃ w e1, mbrLoop p k n (i + 1) (setFlags buf i v) e2 = some (w, e1) := by
      intro v e2
      apply ih
      intro j h1 h2
      rw [Flags_setFlags_ne _ _ _ _ (by omega)]
      exact h j (by omega) (by omega)
    have hn : ¬ (Flags buf i ≠ 0x00 ∧ Flags buf i ≠ 0x80) := by
      unfold flagOK at hi; tauto
    rw [if_neg hn]
    split_ifs
    · exact key _ _
    · exact key _ _
    · exact key _ _

theorem walk_zero (p : Params) (k eb c L : Nat) (io : BlockDev) :
    walk p k eb 0 c L io = if c = 0 then ⟨some .EFI_SUCCESS, io, L⟩ else ⟨none, io, L⟩ := rfl

theorem walk_done (p : Params) (k eb fuel L : Nat) (io : BlockDev) :
    walk p k eb fuel 0 L io = ⟨some .EFI_SUCCESS, io, L⟩ := by
  cases fuel <;> simp [walk]

theorem walk_succ (p : Params) (k eb fuel c L : Nat) (io : BlockDev) (hc : c ≠ 0) :
    walk p k eb (fuel + 1) c L io =
      if EFI_ERROR (io.status io.log (.read c)) = true then
        ⟨some (io.status io.log (.read c)), { io with log := io.log ++ [.read c] }, L⟩
      else if Signature (io.disk c) ≠ 0xaa55 then
        ⟨some .EFI_NOT_FOUND, { io with log := io.log ++ [.read c] }, L⟩
      else
        match embrLoop p k eb 4 0 (io.disk c) 0 L with
        | none => ⟨some .EFI_NOT_FOUND, { io with log := io.log ++ [.read c] }, L⟩
        | some (w, nx, L1) =>
          if EFI_ERROR (io.status (io.log ++ [.read c]) (.write c w)) = true then
            ⟨some (io.status (io.log ++ [.read c]) (.write c w)),
              { io with log := io.log ++ [.read c] ++ [.write c w] }, L1⟩
          else if k < L1 then
            ⟨some .EFI_SUCCESS,
              { io with log := io.log ++ [.read c] ++ [.write c w],
                        disk := Function.update io.disk c w }, L1⟩
          else
            walk p k eb fuel nx L1
              { io with log := io.log ++ [.read c] ++ [.write c w],
                        disk := Function.update io.disk c w } := by
  rw [walk]
  simp only [ReadBlocks, WriteBlocks, if_neg hc]
  split_ifs with h1 h2
  · rfl
  · rfl
  · cases hm : embrLoop p k eb 4 0 (io.disk c) 0 L with
    | none => rfl
    | some r =>
      obtain ⟨w, nx, L1⟩ := r
      simp only
      split_ifs <;> rfl

theorem Activate_unfold (p : Params) (fuel : Nat) (io : BlockDev) (k : Nat) :
    ActivateMbrPartition p fuel io k =
      if EFI_ERROR (io.status io.log (.read 0)) = true then
        ⟨some (io.status io.log (.read 0)), { io with log := io.log ++ [.read 0] }, 4⟩
      else if Signature (io.disk 0) ≠ 0xaa55 then
        ⟨some .EFI_NOT_FOUND, { io with log := io.log ++ [.read 0] }, 4⟩
      else
        match mbrLoop p k 4 0 (addBootCode p (io.disk 0)) 0 with
        | none => ⟨some .EFI_NOT_FOUND, { io with log := io.log ++ [.read 0] }, 4⟩
        | some (w, eb) =>
          if EFI_ERROR (io.status (io.log ++ [.read 0]) (.write 0 w)) = true then
            ⟨some (io.status (io.log ++ [.read 0]) (.write 0 w)),
              { io with log := io.log ++ [.read 0] ++ [.write 0 w] }, 4⟩
          else if k ≥ 4 then
            walk p k eb fuel eb 4
              { io with log := io.log ++ [.read 0] ++ [.write 0 w],
                        disk := Function.update io.disk 0 w }
          else
            ⟨some .EFI_SUCCESS,
              { io with log := io.log ++ [.read 0] ++ [.write 0 w],
                        disk := Function.update io.disk 0 w }, 4⟩ := by
  unfold ActivateMbrPartition
  simp only [ReadBlocks, WriteBlocks]
  by_cases h1 : EFI_ERROR (io.status io.log (.read 0)) = true
  · rw [if_pos h1, if_pos h1]
  · rw [if_neg h1, if_neg h1]
    by_cases h2 : Signature (io.disk 0) ≠ 0xaa55
    · rw [if_pos h2, if_pos h2]
    · rw [if_neg h2, if_neg h2]
      cases hm : mbrLoop p k 4 0 (addBootCode p (io.disk 0)) 0 with
      | none => rfl
      | some r =>
        obtain ⟨w, eb⟩ := r
        simp only
        split_ifs <;> rfl

theorem walk_log (p : Params) (k eb : Nat) : ∀ (fuel c L : Nat) (io : BlockDev),
    ∃ ops, (walk p k eb fuel c L io).io.log = io.log ++ ops ∧
      (walk p k eb fuel c L io).io.status = io.status := by
  intro fuel
  induction fuel with
  | zero =>
    intro c L io
    rw [walk_zero]
    split_ifs <;> exact ⟨[], by simp, rfl⟩
  | succ fuel ih =>
    intro c L io
    by_cases hc : c = 0
    · subst hc; rw [walk_done]; exact ⟨[], by simp, rfl⟩
    · rw [walk_succ _ _ _ _ _ _ _ hc]
      split_ifs with h1 h2
      · exact ⟨[.read c], rfl, rfl⟩
      · exact ⟨[.read c], rfl, rfl⟩
      · cases hm : embrLoop p k eb 4 0 (io.disk c) 0 L with
        | none => exact ⟨[.read c], rfl, rfl⟩
        | some r =>
          obtain ⟨w, nx, L1⟩ := r
          simp only
          split_ifs with h3 h4
          · exact ⟨[.read c, .write c w], by simp, rfl⟩
          · exact ⟨[.read c, .write c w], by simp, rfl⟩
          · obtain ⟨ops, h5, h6⟩ := ih nx L1
              { io with log := io.log ++ [.read c] ++ [.write c w],
                        disk := Function.update io.disk c w }
            exact ⟨.read c :: .write c w :: ops, by rw [h5]; simp, by rw [h6]⟩


/-! ## The primary stage: boot code, table rewrite -/

theorem addBootCode_Flags (p : Params) (buf : Sector) (i : Nat)
    (hS : p.SYSLINUX_MBR_SIZE ≤ 446) : Flags (addBootCode p buf) i = Flags buf i :=
  addBootCode_getD_ge_syslinux p buf _ (by unfold entryOffset; omega)

theorem addBootCode_PartType (p : Params) (buf : Sector) (i : Nat)
    (hS : p.SYSLINUX_MBR_SIZE ≤ 446) : PartType (addBootCode p buf) i = PartType buf i :=
  addBootCode_getD_ge_syslinux p buf _ (by unfold entryOffset; omega)

theorem addBootCode_Signature (p : Params) (buf : Sector)
    (hS : p.SYSLINUX_MBR_SIZE ≤ 510) : Signature (addBootCode p buf) = Signature buf :=
  Signature_congr _ _ (addBootCode_getD_ge_syslinux p buf _ (by omega))
    (addBootCode_getD_ge_syslinux p buf _ (by omega))

theorem mbrLoop_Signature (p : Params) (k : Nat) (buf : Sector) (e : Nat) (w : Sector) (e1 : Nat)
    (h : mbrLoop p k 4 0 buf e = some (w, e1)) : Signature w = Signature buf := by
  have hf := (mbrLoop_frame p k 4 0 buf e w e1 h).2
  apply Signature_congr <;> apply hf <;> intro j _ hj <;> (unfold entryOffset; omega)

/-- What the primary stage does to a sector that passes the checks: the loop ends
normally and the sector it leaves has the signature and the flags prescribed by
lines 94-100. -/
theorem primary_stage (p : Params) (k : Nat) (s : Sector)
    (hS : p.SYSLINUX_MBR_SIZE ≤ 446) (hsig : Signature s = 0xaa55)
    (hflags : ∀ i, i < 4 → flagOK (Flags s i)) :
    ∃ w eb, mbrLoop p k 4 0 (addBootCode p s) 0 = some (w, eb) ∧ Signature w = 0xaa55 ∧
      ∀ i, i < 4 → Flags w i = if i = k then 0x80
        else if k ≥ 4 ∧ p.IS_EXTENDED_PART_TYPE (PartType s i) = true then 0x80 else 0x00 := by
  obtain ⟨w, eb, hm⟩ := mbrLoop_isSome p k 4 0 (addBootCode p s) 0
    (fun j _ hj => by rw [addBootCode_Flags p s j hS]; exact hflags j (by omega))
  refine ⟨w, eb, hm, ?_, ?_⟩
  · rw [mbrLoop_Signature p k _ _ _ _ hm, addBootCode_Signature p s (by omega), hsig]
  · intro i hi
    have hlen : 512 ≤ (addBootCode p s).length := by
      rw [addBootCode_length]; exact length_of_Signature s hsig
    rw [mbrLoop_flags p k 4 0 _ 0 w eb hm (by unfold entryOffset; omega) i (by omega) (by omega),
      addBootCode_PartType p s i hS]

/-- C1. With `SYSLINUX_MBR_SIZE` at most 446, on a device whose calls all succeed,
for a sector 0 with the signature 0xAA55 and four primary flags in {0x00, 0x80}, and
for every `PartitionIndex` k below 4: the call returns `EFI_SUCCESS` whatever the
fuel, issues exactly one read of LBA 0 followed by one write to LBA 0, and the
sector written, which becomes block 0 of the disk, keeps the signature and has
flag 0x80 in slot k and 0x00 in the three other slots. -/
theorem C1_activate_primary (p : Params) (fuel : Nat) (io : BlockDev) (k : Nat)
    (hS : p.SYSLINUX_MBR_SIZE ≤ 446) (hk : k < 4)
    (hsig : Signature (io.disk 0) = 0xaa55)
    (hflags : ∀ i, i < 4 → Flags (io.disk 0) i = 0x00 ∨ Flags (io.disk 0) i = 0x80)
    (hio : ∀ l op, EFI_ERROR (io.status l op) = false) :
    ∃ w, (ActivateMbrPartition p fuel io k).Status = some .EFI_SUCCESS ∧
      (ActivateMbrPartition p fuel io k).io.log = io.log ++ [.read 0, .write 0 w] ∧
      (ActivateMbrPartition p fuel io k).io.disk = Function.update io.disk 0 w ∧
      Signature w = 0xaa55 ∧
      ∀ i, i < 4 → Flags w i = if i = k then 0x80 else 0x00 := by
  obtain ⟨w, eb, hm, hw, hf⟩ := primary_stage p k (io.disk 0) hS hsig hflags
  refine ⟨w, ?_, ?_, ?_, hw, ?_⟩
  · rw [Activate_unfold]
    simp [hio, hsig, hm, Nat.not_le.2 hk]
  · rw [Activate_unfold]
    simp [hio, hsig, hm, Nat.not_le.2 hk]
  · rw [Activate_unfold]
    simp [hio, hsig, hm, Nat.not_le.2 hk]
  · intro i hi
    rw [hf i hi]
    have : ¬ k ≥ 4 := by omega
    simp [this]

/-- Once the primary stage has passed its checks, the log of the run starts with
the read of LBA 0 and the write of the rewritten sector to LBA 0. -/
theorem Activate_log (p : Params) (fuel : Nat) (io : BlockDev) (k : Nat) (w : Sector) (eb : Nat)
    (hr : EFI_ERROR (io.status io.log (.read 0)) = false)
    (hsig : Signature (io.disk 0) = 0xaa55)
    (hm : mbrLoop p k 4 0 (addBootCode p (io.disk 0)) 0 = some (w, eb)) :
    ∃ ops, (ActivateMbrPartition p fuel io k).io.log = io.log ++ .read 0 :: .write 0 w :: ops := by
  rw [Activate_unfold]
  simp only [hr, hsig, hm, ne_eq, not_true_eq_false, if_false, Bool.false_eq_true]
  split_ifs with h1 h2
  · exact ⟨[], by simp⟩
  · obtain ⟨ops, h3, -⟩ := walk_log p k eb fuel eb 4
      { io with log := io.log ++ [.read 0] ++ [.write 0 w],
                disk := Function.update io.disk 0 w }
    exact ⟨ops, by rw [h3]; simp⟩
  · exact ⟨[], by simp⟩

/-- C5. With `SYSLINUX_MBR_SIZE` at most 446, for every `PartitionIndex` k and every
sector 0 that is read without error and passes the signature and flag checks, the
second call of the run is the write to LBA 0 of a sector whose flag in slot i is
0x80 if i = k, else 0x80 if k is at least 4 and slot i has an extended type, else
0x00; so all four flags lie in {0x00, 0x80}. -/
theorem C5_primary_table (p : Params) (fuel : Nat) (io : BlockDev) (k : Nat)
    (hS : p.SYSLINUX_MBR_SIZE ≤ 446)
    (hr : EFI_ERROR (io.status io.log (.read 0)) = false)
    (hsig : Signature (io.disk 0) = 0xaa55)
    (hflags : ∀ i, i < 4 → Flags (io.disk 0) i = 0x00 ∨ Flags (io.disk 0) i = 0x80) :
    ∃ w ops, (ActivateMbrPartition p fuel io k).io.log =
        io.log ++ .read 0 :: .write 0 w :: ops ∧
      ∀ i, i < 4 →
        (Flags w i = if i = k then 0x80
          else if k ≥ 4 ∧ p.IS_EXTENDED_PART_TYPE (PartType (io.disk 0) i) = true then 0x80
          else 0x00) ∧
        (Flags w i = 0x00 ∨ Flags w i = 0x80) := by
  obtain ⟨w, eb, hm, -, hf⟩ := primary_stage p k (io.disk 0) hS hsig hflags
  obtain ⟨ops, hlog⟩ := Activate_log p fuel io k w eb hr hsig hm
  refine ⟨w, ops, hlog, fun i hi => ⟨hf i hi, ?_⟩⟩
  rw [hf i hi]
  split_ifs <;> simp

/-- C7. With `MBR_BOOTCODE_SIZE` and `SYSLINUX_MBR_SIZE` at most 446, for a sector 0
that is read without error and passes the signature and flag checks, the sector
written to LBA 0 satisfies: if every byte of [0, MBR_BOOTCODE_SIZE) of the sector
read is zero, its bytes [0, SYSLINUX_MBR_SIZE) are those of the `syslinux_mbr`
template; if one of those bytes is not zero, its bytes [0, MBR_BOOTCODE_SIZE) are
the bytes read. -/
theorem C7_boot_code_injection (p : Params) (fuel : Nat) (io : BlockDev) (k : Nat)
    (hB : p.MBR_BOOTCODE_SIZE ≤ 446) (hS : p.SYSLINUX_MBR_SIZE ≤ 446)
    (hr : EFI_ERROR (io.status io.log (.read 0)) = false)
    (hsig : Signature (io.disk 0) = 0xaa55)
    (hflags : ∀ i, i < 4 → Flags (io.disk 0) i = 0x00 ∨ Flags (io.disk 0) i = 0x80) :
    ∃ w ops, (ActivateMbrPartition p fuel io k).io.log =
        io.log ++ .read 0 :: .write 0 w :: ops ∧
      ((∀ i, i < p.MBR_BOOTCODE_SIZE → (io.disk 0).getD i 0 = 0) →
        ∀ i, i < p.SYSLINUX_MBR_SIZE → w.getD i 0 = p.syslinux_mbr.getD i 0) ∧
      ((∃ i, i < p.MBR_BOOTCODE_SIZE ∧ (io.disk 0).getD i 0 ≠ 0) →
        ∀ i, i < p.MBR_BOOTCODE_SIZE → w.getD i 0 = (io.disk 0).getD i 0) := by
  obtain ⟨w, eb, hm, -, -⟩ := primary_stage p k (io.disk 0) hS hsig hflags
  obtain ⟨ops, hlog⟩ := Activate_log p fuel io k w eb hr hsig hm
  have hframe := (mbrLoop_frame p k 4 0 _ 0 w eb hm).2
  have hlen := length_of_Signature _ hsig
  refine ⟨w, ops, hlog, ?_, ?_⟩
  · intro hz i hi
    rw [hframe i (fun j _ _ => by unfold entryOffset; omega), addBootCode_eq,
      if_neg (by simpa using (HaveBootCode_false_iff p _).2 hz)]
    exact CopyMem_getD_lt _ _ _ _ hi hi (by omega)
  · intro hnz i hi
    have hb : HaveBootCode p (io.disk 0) = true := by
      by_contra hcon
      obtain ⟨j, hj, hne⟩ := hnz
      exact hne ((HaveBootCode_false_iff p _).1 (by simpa using hcon) j hj)
    rw [hframe i (fun j _ _ => by unfold entryOffset; omega), addBootCode_eq, if_pos hb]


/-! ## The loop over one EMBR -/

theorem embrLoop_frame (p : Params) (k eb n : Nat) :
    ∀ (i : Nat) (buf : Sector) (nx L : Nat) (w : Sector) (nx1 L1 : Nat),
    embrLoop p k eb n i buf nx L = some (w, nx1, L1) →
    w.length = buf.length ∧
      ∀ off, (∀ j, i ≤ j → j < i + n → off ≠ entryOffset j) → w.getD off 0 = buf.getD off 0 := by
  induction n with
  | zero =>
    intro i buf nx L w nx1 L1 h
    simp [embrLoop] at h
    obtain ⟨rfl, -⟩ := h
    exact ⟨rfl, fun _ _ => rfl⟩
  | succ n ih =>
    intro i buf nx L w nx1 L1 h
    rw [embrLoop] at h
    by_cases h1 : Flags buf i ≠ 0x00 ∧ Flags buf i ≠ 0x80
    · rw [if_pos h1] at h; simp at h
    · rw [if_neg h1] at h
      by_cases h2 : StartLBA buf i = 0 ∨ Size buf i = 0
      · rw [if_pos h2] at h
        simp only [Option.some.injEq, Prod.mk.injEq] at h
        obtain ⟨rfl, -⟩ := h
        exact ⟨rfl, fun _ _ => rfl⟩
      · rw [if_neg h2] at h
        by_cases h3 : p.IS_EXTENDED_PART_TYPE (PartType buf i) = true
        · rw [if_pos h3] at h
          simp only [Option.some.injEq, Prod.mk.injEq] at h
          obtain ⟨rfl, -⟩ := h
          exact ⟨setFlags_length _ _ _, fun off hoff =>
            setFlags_getD_ne _ _ _ _ (hoff i (by omega) (by omega))⟩
        · rw [if_neg h3] at h
          obtain ⟨hl, hf⟩ := ih _ _ _ _ _ _ _ h
          refine ⟨by rw [hl, setFlags_length], fun off hoff => ?_⟩
          rw [hf off (fun j h1 h2 => hoff j (by omega) (by omega))]
          exact setFlags_getD_ne _ _ _ _ (hoff i (by omega) (by omega))

theorem embrLoop_Signature (p : Params) (k eb : Nat) (buf : Sector) (nx L : Nat) (w : Sector)
    (nx1 L1 : Nat) (h : embrLoop p k eb 4 0 buf nx L = some (w, nx1, L1)) :
    Signature w = Signature buf := by
  have hf := (embrLoop_frame p k eb 4 0 buf nx L w nx1 L1 h).2
  apply Signature_congr <;> apply hf <;> intro j _ hj <;> (unfold entryOffset; omega)

/-! ## Every sector written carries the signature -/

theorem walk_writes_signed (p : Params) (k eb : Nat) : ∀ (fuel c L : Nat) (io : BlockDev),
    ∃ ops, (walk p k eb fuel c L io).io.log = io.log ++ ops ∧
      ∀ lba w, BlockOp.write lba w ∈ ops → Signature w = 0xaa55 := by
  intro fuel
  induction fuel with
  | zero =>
    intro c L io
    rw [walk_zero]
    split_ifs <;> exact ⟨[], by simp, by simp⟩
  | succ fuel ih =>
    intro c L io
    by_cases hc : c = 0
    · subst hc; rw [walk_done]; exact ⟨[], by simp, by simp⟩
    · rw [walk_succ _ _ _ _ _ _ _ hc]
      split_ifs with h1 h2
      · exact ⟨[.read c], rfl, by simp⟩
      · exact ⟨[.read c], rfl, by simp⟩
      · cases hm : embrLoop p k eb 4 0 (io.disk c) 0 L with
        | none => exact ⟨[.read c], rfl, by simp⟩
        | some r =>
          obtain ⟨w, nx, L1⟩ := r
          have hw : Signature w = 0xaa55 := by
            rw [embrLoop_Signature p k eb _ _ _ _ _ _ hm]
            simpa using h2
          simp only
          split_ifs with h3 h4
          · refine ⟨[.read c, .write c w], by simp, ?_⟩
            intro lba w1 hmem
            simp at hmem
            rw [hmem.2]; exact hw
          · refine ⟨[.read c, .write c w], by simp, ?_⟩
            intro lba w1 hmem
            simp at hmem
            rw [hmem.2]; exact hw
          · obtain ⟨ops, h5, h6⟩ := ih nx L1
              { io with log := io.log ++ [.read c] ++ [.write c w],
                        disk := Function.update io.disk c w }
            refine ⟨.read c :: .write c w :: ops, by rw [h5]; simp, ?_⟩
            intro lba w1 hmem
            simp at hmem
            rcases hmem with ⟨-, rfl⟩ | hmem
            · exact hw
            · exact h6 lba w1 hmem

/-- C6. With `SYSLINUX_MBR_SIZE` at most 446, for every device, every fuel and
every `PartitionIndex`, every sector that the run writes, to LBA 0 or to an EMBR,
has the signature 0xAA55 at offset 510. -/
theorem C6_signature_preserved (p : Params) (fuel : Nat) (io : BlockDev) (k : Nat)
    (hS : p.SYSLINUX_MBR_SIZE ≤ 446) :
    ∃ ops, (ActivateMbrPartition p fuel io k).io.log = io.log ++ ops ∧
      ∀ lba w, BlockOp.write lba w ∈ ops → Signature w = 0xaa55 := by
  rw [Activate_unfold]
  by_cases h1 : EFI_ERROR (io.status io.log (.read 0)) = true
  · rw [if_pos h1]; exact ⟨[.read 0], rfl, by simp⟩
  rw [if_neg h1]
  by_cases h2 : Signature (io.disk 0) ≠ 0xaa55
  · rw [if_pos h2]; exact ⟨[.read 0], rfl, by simp⟩
  rw [if_neg h2]
  cases hm : mbrLoop p k 4 0 (addBootCode p (io.disk 0)) 0 with
    | none => exact ⟨[.read 0], rfl, by simp⟩
    | some r =>
      obtain ⟨w, eb⟩ := r
      have hw : Signature w = 0xaa55 := by
        rw [mbrLoop_Signature p k _ _ _ _ hm, addBootCode_Signature p _ (by omega)]
        simpa using h2
      simp only
      by_cases h3 : EFI_ERROR (io.status (io.log ++ [.read 0]) (.write 0 w)) = true
      · rw [if_pos h3]
        refine ⟨[.read 0, .write 0 w], by simp, ?_⟩
        intro lba w1 hmem
        simp at hmem
        rw [hmem.2]; exact hw
      rw [if_neg h3]
      by_cases h4 : k ≥ 4
      · rw [if_pos h4]
        obtain ⟨ops, h5, h6⟩ := walk_writes_signed p k eb fuel eb 4
          { io with log := io.log ++ [.read 0] ++ [.write 0 w],
                    disk := Function.update io.disk 0 w }
        refine ⟨.read 0 :: .write 0 w :: ops, by rw [h5]; simp, ?_⟩
        intro lba w1 hmem
        simp at hmem
        rcases hmem with ⟨-, rfl⟩ | hmem
        · exact hw
        · exact h6 lba w1 hmem
      · rw [if_neg h4]
        refine ⟨[.read 0, .write 0 w], by simp, ?_⟩
        intro lba w1 hmem
        simp at hmem
        rw [hmem.2]; exact hw

/-! ## Device errors are returned verbatim -/

theorem ErrorsPropagate_nil (st : List BlockOp → BlockOp → EFI_STATUS) (hist : List BlockOp)
    (res : Option EFI_STATUS) : ErrorsPropagate st hist [] res := by
  intro pre op post h
  simp at h

theorem ErrorsPropagate_last_error (st : List BlockOp → BlockOp → EFI_STATUS)
    (hist : List BlockOp) (op : BlockOp) : ErrorsPropagate st hist [op] (some (st hist op)) := by
  intro pre op1 post h _
  cases pre with
  | nil =>
    simp at h
    obtain ⟨rfl, rfl⟩ := h
    simp
  | cons a pre => simp at h

theorem ErrorsPropagate_cons (st : List BlockOp → BlockOp → EFI_STATUS)
    (hist : List BlockOp) (op : BlockOp) (ops : List BlockOp) (res : Option EFI_STATUS)
    (hop : ¬ EFI_ERROR (st hist op) = true) (h : ErrorsPropagate st (hist ++ [op]) ops res) :
    ErrorsPropagate st hist (op :: ops) res := by
  intro pre op1 post heq herr
  cases pre with
  | nil =>
    simp at heq
    obtain ⟨rfl, rfl⟩ := heq
    simp at herr
    exact absurd herr hop
  | cons a pre =>
    simp at heq
    obtain ⟨rfl, heq⟩ := heq
    have := h pre op1 post heq (by simpa using herr)
    simpa using this

theorem walk_errors (p : Params) (k eb : Nat) : ∀ (fuel c L : Nat) (io : BlockDev),
    ∃ ops, (walk p k eb fuel c L io).io.log = io.log ++ ops ∧
      ErrorsPropagate io.status io.log ops (walk p k eb fuel c L io).Status := by
  intro fuel
  induction fuel with
  | zero =>
    intro c L io
    rw [walk_zero]
    split_ifs <;> exact ⟨[], by simp, ErrorsPropagate_nil _ _ _⟩
  | succ fuel ih =>
    intro c L io
    by_cases hc : c = 0
    · subst hc; rw [walk_done]; exact ⟨[], by simp, ErrorsPropagate_nil _ _ _⟩
    · rw [walk_succ _ _ _ _ _ _ _ hc]
      by_cases h1 : EFI_ERROR (io.status io.log (.read c)) = true
      · rw [if_pos h1]
        exact ⟨[.read c], rfl, ErrorsPropagate_last_error _ _ _⟩
      rw [if_neg h1]
      have hread : ∀ res, ErrorsPropagate io.status io.log [.read c] res :=
        fun res => ErrorsPropagate_cons _ _ _ _ _ h1 (ErrorsPropagate_nil _ _ _)
      by_cases h2 : Signature (io.disk c) ≠ 0xaa55
      · rw [if_pos h2]
        exact ⟨[.read c], rfl, hread _⟩
      rw [if_neg h2]
      cases hm : embrLoop p k eb 4 0 (io.disk c) 0 L with
      | none => exact ⟨[.read c], rfl, hread _⟩
      | some r =>
        obtain ⟨w, nx, L1⟩ := r
        simp only
        by_cases h3 : EFI_ERROR (io.status (io.log ++ [.read c]) (.write c w)) = true
        · rw [if_pos h3]
          exact ⟨[.read c, .write c w], by simp,
            ErrorsPropagate_cons _ _ _ _ _ h1 (ErrorsPropagate_last_error _ _ _)⟩
        rw [if_neg h3]
        by_cases h4 : k < L1
        · rw [if_pos h4]
          exact ⟨[.read c, .write c w], by simp,
            ErrorsPropagate_cons _ _ _ _ _ h1
              (ErrorsPropagate_cons _ _ _ _ _ h3 (ErrorsPropagate_nil _ _ _))⟩
        · rw [if_neg h4]
          obtain ⟨ops, h5, h6⟩ := ih nx L1
            { io with log := io.log ++ [.read c] ++ [.write c w],
                      disk := Function.update io.disk c w }
          exact ⟨.read c :: .write c w :: ops, by rw [h5]; simp,
            ErrorsPropagate_cons _ _ _ _ _ h1 (ErrorsPropagate_cons _ _ _ _ _ h3 h6)⟩

/-- C8. For every device, fuel and `PartitionIndex`: if a `ReadBlocks` or
`WriteBlocks` call of the run (the call `op`, issued after the calls `pre` of the
run) returns an error status, then no call follows it and the run returns exactly
that status. -/
theorem C8_error_returned_verbatim (p : Params) (fuel : Nat) (io : BlockDev) (k : Nat) :
    ∃ ops, (ActivateMbrPartition p fuel io k).io.log = io.log ++ ops ∧
      ∀ pre op post, ops = pre ++ op :: post →
        EFI_ERROR (io.status (io.log ++ pre) op) = true →
        post = [] ∧
          (ActivateMbrPartition p fuel io k).Status = some (io.status (io.log ++ pre) op) := by
  suffices h : ∃ ops, (ActivateMbrPartition p fuel io k).io.log = io.log ++ ops ∧
      ErrorsPropagate io.status io.log ops (ActivateMbrPartition p fuel io k).Status from h
  rw [Activate_unfold]
  by_cases h1 : EFI_ERROR (io.status io.log (.read 0)) = true
  · rw [if_pos h1]
    exact ⟨[.read 0], rfl, ErrorsPropagate_last_error _ _ _⟩
  rw [if_neg h1]
  have hread : ∀ res, ErrorsPropagate io.status io.log [.read 0] res :=
    fun res => ErrorsPropagate_cons _ _ _ _ _ h1 (ErrorsPropagate_nil _ _ _)
  by_cases h2 : Signature (io.disk 0) ≠ 0xaa55
  · rw [if_pos h2]
    exact ⟨[.read 0], rfl, hread _⟩
  rw [if_neg h2]
  cases hm : mbrLoop p k 4 0 (addBootCode p (io.disk 0)) 0 with
  | none => exact ⟨[.read 0], rfl, hread _⟩
  | some r =>
    obtain ⟨w, eb⟩ := r
    simp only
    by_cases h3 : EFI_ERROR (io.status (io.log ++ [.read 0]) (.write 0 w)) = true
    · rw [if_pos h3]
      exact ⟨[.read 0, .write 0 w], by simp,
        ErrorsPropagate_cons _ _ _ _ _ h1 (ErrorsPropagate_last_error _ _ _)⟩
    rw [if_neg h3]
    by_cases h4 : k ≥ 4
    · rw [if_pos h4]
      obtain ⟨ops, h5, h6⟩ := walk_errors p k eb fuel eb 4
        { io with log := io.log ++ [.read 0] ++ [.write 0 w],
                  disk := Function.update io.disk 0 w }
      exact ⟨.read 0 :: .write 0 w :: ops, by rw [h5]; simp,
        ErrorsPropagate_cons _ _ _ _ _ h1 (ErrorsPropagate_cons _ _ _ _ _ h3 h6)⟩
    · rw [if_neg h4]
      exact ⟨[.read 0, .write 0 w], by simp,
        ErrorsPropagate_cons _ _ _ _ _ h1
          (ErrorsPropagate_cons _ _ _ _ _ h3 (ErrorsPropagate_nil _ _ _))⟩

/-! ## What one EMBR scan leaves behind -/

theorem embrLoop_fields (p : Params) (k eb : Nat) (n i : Nat) (buf : Sector) (nx L : Nat)
    (w : Sector) (nx1 L1 : Nat) (h : embrLoop p k eb n i buf nx L = some (w, nx1, L1)) (j : Nat) :
    PartType w j = PartType buf j ∧ StartLBA w j = StartLBA buf j ∧ Size w j = Size buf j := by
  have hf := (embrLoop_frame p k eb n i buf nx L w nx1 L1 h).2
  refine ⟨?_, ?_, ?_⟩
  · apply hf; intro j2 _ _; unfold entryOffset; omega
  · apply readU32_congr; intro d hd; apply hf; intro j2 _ _; unfold entryOffset; omega
  · apply readU32_congr; intro d hd; apply hf; intro j2 _ _; unfold entryOffset; omega

theorem embrLoop_Flags_before (p : Params) (k eb : Nat) (n i : Nat) (buf : Sector) (nx L : Nat)
    (w : Sector) (nx1 L1 : Nat) (h : embrLoop p k eb n i buf nx L = some (w, nx1, L1)) (j : Nat)
    (hj : j < i) : Flags w j = Flags buf j := by
  apply (embrLoop_frame p k eb n i buf nx L w nx1 L1 h).2
  intro j2 _ _; unfold entryOffset; omega

theorem embrLoop_count (p : Params) (k eb n : Nat) :
    ∀ (i : Nat) (buf : Sector) (nx L : Nat) (w : Sector) (nx1 L1 : Nat),
    embrLoop p k eb n i buf nx L = some (w, nx1, L1) → entryOffset (i + n) ≤ buf.length →
    L + n < 2 ^ p.UINTN_BITS →
    L ≤ L1 ∧ L1 ≤ L + n ∧ activeLogical p n i w = if L ≤ k ∧ k < L1 then 1 else 0 := by
  induction n with
  | zero =>
    intro i buf nx L w nx1 L1 h _ _
    simp [embrLoop] at h
    obtain ⟨-, -, rfl⟩ := h
    refine ⟨le_refl _, le_refl _, ?_⟩
    have : ¬ (L ≤ k ∧ k < L) := by omega
    simp [activeLogical, this]
  | succ n ih =>
    intro i buf nx L w nx1 L1 h hlen hL
    obtain ⟨hT, hS, hZ⟩ := embrLoop_fields p k eb _ _ _ _ _ _ _ _ h i
    rw [activeLogical, hT, hS, hZ]
    rw [embrLoop] at h
    by_cases h1 : Flags buf i ≠ 0x00 ∧ Flags buf i ≠ 0x80
    · rw [if_pos h1] at h; simp at h
    rw [if_neg h1] at h
    by_cases h2 : StartLBA buf i = 0 ∨ Size buf i = 0
    · rw [if_pos h2] at h ⊢
      simp only [Option.some.injEq, Prod.mk.injEq] at h
      obtain ⟨-, -, rfl⟩ := h
      have : ¬ (L ≤ k ∧ k < L) := by omega
      simp [this]
    rw [if_neg h2] at h ⊢
    by_cases h3 : p.IS_EXTENDED_PART_TYPE (PartType buf i) = true
    · rw [if_pos h3] at h ⊢
      simp only [Option.some.injEq, Prod.mk.injEq] at h
      obtain ⟨-, -, rfl⟩ := h
      have : ¬ (L ≤ k ∧ k < L) := by omega
      simp [this]
    · rw [if_neg h3] at h ⊢
      have hmod : (L + 1) % 2 ^ p.UINTN_BITS = L + 1 := Nat.mod_eq_of_lt (by omega)
      rw [hmod] at h
      obtain ⟨hA, hB, hC⟩ := ih _ _ _ _ _ _ _ h
        (by rw [setFlags_length]; unfold entryOffset at hlen ⊢; omega) (by omega)
      have hfl : Flags w i = if k = L then 0x80 else 0x00 := by
        rw [embrLoop_Flags_before p k eb _ _ _ _ _ _ _ _ h i (by omega)]
        exact Flags_setFlags_eq _ _ _ (by unfold entryOffset at hlen ⊢; omega)
      refine ⟨by omega, by omega, ?_⟩
      rw [hC, hfl]
      by_cases hk : k = L
      · subst hk
        have h5 : ¬ (k + 1 ≤ k ∧ k < L1) := by omega
        have h6 : k ≤ k ∧ k < L1 := by omega
        simp [h5, h6]
      · have h5 : (L + 1 ≤ k ∧ k < L1) ↔ (L ≤ k ∧ k < L1) := by omega
        simp [hk, h5]

/-! ## Successful runs -/

theorem EFI_ERROR_ne_success (st : EFI_STATUS) (h : EFI_ERROR st = true) :
    st ≠ .EFI_SUCCESS := by
  intro h1; subst h1; simp [EFI_ERROR] at h

theorem walk_success (p : Params) (k eb fuel c L : Nat) (io : BlockDev) (hc : c ≠ 0)
    (h : (walk p k eb (fuel + 1) c L io).Status = some .EFI_SUCCESS) :
    ∃ w nx L1, Signature (io.disk c) = 0xaa55 ∧
      embrLoop p k eb 4 0 (io.disk c) 0 L = some (w, nx, L1) ∧
      walk p k eb (fuel + 1) c L io =
        if k < L1 then ⟨some .EFI_SUCCESS, io.rewritten c w, L1⟩
        else walk p k eb fuel nx L1 (io.rewritten c w) := by
  rw [walk_succ _ _ _ _ _ _ _ hc] at h ⊢
  by_cases h1 : EFI_ERROR (io.status io.log (.read c)) = true
  · rw [if_pos h1] at h
    simp only [Option.some.injEq] at h
    exact absurd h (EFI_ERROR_ne_success _ h1)
  rw [if_neg h1] at h ⊢
  by_cases h2 : Signature (io.disk c) ≠ 0xaa55
  · rw [if_pos h2] at h; simp at h
  rw [if_neg h2] at h ⊢
  cases hm : embrLoop p k eb 4 0 (io.disk c) 0 L with
  | none => rw [hm] at h; simp at h
  | some r =>
    obtain ⟨w, nx, L1⟩ := r
    rw [hm] at h
    simp only at h ⊢
    by_cases h3 : EFI_ERROR (io.status (io.log ++ [.read c]) (.write c w)) = true
    · rw [if_pos h3] at h
      simp only [Option.some.injEq] at h
      exact absurd h (EFI_ERROR_ne_success _ h3)
    rw [if_neg h3]
    exact ⟨w, nx, L1, by simpa using h2, rfl, rfl⟩

theorem Activate_success (p : Params) (fuel : Nat) (io : BlockDev) (k : Nat)
    (h : (ActivateMbrPartition p fuel io k).Status = some .EFI_SUCCESS) :
    ∃ w eb, Signature (io.disk 0) = 0xaa55 ∧
      mbrLoop p k 4 0 (addBootCode p (io.disk 0)) 0 = some (w, eb) ∧
      ActivateMbrPartition p fuel io k =
        if k ≥ 4 then walk p k eb fuel eb 4 (io.rewritten 0 w)
        else ⟨some .EFI_SUCCESS, io.rewritten 0 w, 4⟩ := by
  rw [Activate_unfold] at h ⊢
  by_cases h1 : EFI_ERROR (io.status io.log (.read 0)) = true
  · rw [if_pos h1] at h
    simp only [Option.some.injEq] at h
    exact absurd h (EFI_ERROR_ne_success _ h1)
  rw [if_neg h1] at h ⊢
  by_cases h2 : Signature (io.disk 0) ≠ 0xaa55
  · rw [if_pos h2] at h; simp at h
  rw [if_neg h2] at h ⊢
  cases hm : mbrLoop p k 4 0 (addBootCode p (io.disk 0)) 0 with
  | none => rw [hm] at h; simp at h
  | some r =>
    obtain ⟨w, eb⟩ := r
    rw [hm] at h
    simp only at h ⊢
    by_cases h3 : EFI_ERROR (io.status (io.log ++ [.read 0]) (.write 0 w)) = true
    · rw [if_pos h3] at h
      simp only [Option.some.injEq] at h
      exact absurd h (EFI_ERROR_ne_success _ h3)
    rw [if_neg h3]
    exact ⟨w, eb, by simpa using h2, rfl, rfl⟩

theorem rewritten_log (io : BlockDev) (c : Nat) (w : Sector) :
    (io.rewritten c w).log = io.log ++ [.read c, .write c w] := by
  simp [BlockDev.rewritten]

theorem walk_count (p : Params) (k eb : Nat) (hk : k + 4 < 2 ^ p.UINTN_BITS) :
    ∀ (fuel c L : Nat) (io : BlockDev), L ≤ k →
    (walk p k eb fuel c L io).Status = some .EFI_SUCCESS →
    ∃ ops, (walk p k eb fuel c L io).io.log = io.log ++ ops ∧
      ((writtenSectors ops).map (activeLogical p 4 0)).sum =
        if k < (walk p k eb fuel c L io).LogicalPartitionIndex then 1 else 0 := by
  intro fuel
  induction fuel with
  | zero =>
    intro c L io hL h
    have hkL : ¬ k < L := by omega
    rw [walk_zero] at h ⊢
    by_cases hc : c = 0
    · rw [if_pos hc]
      exact ⟨[], by simp, by simp [writtenSectors, hkL]⟩
    · rw [if_neg hc] at h; simp at h
  | succ fuel ih =>
    intro c L io hL h
    by_cases hc : c = 0
    · subst hc
      have hkL : ¬ k < L := by omega
      rw [walk_done]
      exact ⟨[], by simp, by simp [writtenSectors, hkL]⟩
    · obtain ⟨w, nx, L1, hsig, hm, heq⟩ := walk_success p k eb fuel c L io hc h
      have hlen := length_of_Signature _ hsig
      obtain ⟨hA, -, hC⟩ := embrLoop_count p k eb 4 0 _ 0 L w nx L1 hm
        (by unfold entryOffset; omega) (by omega)
      rw [heq] at h ⊢
      by_cases h4 : k < L1
      · rw [if_pos h4]
        refine ⟨[.read c, .write c w], rewritten_log _ _ _, ?_⟩
        have : L ≤ k ∧ k < L1 := ⟨hL, h4⟩
        simp [writtenSectors, hC, this, h4]
      · rw [if_neg h4] at h ⊢
        obtain ⟨ops, h5, h6⟩ := ih nx L1 (io.rewritten c w) (by omega) h
        refine ⟨.read c :: .write c w :: ops, by rw [h5, rewritten_log]; simp, ?_⟩
        have : ¬ (L ≤ k ∧ k < L1) := by omega
        simp [writtenSectors, hC, this, h6]

theorem mbrLoop_PartType (p : Params) (k : Nat) (buf : Sector) (e : Nat) (w : Sector) (e1 : Nat)
    (h : mbrLoop p k 4 0 buf e = some (w, e1)) (j : Nat) : PartType w j = PartType buf j := by
  apply (mbrLoop_frame p k 4 0 buf e w e1 h).2
  intro j2 _ _; unfold entryOffset; omega

/-- C2, as amended. For every run that returns `EFI_SUCCESS` with `PartitionIndex`
k at least 4 and k + 4 below `2^UINTN_BITS`: in the sector written to LBA 0 the
active primary entries are exactly the entries of extended type, however many there
are, and all four flags lie in {0x00, 0x80}; and over the EMBRs the walk wrote, the
number of active logical partitions among those the scan counted (in each EMBR the
entries before the first link or unused entry) is 1 when the walk reached index k
(k is below the final `LogicalPartitionIndex`) and 0 otherwise. Nothing is stated
about the EMBRs behind the one that holds partition k, which the walk does not read,
nor about the entries behind the link of an EMBR, which the scan does not reach:
they keep the flags they had. -/
theorem C2_active_entries_after_logical_activation (p : Params) (fuel : Nat) (io : BlockDev)
    (k : Nat) (h4 : 4 ≤ k) (hk : k + 4 < 2 ^ p.UINTN_BITS)
    (hsucc : (ActivateMbrPartition p fuel io k).Status = some .EFI_SUCCESS) :
    ∃ w0 ops, (ActivateMbrPartition p fuel io k).io.log =
        io.log ++ .read 0 :: .write 0 w0 :: ops ∧
      (∀ i, i < 4 →
        (Flags w0 i = 0x80 ↔ p.IS_EXTENDED_PART_TYPE (PartType w0 i) = true) ∧
        (Flags w0 i = 0x00 ∨ Flags w0 i = 0x80)) ∧
      ((writtenSectors ops).map (activeLogical p 4 0)).sum =
        if k < (ActivateMbrPartition p fuel io k).LogicalPartitionIndex then 1 else 0 := by
  obtain ⟨w, eb, hsig, hm, heq⟩ := Activate_success p fuel io k hsucc
  rw [heq, if_pos h4] at hsucc
  obtain ⟨ops, h5, h6⟩ := walk_count p k eb hk fuel eb 4 (io.rewritten 0 w) h4 hsucc
  refine ⟨w, ops, ?_, ?_, ?_⟩
  · rw [heq, if_pos h4, h5, rewritten_log]; simp
  · intro i hi
    have hlen : 512 ≤ (addBootCode p (io.disk 0)).length := by
      rw [addBootCode_length]; exact length_of_Signature _ hsig
    have hf := mbrLoop_flags p k 4 0 _ 0 w eb hm (by unfold entryOffset; omega) i
      (by omega) (by omega)
    rw [← mbrLoop_PartType p k _ _ _ _ hm i] at hf
    have hik : i ≠ k := by omega
    rw [if_neg hik] at hf
    by_cases hx : p.IS_EXTENDED_PART_TYPE (PartType w i) = true
    · rw [if_pos ⟨h4, hx⟩] at hf
      simp [hf, hx]
    · rw [if_neg (fun h => hx h.2)] at hf
      simp [hf, hx]
  · rw [heq, if_pos h4]; exact h6

theorem embrLoop_eq_none (p : Params) (k eb n : Nat) :
    ∀ (i0 : Nat) (buf : Sector) (nx L : Nat) (i : Nat), i0 ≤ i → i < i0 + n →
    (∀ j, i0 ≤ j → j < i → StartLBA buf j ≠ 0 ∧ Size buf j ≠ 0 ∧
      p.IS_EXTENDED_PART_TYPE (PartType buf j) = false) →
    ¬ flagOK (Flags buf i) → embrLoop p k eb n i0 buf nx L = none := by
  induction n with
  | zero => intro i0 buf nx L i h1 h2; omega
  | succ n ih =>
    intro i0 buf nx L i h1 h2 hdata hbad
    rw [embrLoop]
    by_cases hf : Flags buf i0 ≠ 0x00 ∧ Flags buf i0 ≠ 0x80
    · rw [if_pos hf]
    rw [if_neg hf]
    have hne : i ≠ i0 := by
      intro h; subst h
      apply hbad
      unfold flagOK
      by_contra hcon
      exact hf ⟨fun h0 => hcon (Or.inl h0), fun h0 => hcon (Or.inr h0)⟩
    obtain ⟨hs, hz, ht⟩ := hdata i0 (le_refl _) (by omega)
    rw [if_neg (by tauto), if_neg (by simp [ht])]
    apply ih (i0 + 1) _ _ _ i (by omega) (by omega)
    · intro j hj1 hj2
      rw [StartLBA_setFlags, Size_setFlags, PartType_setFlags]
      exact hdata j (by omega) hj2
    · rwa [Flags_setFlags_ne _ _ _ _ hne]

theorem WritesFollowReads_nil : WritesFollowReads [] := by
  intro pre lba w post h; simp at h

theorem WritesFollowReads_read (c : Nat) : WritesFollowReads [.read c] := by
  intro pre lba w post h
  match pre, h with
  | [], h => simp at h
  | a :: pre1, h => simp at h

theorem WritesFollowReads_cons (c : Nat) (w : Sector) (ops : List BlockOp)
    (h : WritesFollowReads ops) : WritesFollowReads (.read c :: .write c w :: ops) := by
  intro pre lba w1 post h1
  match pre, h1 with
  | [], h1 => simp at h1
  | [a], h1 =>
    simp at h1
    obtain ⟨rfl, ⟨rfl, -⟩, -⟩ := h1
    exact ⟨[], rfl⟩
  | a :: b :: pre1, h1 =>
    simp at h1
    obtain ⟨rfl, rfl, h2⟩ := h1
    obtain ⟨pre2, rfl⟩ := h pre1 lba w1 post h2
    exact ⟨.read c :: .write c w :: pre2, rfl⟩

theorem walk_changes (p : Params) (k eb : Nat) : ∀ (fuel c L : Nat) (io : BlockDev),
    ∃ ops, (walk p k eb fuel c L io).io.log = io.log ++ ops ∧
      (∀ lba, (∀ w, BlockOp.write lba w ∉ ops) →
        (walk p k eb fuel c L io).io.disk lba = io.disk lba) ∧
      WritesFollowReads ops := by
  intro fuel
  induction fuel with
  | zero =>
    intro c L io
    rw [walk_zero]
    split_ifs <;> exact ⟨[], by simp, fun _ _ => rfl, WritesFollowReads_nil⟩
  | succ fuel ih =>
    intro c L io
    by_cases hc : c = 0
    · subst hc; rw [walk_done]
      exact ⟨[], by simp, fun _ _ => rfl, WritesFollowReads_nil⟩
    · rw [walk_succ _ _ _ _ _ _ _ hc]
      by_cases h1 : EFI_ERROR (io.status io.log (.read c)) = true
      · rw [if_pos h1]
        exact ⟨[.read c], rfl, fun _ _ => rfl, WritesFollowReads_read c⟩
      rw [if_neg h1]
      by_cases h2 : Signature (io.disk c) ≠ 0xaa55
      · rw [if_pos h2]
        exact ⟨[.read c], rfl, fun _ _ => rfl, WritesFollowReads_read c⟩
      rw [if_neg h2]
      cases hm : embrLoop p k eb 4 0 (io.disk c) 0 L with
      | none => exact ⟨[.read c], rfl, fun _ _ => rfl, WritesFollowReads_read c⟩
      | some r =>
        obtain ⟨w, nx, L1⟩ := r
        simp only
        have hupd : ∀ lba, (∀ w1, BlockOp.write lba w1 ∉ [BlockOp.read c, BlockOp.write c w]) →
            Function.update io.disk c w lba = io.disk lba := by
          intro lba hno
          have : lba ≠ c := by
            intro h; subst h
            exact hno w (by simp)
          simp [Function.update, this]
        by_cases h3 : EFI_ERROR (io.status (io.log ++ [.read c]) (.write c w)) = true
        · rw [if_pos h3]
          exact ⟨[.read c, .write c w], by simp, fun _ _ => rfl,
            WritesFollowReads_cons c w [] WritesFollowReads_nil⟩
        rw [if_neg h3]
        by_cases h4 : k < L1
        · rw [if_pos h4]
          exact ⟨[.read c, .write c w], by simp, hupd,
            WritesFollowReads_cons c w [] WritesFollowReads_nil⟩
        · rw [if_neg h4]
          obtain ⟨ops, h5, h6, h7⟩ := ih nx L1
            { io with log := io.log ++ [.read c] ++ [.write c w],
                      disk := Function.update io.disk c w }
          refine ⟨.read c :: .write c w :: ops, by rw [h5]; simp, ?_,
            WritesFollowReads_cons c w ops h7⟩
          intro lba hno
          rw [h6 lba (fun w1 hmem => hno w1 (by simp [hmem]))]
          exact hupd lba (fun w1 hmem => hno w1 (by
            simp at hmem
            simp [hmem]))

/-- C4, as amended. For every run (so also for a run with k at least 4 that returns
an error after LBA 0 has been written): a block to which the run issued no write
has the content it had before the call, and every write of the run goes to the
block read by the call just before it. So the blocks that may have changed are
LBA 0 and the EMBRs the walk read, checked and rewrote before the error, not LBA 0
alone. -/
theorem C4_only_rewritten_sectors_change (p : Params) (fuel : Nat) (io : BlockDev) (k : Nat) :
    ∃ ops, (ActivateMbrPartition p fuel io k).io.log = io.log ++ ops ∧
      (∀ lba, (∀ w, BlockOp.write lba w ∉ ops) →
        (ActivateMbrPartition p fuel io k).io.disk lba = io.disk lba) ∧
      (∀ pre lba w post, ops = pre ++ BlockOp.write lba w :: post →
        ∃ pre1, pre = pre1 ++ [BlockOp.read lba]) := by
  suffices h : ∃ ops, (ActivateMbrPartition p fuel io k).io.log = io.log ++ ops ∧
      (∀ lba, (∀ w, BlockOp.write lba w ∉ ops) →
        (ActivateMbrPartition p fuel io k).io.disk lba = io.disk lba) ∧
      WritesFollowReads ops from h
  rw [Activate_unfold]
  by_cases h1 : EFI_ERROR (io.status io.log (.read 0)) = true
  · rw [if_pos h1]
    exact ⟨[.read 0], rfl, fun _ _ => rfl, WritesFollowReads_read 0⟩
  rw [if_neg h1]
  by_cases h2 : Signature (io.disk 0) ≠ 0xaa55
  · rw [if_pos h2]
    exact ⟨[.read 0], rfl, fun _ _ => rfl, WritesFollowReads_read 0⟩
  rw [if_neg h2]
  cases hm : mbrLoop p k 4 0 (addBootCode p (io.disk 0)) 0 with
  | none => exact ⟨[.read 0], rfl, fun _ _ => rfl, WritesFollowReads_read 0⟩
  | some r =>
    obtain ⟨w, eb⟩ := r
    simp only
    have hupd : ∀ lba, (∀ w1, BlockOp.write lba w1 ∉ [BlockOp.read 0, BlockOp.write 0 w]) →
        Function.update io.disk 0 w lba = io.disk lba := by
      intro lba hno
      have : lba ≠ 0 := by
        intro h; subst h
        exact hno w (by simp)
      simp [Function.update, this]
    by_cases h3 : EFI_ERROR (io.status (io.log ++ [.read 0]) (.write 0 w)) = true
    · rw [if_pos h3]
      exact ⟨[.read 0, .write 0 w], by simp, fun _ _ => rfl,
        WritesFollowReads_cons 0 w [] WritesFollowReads_nil⟩
    rw [if_neg h3]
    by_cases h4 : k ≥ 4
    · rw [if_pos h4]
      obtain ⟨ops, h5, h6, h7⟩ := walk_changes p k eb fuel eb 4
        { io with log := io.log ++ [.read 0] ++ [.write 0 w],
                  disk := Function.update io.disk 0 w }
      refine ⟨.read 0 :: .write 0 w :: ops, by rw [h5]; simp, ?_,
        WritesFollowReads_cons 0 w ops h7⟩
      intro lba hno
      rw [h6 lba (fun w1 hmem => hno w1 (by simp [hmem]))]
      exact hupd lba (fun w1 hmem => hno w1 (by
        simp at hmem
        simp [hmem]))
    · rw [if_neg h4]
      exact ⟨[.read 0, .write 0 w], by simp, hupd,
        WritesFollowReads_cons 0 w [] WritesFollowReads_nil⟩

/-! ## Encoding detection in `ReadFile` -/

theorem detectEncoding_bom (File : REFIT_FILE) (Buffer : List Byte)
    (hlen : 4 ≤ File.BufferSize) (h0 : Buffer.getD 0 0 = 0xFF) (h1 : Buffer.getD 1 0 = 0xFE) :
    detectEncoding File Buffer =
      { File with Encoding := ENCODING_UTF16_LE, Current16Ptr := File.Current16Ptr + 1 } := by
  unfold detectEncoding
  simp only []
  rw [if_pos hlen, if_pos ⟨h0, h1⟩]

theorem detectEncoding_short (File : REFIT_FILE) (Buffer : List Byte)
    (hlen : File.BufferSize < 4) :
    detectEncoding File Buffer = { File with Encoding := ENCODING_ISO8859_1 } := by
  unfold detectEncoding
  simp only []
  rw [if_neg (by omega)]

theorem ReadFile_ok (fs : FileAccess) (File : REFIT_FILE) (FileSize : Nat)
    (hopen : EFI_ERROR fs.OpenStatus = false) (hsize : fs.FileSize = some FileSize)
    (hread : EFI_ERROR fs.ReadStatus = false) :
    ReadFile fs File =
      (.EFI_SUCCESS,
        detectEncoding
          { File with
            Buffer := some (fs.Content.take (min FileSize MAXCONFIGFILESIZE)),
            BufferSize := (fs.Content.take (min FileSize MAXCONFIGFILESIZE)).length,
            Current8Ptr := 0,
            End8Ptr := (fs.Content.take (min FileSize MAXCONFIGFILESIZE)).length,
            Current16Ptr := 0,
            End16Ptr := (fs.Content.take (min FileSize MAXCONFIGFILESIZE)).length >>> 1 }
          (fs.Content.take (min FileSize MAXCONFIGFILESIZE))) := by
  have hmin : (if FileSize > MAXCONFIGFILESIZE then MAXCONFIGFILESIZE else FileSize)
      = min FileSize MAXCONFIGFILESIZE := by
    split_ifs <;> omega
  unfold ReadFile
  simp only [CheckError, hopen, hsize, hread, hmin, Bool.false_eq_true, if_false]

/-- C10, as amended. For every file that is opened, sized and read without error
and whose buffer (the bytes delivered by `Read`) has at least 4 bytes, the first
two being FF FE, whatever the other bytes: `ReadFile` returns `EFI_SUCCESS`, sets
the encoding to UTF-16LE and moves the 16-bit cursor past the byte-order mark. -/
theorem C10_bom_utf16le (fs : FileAccess) (File : REFIT_FILE) (FileSize : Nat)
    (hopen : EFI_ERROR fs.OpenStatus = false) (hsize : fs.FileSize = some FileSize)
    (hread : EFI_ERROR fs.ReadStatus = false)
    (hlen : 4 ≤ (fs.Content.take (min FileSize MAXCONFIGFILESIZE)).length)
    (h0 : (fs.Content.take (min FileSize MAXCONFIGFILESIZE)).getD 0 0 = 0xFF)
    (h1 : (fs.Content.take (min FileSize MAXCONFIGFILESIZE)).getD 1 0 = 0xFE) :
    (ReadFile fs File).1 = .EFI_SUCCESS ∧
      (ReadFile fs File).2.Buffer = some (fs.Content.take (min FileSize MAXCONFIGFILESIZE)) ∧
      (ReadFile fs File).2.Encoding = ENCODING_UTF16_LE ∧
      (ReadFile fs File).2.Current16Ptr = 1 := by
  rw [ReadFile_ok fs File FileSize hopen hsize hread, detectEncoding_bom _ _ hlen h0 h1]
  exact ⟨rfl, rfl, rfl, rfl⟩

/-! ## The statements at concrete inputs -/

set_option maxRecDepth 1000000 in
/-- C1 at a concrete input: primary flags [80,00,00,00] and k = 2; the flags on
the disk afterwards are [00,00,80,00]. -/
theorem C1_activate_primary_witness :
    tableFlags (primaryDev.disk 0) = [0x80, 0x00, 0x00, 0x00] ∧
    tableFlags ((ActivateMbrPartition exParams 0 primaryDev 2).io.disk 0)
      = [0x00, 0x00, 0x80, 0x00] ∧
    ∃ w, (ActivateMbrPartition exParams 0 primaryDev 2).Status = some .EFI_SUCCESS ∧
      (ActivateMbrPartition exParams 0 primaryDev 2).io.log
        = primaryDev.log ++ [.read 0, .write 0 w] ∧
      (ActivateMbrPartition exParams 0 primaryDev 2).io.disk = Function.update primaryDev.disk 0 w ∧
      Signature w = 0xaa55 ∧
      ∀ i, i < 4 → Flags w i = if i = 2 then 0x80 else 0x00 :=
  ⟨by decide, by decide,
   C1_activate_primary exParams 0 primaryDev 2 (by decide) (by decide) (by decide)
    (by decide) (fun _ _ => rfl)⟩

set_option maxRecDepth 1000000 in
/-- C2 as amended, at the disk of scenario 6 with k = 5. -/
theorem C2_active_entries_witness :
    ∃ w0 ops, (ActivateMbrPartition exParams 2 chainDev 5).io.log =
        chainDev.log ++ .read 0 :: .write 0 w0 :: ops ∧
      (∀ i, i < 4 →
        (Flags w0 i = 0x80 ↔ exParams.IS_EXTENDED_PART_TYPE (PartType w0 i) = true) ∧
        (Flags w0 i = 0x00 ∨ Flags w0 i = 0x80)) ∧
      ((writtenSectors ops).map (activeLogical exParams 4 0)).sum =
        if 5 < (ActivateMbrPartition exParams 2 chainDev 5).LogicalPartitionIndex then 1 else 0 :=
  C2_active_entries_after_logical_activation exParams 2 chainDev 5 (by decide) (by decide)
    (by decide)

set_option maxRecDepth 1000000 in
/-- C4 refuted as stated: on `brokenSecondDisk` with k = 5 the call returns
`EFI_NOT_FOUND` at the second EMBR, after it has rewritten the first EMBR: the
block at LBA 1000 is no longer what it was before the call. -/
theorem C4_counterexample :
    (ActivateMbrPartition exParams 2 brokenSecondDev 5).Status = some .EFI_NOT_FOUND ∧
    (ActivateMbrPartition exParams 2 brokenSecondDev 5).io.disk 1000
      ≠ brokenSecondDev.disk 1000 := by
  decide

set_option maxRecDepth 1000000 in
/-- C5 at the disk of scenario 6 with k = 5. -/
theorem C5_primary_table_witness :
    ∃ w ops, (ActivateMbrPartition exParams 2 chainDev 5).io.log =
        chainDev.log ++ .read 0 :: .write 0 w :: ops ∧
      ∀ i, i < 4 →
        (Flags w i = if i = 5 then 0x80
          else if 5 ≥ 4 ∧ exParams.IS_EXTENDED_PART_TYPE (PartType (chainDev.disk 0) i) = true
            then 0x80
          else 0x00) ∧
        (Flags w i = 0x00 ∨ Flags w i = 0x80) :=
  C5_primary_table exParams 2 chainDev 5 (by decide) rfl (by decide) (by decide)

set_option maxRecDepth 1000000 in
/-- C6 at the disk of scenario 6 with k = 5. -/
theorem C6_signature_preserved_witness :
    ∃ ops, (ActivateMbrPartition exParams 2 chainDev 5).io.log = chainDev.log ++ ops ∧
      ∀ lba w, BlockOp.write lba w ∈ ops → Signature w = 0xaa55 :=
  C6_signature_preserved exParams 2 chainDev 5 (by decide)

set_option maxRecDepth 1000000 in
/-- C7 at a disk with an all-zero boot-code area, k = 2. -/
theorem C7_boot_code_injection_witness :
    HaveBootCode exParams (blankBootDev.disk 0) = false ∧
    ∃ w ops, (ActivateMbrPartition exParams 0 blankBootDev 2).io.log =
        blankBootDev.log ++ .read 0 :: .write 0 w :: ops ∧
      ((∀ i, i < exParams.MBR_BOOTCODE_SIZE → (blankBootDev.disk 0).getD i 0 = 0) →
        ∀ i, i < exParams.SYSLINUX_MBR_SIZE → w.getD i 0 = exParams.syslinux_mbr.getD i 0) ∧
      ((∃ i, i < exParams.MBR_BOOTCODE_SIZE ∧ (blankBootDev.disk 0).getD i 0 ≠ 0) →
        ∀ i, i < exParams.MBR_BOOTCODE_SIZE → w.getD i 0 = (blankBootDev.disk 0).getD i 0) :=
  ⟨by decide,
   C7_boot_code_injection exParams 0 blankBootDev 2 (by decide) (by decide) rfl (by decide)
    (by decide)⟩

/-- C10 refuted as stated: a file that consists of the two bytes FF FE is given the
encoding ISO-8859-1, not UTF-16LE. -/
theorem C10_counterexample :
    (ReadFile (fileWith [0xFF, 0xFE]) blankFile).1 = .EFI_SUCCESS ∧
    (ReadFile (fileWith [0xFF, 0xFE]) blankFile).2.Buffer = some [0xFF, 0xFE] ∧
    (ReadFile (fileWith [0xFF, 0xFE]) blankFile).2.Encoding = ENCODING_ISO8859_1 ∧
    (ReadFile (fileWith [0xFF, 0xFE]) blankFile).2.Encoding ≠ ENCODING_UTF16_LE := by
  decide

/-- C10 as amended, at the file FF FE 41 00 42 00. -/
theorem C10_bom_utf16le_witness :
    (ReadFile (fileWith [0xFF, 0xFE, 0x41, 0x00, 0x42, 0x00]) blankFile).1 = .EFI_SUCCESS ∧
      (ReadFile (fileWith [0xFF, 0xFE, 0x41, 0x00, 0x42, 0x00]) blankFile).2.Buffer =
        some ((fileWith [0xFF, 0xFE, 0x41, 0x00, 0x42, 0x00]).Content.take
          (min 6 MAXCONFIGFILESIZE)) ∧
      (ReadFile (fileWith [0xFF, 0xFE, 0x41, 0x00, 0x42, 0x00]) blankFile).2.Encoding
        = ENCODING_UTF16_LE ∧
      (ReadFile (fileWith [0xFF, 0xFE, 0x41, 0x00, 0x42, 0x00]) blankFile).2.Current16Ptr = 1 :=
  C10_bom_utf16le (fileWith [0xFF, 0xFE, 0x41, 0x00, 0x42, 0x00]) blankFile 6
    rfl rfl rfl (by decide) (by decide) (by decide)

/-! # The configuration file (`config.c`) -/

/-! ## Lines of a file in ISO-8859-1 -/

theorem take_length_takeWhile {α : Type} (f : α → Bool) (l : List α) :
    l.take (l.takeWhile f).length = l.takeWhile f := by
  induction l with
  | nil => rfl
  | cons a l ih =>
    by_cases h : f a = true
    · simp [List.takeWhile_cons, h, ih]
    · simp [List.takeWhile_cons, h]

theorem drop_length_takeWhile {α : Type} (f : α → Bool) (l : List α) :
    l.drop (l.takeWhile f).length = l.dropWhile f := by
  induction l with
  | nil => rfl
  | cons a l ih =>
    by_cases h : f a = true
    · simp [List.takeWhile_cons, List.dropWhile_cons, h, ih]
    · simp [List.takeWhile_cons, List.dropWhile_cons, h]

theorem length_takeWhile_le {α : Type} (f : α → Bool) (l : List α) :
    (l.takeWhile f).length ≤ l.length := by
  induction l with
  | nil => simp
  | cons a l ih =>
    by_cases h : f a = true
    · simp [List.takeWhile_cons, h, ih]
    · simp [List.takeWhile_cons, h]

theorem drop_eq_cons_of_lt (B : List Byte) (p : Nat) (h : p < B.length) :
    B.drop p = B.getD p 0 :: B.drop (p + 1) := by
  rw [List.drop_eq_getElem_cons h]
  congr 1
  simp [List.getD_eq_getElem?_getD, List.getElem?_eq_getElem h]

theorem scanLine_eq (stop : Nat → Bool) (B : List Byte) : ∀ (n p : Nat), p + n = B.length →
    scanLine stop (unit8 B) n p =
      p + ((B.drop p).takeWhile (fun b => !stop b.val)).length := by
  intro n
  induction n with
  | zero =>
    intro p h
    have : B.drop p = [] := List.drop_eq_nil_of_le (by omega)
    simp [scanLine, this]
  | succ n ih =>
    intro p h
    rw [scanLine, drop_eq_cons_of_lt B p (by omega), List.takeWhile_cons]
    by_cases hs : stop (unit8 B p) = true
    · have h1 : stop (B.getD p 0).val = true := hs
      simp only [hs, h1, if_true, Bool.not_true, Bool.false_eq_true, if_false,
        List.length_nil, Nat.add_zero]
    · have h1 : stop (B.getD p 0).val = false := by
        cases h2 : stop (B.getD p 0).val
        · rfl
        · exact absurd h2 hs
      rw [if_neg hs, ih (p + 1) (by omega)]
      simp only [h1, Bool.not_false, if_true, List.length_cons]
      omega

theorem map_unit8_range' (B : List Byte) : ∀ (n p : Nat), p + n ≤ B.length →
    (List.range' p n).map (unit8 B) = widen ((B.drop p).take n) := by
  intro n
  induction n with
  | zero => intro p _; simp [widen]
  | succ n ih =>
    intro p h
    rw [List.range'_succ, List.map_cons, ih (p + 1) (by omega),
      drop_eq_cons_of_lt B p (by omega)]
    simp [widen, unit8]

/-- One call of `ReadLine` on a file in ISO-8859-1 whose cursor is before the end:
the line is the bytes up to the first CR or LF, the cursor moves past the run of
CR and LF bytes that follows. -/
theorem ReadLine_latin1 (B : List Byte) (File : REFIT_FILE) (hB : File.Buffer = some B)
    (hE : File.Encoding = ENCODING_ISO8859_1) (hend : File.End8Ptr = B.length)
    (hp : File.Current8Ptr < B.length) :
    ReadLine File =
      (some (widen ((B.drop File.Current8Ptr).takeWhile (fun b => !isNewline b))),
       { File with Current8Ptr := File.Current8Ptr
          + ((B.drop File.Current8Ptr).takeWhile (fun b => !isNewline b)).length
          + (((B.drop File.Current8Ptr).dropWhile (fun b => !isNewline b)).takeWhile
              isNewline).length }) := by
  have h1 := length_takeWhile_le (fun b => !isNewline b) (B.drop File.Current8Ptr)
  have hlen : (B.drop File.Current8Ptr).length = B.length - File.Current8Ptr := List.length_drop _ _
  have e1 : scanLine isCRLF (unit8 B) (B.length - File.Current8Ptr) File.Current8Ptr
      = File.Current8Ptr
        + ((B.drop File.Current8Ptr).takeWhile (fun b => !isNewline b)).length := by
    rw [scanLine_eq isCRLF B _ _ (by omega)]
    rfl
  have e2 : scanLine (fun c => !isCRLF c) (unit8 B)
      (B.length - (File.Current8Ptr
        + ((B.drop File.Current8Ptr).takeWhile (fun b => !isNewline b)).length))
      (File.Current8Ptr
        + ((B.drop File.Current8Ptr).takeWhile (fun b => !isNewline b)).length)
      = File.Current8Ptr
        + ((B.drop File.Current8Ptr).takeWhile (fun b => !isNewline b)).length
        + (((B.drop File.Current8Ptr).dropWhile (fun b => !isNewline b)).takeWhile
              isNewline).length := by
    rw [scanLine_eq _ B _ _ (by omega), ← List.drop_drop, drop_length_takeWhile]
    congr 2
    simp only [Bool.not_not]
    rfl
  unfold ReadLine
  simp only [hB, hE, hend, true_or, if_true, ge_iff_le, Nat.not_le.2 hp, if_false, e1, e2]
  congr 2
  rw [Nat.add_sub_cancel_left, map_unit8_range' B _ _ (by omega), take_length_takeWhile]


theorem ReadLine_at_end (B : List Byte) (File : REFIT_FILE) (hB : File.Buffer = some B)
    (hE : File.Encoding = ENCODING_ISO8859_1) (hp : File.End8Ptr ≤ File.Current8Ptr) :
    ReadLine File = (none, File) := by
  unfold ReadLine
  simp only [hB, hE, true_or, if_true, ge_iff_le, hp]

theorem dropWhile_head_false {α : Type} (f : α → Bool) : ∀ (l : List α) (a : α) (t : List α),
    l.dropWhile f = a :: t → f a = false := by
  intro l
  induction l with
  | nil => intro a t h; simp at h
  | cons b l ih =>
    intro a t h
    rw [List.dropWhile_cons] at h
    by_cases hb : f b = true
    · rw [if_pos hb] at h; exact ih a t h
    · rw [if_neg hb] at h
      simp only [List.cons.injEq] at h
      rw [← h.1]
      simpa using hb

theorem splitOnP_skip_run (u rest : List Byte) (hu : ∀ b ∈ u, isNewline b = true) :
    ((u ++ rest).splitOnP isNewline).filter (fun l => !l.isEmpty)
      = (rest.splitOnP isNewline).filter (fun l => !l.isEmpty) := by
  induction u with
  | nil => rfl
  | cons a u ih =>
    have ha : isNewline a = true := hu a (List.mem_cons_self _ _)
    rw [List.cons_append, List.splitOnP_cons, if_pos ha, List.filter_cons]
    simp only [List.isEmpty_nil, Bool.not_true, Bool.false_eq_true, if_false]
    exact ih (fun b hb => hu b (List.mem_cons_of_mem _ hb))

/-- The first piece of a split is the bytes before the first CR or LF, and the
non-empty pieces after it are those of what follows the run of CR and LF bytes. -/
theorem splitOnP_first_line (r : List Byte) :
    ∃ tl, r.splitOnP isNewline = r.takeWhile (fun b => !isNewline b) :: tl ∧
      tl.filter (fun l => !l.isEmpty) =
        (((r.dropWhile (fun b => !isNewline b)).dropWhile isNewline).splitOnP isNewline).filter
          (fun l => !l.isEmpty) := by
  have hline : ∀ b ∈ r.takeWhile (fun b => !isNewline b), ¬ isNewline b = true := by
    intro b hb
    have := List.mem_takeWhile_imp hb
    simpa using this
  have hsplit := List.takeWhile_append_dropWhile (fun b => !isNewline b) r
  cases hd : r.dropWhile (fun b => !isNewline b) with
  | nil =>
    rw [hd, List.append_nil] at hsplit
    refine ⟨[], ?_, rfl⟩
    have := List.splitOnP_eq_single isNewline _ hline
    rw [hsplit] at this ⊢
    exact this
  | cons a u =>
    have ha : isNewline a = true := by
      have := dropWhile_head_false _ r a u hd
      simpa using this
    refine ⟨u.splitOnP isNewline, ?_, ?_⟩
    · have := List.splitOnP_first isNewline _ hline a ha u
      rw [← hd, hsplit] at this
      exact this
    · rw [List.dropWhile_cons, if_pos ha]
      have h2 := List.takeWhile_append_dropWhile isNewline u
      have h3 := splitOnP_skip_run (u.takeWhile isNewline) (u.dropWhile isNewline)
        (fun b hb => List.mem_takeWhile_imp hb)
      rw [h2] at h3
      exact h3

theorem line_progress (r : List Byte) (h : r ≠ []) :
    1 ≤ (r.takeWhile (fun b => !isNewline b)).length
      + ((r.dropWhile (fun b => !isNewline b)).takeWhile isNewline).length := by
  cases r with
  | nil => exact absurd rfl h
  | cons a t =>
    by_cases ha : isNewline a = true
    · simp [List.takeWhile_cons, List.dropWhile_cons, ha]
    · simp [List.takeWhile_cons, ha]
      omega

theorem readAllLines_latin1 (B : List Byte) : ∀ (m fuel : Nat) (File : REFIT_FILE),
    File.Buffer = some B → File.Encoding = ENCODING_ISO8859_1 → File.End8Ptr = B.length →
    B.length - File.Current8Ptr ≤ m → m < fuel →
    (∀ a t, B.drop File.Current8Ptr = a :: t → isNewline a = false) →
    readAllLines fuel File =
      some ((((B.drop File.Current8Ptr).splitOnP isNewline).filter
        (fun l => !l.isEmpty)).map widen) := by
  intro m
  induction m with
  | zero =>
    intro fuel File hB hE hend hm hfuel _
    obtain ⟨fuel, rfl⟩ : ∃ f, fuel = f + 1 := ⟨fuel - 1, by omega⟩
    have hnil : B.drop File.Current8Ptr = [] := List.drop_eq_nil_of_le (by omega)
    rw [readAllLines, ReadLine_at_end B File hB hE (by omega), hnil]
    rfl
  | succ m ih =>
    intro fuel File hB hE hend hm hfuel hhead
    obtain ⟨fuel, rfl⟩ : ∃ f, fuel = f + 1 := ⟨fuel - 1, by omega⟩
    by_cases hp : File.Current8Ptr < B.length
    · have hne : B.drop File.Current8Ptr ≠ [] := by
        intro h
        have := congrArg List.length h
        simp at this
        omega
      have hprog := line_progress _ hne
      obtain ⟨tl, hsp, htl⟩ := splitOnP_first_line (B.drop File.Current8Ptr)
      have hline : (B.drop File.Current8Ptr).takeWhile (fun b => !isNewline b) ≠ [] := by
        cases hd : B.drop File.Current8Ptr with
        | nil => exact absurd hd hne
        | cons a t =>
          have := hhead a t hd
          simp [List.takeWhile_cons, this]
      have hdrop : B.drop (File.Current8Ptr
          + ((B.drop File.Current8Ptr).takeWhile (fun b => !isNewline b)).length
          + (((B.drop File.Current8Ptr).dropWhile (fun b => !isNewline b)).takeWhile
              isNewline).length)
          = ((B.drop File.Current8Ptr).dropWhile (fun b => !isNewline b)).dropWhile
              isNewline := by
        rw [← List.drop_drop, ← List.drop_drop, drop_length_takeWhile, drop_length_takeWhile]
      have key := ih fuel
        { File with Current8Ptr := File.Current8Ptr
          + ((B.drop File.Current8Ptr).takeWhile (fun b => !isNewline b)).length
          + (((B.drop File.Current8Ptr).dropWhile (fun b => !isNewline b)).takeWhile
              isNewline).length }
        hB hE hend (by simp only; omega) (by omega)
        (by
          intro a t h
          simp only at h
          rw [hdrop] at h
          exact dropWhile_head_false _ _ a t h)
      rw [readAllLines, ReadLine_latin1 B File hB hE hend hp]
      simp only
      rw [key]
      simp only [hdrop, Option.map_some', hsp, List.filter_cons, htl]
      have : (!((B.drop File.Current8Ptr).takeWhile (fun b => !isNewline b)).isEmpty) = true := by
        cases h : (B.drop File.Current8Ptr).takeWhile (fun b => !isNewline b) with
        | nil => exact absurd h hline
        | cons a t => rfl
      rw [if_pos this]
      rfl
    · have hnil : B.drop File.Current8Ptr = [] := List.drop_eq_nil_of_le (by omega)
      rw [readAllLines, ReadLine_at_end B File hB hE (by omega), hnil]
      rfl

theorem splitOnP_pieces_clean {α : Type} (f : α → Bool) : ∀ (l : List α),
    ∀ piece ∈ l.splitOnP f, ∀ x ∈ piece, f x = false := by
  intro l
  induction l with
  | nil => intro piece hp x hx; simp at hp; subst hp; simp at hx
  | cons a l ih =>
    intro piece hp x hx
    rw [List.splitOnP_cons] at hp
    by_cases ha : f a = true
    · rw [if_pos ha] at hp
      rcases List.mem_cons.1 hp with h | h
      · subst h; simp at hx
      · exact ih piece h x hx
    · rw [if_neg ha] at hp
      cases hs : l.splitOnP f with
      | nil => rw [hs] at hp; simp at hp
      | cons first rest =>
        rw [hs, List.modifyHead_cons] at hp
        rcases List.mem_cons.1 hp with h | h
        · subst h
          rcases List.mem_cons.1 hx with h1 | h1
          · subst h1; simpa using ha
          · exact ih first (by rw [hs]; exact List.mem_cons_self _ _) x h1
        · exact ih piece (by rw [hs]; exact List.mem_cons_of_mem _ h) x hx

/-- C11. For every buffer in ISO-8859-1, repeated calls of `ReadLine` end (the fuel
of one call per byte and one more is enough) and return the lines of the reference
`splitLinesRef`: the buffer split at the CR and LF bytes, bytes widened one to one,
with the first piece kept (an empty first line when the buffer starts with CR or
LF) and the other empty pieces dropped. In particular no line contains CR or LF and
no line after the first is empty. -/
theorem C11_lines_of_latin1 (B : List Byte) :
    readAllLines (B.length + 1) (fileOf B ENCODING_ISO8859_1)
      = some ((splitLinesRef B).map widen) ∧
    (∀ l ∈ splitLinesRef B, ∀ b ∈ l, b.val ≠ 13 ∧ b.val ≠ 10) ∧
    (∀ l ∈ (splitLinesRef B).tail, l ≠ []) := by
  refine ⟨?_, ?_, ?_⟩
  · by_cases hB : B = []
    · subst hB; rfl
    · have hlen : 0 < B.length := List.length_pos.2 hB
      obtain ⟨tl, hsp, htl⟩ := splitOnP_first_line B
      have hprog := line_progress B hB
      have hdrop : B.drop (0
          + (B.takeWhile (fun b => !isNewline b)).length
          + ((B.dropWhile (fun b => !isNewline b)).takeWhile isNewline).length)
          = (B.dropWhile (fun b => !isNewline b)).dropWhile isNewline := by
        rw [Nat.zero_add, ← List.drop_drop, drop_length_takeWhile, drop_length_takeWhile]
      have hR := ReadLine_latin1 B (fileOf B ENCODING_ISO8859_1) rfl rfl rfl hlen
      simp only [fileOf, List.drop_zero] at hR
      have key := readAllLines_latin1 B (B.length - 1) B.length
        { fileOf B ENCODING_ISO8859_1 with Current8Ptr := 0
          + (B.takeWhile (fun b => !isNewline b)).length
          + ((B.dropWhile (fun b => !isNewline b)).takeWhile isNewline).length }
        rfl rfl rfl (by simp only; omega) (by omega)
        (by
          intro a t h
          simp only at h
          rw [hdrop] at h
          exact dropWhile_head_false _ _ a t h)
      simp only [fileOf] at key
      rw [readAllLines]
      simp only [fileOf]
      rw [hR]
      simp only
      rw [key]
      simp only [hdrop, Option.map_some', splitLinesRef, hB, if_false, hsp, htl, List.map_cons]
  · intro l hl b hb
    unfold splitLinesRef at hl
    by_cases hB : B = []
    · rw [if_pos hB] at hl; simp at hl
    · rw [if_neg hB] at hl
      have hclean := splitOnP_pieces_clean isNewline B
      cases hs : B.splitOnP isNewline with
      | nil => rw [hs] at hl; simp at hl
      | cons first rest =>
        rw [hs] at hl hclean
        simp only at hl
        have hmem : l ∈ first :: rest := by
          rcases List.mem_cons.1 hl with h | h
          · rw [h]; exact List.mem_cons_self _ _
          · exact List.mem_cons_of_mem _ (List.mem_filter.1 h).1
        have := hclean l hmem b hb
        simp only [isNewline, Bool.or_eq_false_iff, beq_eq_false_iff_ne] at this
        exact this
  · intro l hl
    unfold splitLinesRef at hl
    by_cases hB : B = []
    · rw [if_pos hB] at hl; simp at hl
    · rw [if_neg hB] at hl
      cases hs : B.splitOnP isNewline with
      | nil => rw [hs] at hl; simp at hl
      | cons first rest =>
        rw [hs] at hl
        simp only [List.tail_cons] at hl
        have := (List.mem_filter.1 hl).2
        intro h
        subst h
        simp at this


/-! ## The tokenizer on one line -/

theorem isSeparator_false_iff (c : Nat) :
    isSeparator c = false ↔ (c ≠ 32 ∧ c ≠ 9 ∧ c ≠ 61 ∧ c ≠ 44) := by
  simp [isSeparator]
  tauto

theorem findEndOfToken_stop (a : Nat) (t : List Nat) (h : ¬ plainUnit a) :
    findEndOfToken false (a :: t) = ([], a :: t) := by
  rw [findEndOfToken, if_neg]
  intro hc
  apply h
  obtain ⟨h0, h34, h5 | h5⟩ := hc
  · exact ⟨h0, h34, h5.2.2.2.1, (isSeparator_false_iff a).2 ⟨h5.1, h5.2.1, h5.2.2.1, h5.2.2.2.2⟩⟩
  · simp at h5

/-- An unquoted token: the scan takes the plain units, rewriting `/`, and stops at
the end of the string or at the first unit that is not plain. -/
theorem findEndOfToken_unquoted (w rest : List Nat) (hw : ∀ c ∈ w, plainUnit c)
    (hrest : ∀ a t, rest = a :: t → ¬ plainUnit a) :
    findEndOfToken false (w ++ rest) = (slashToBackslash w, rest) := by
  induction w with
  | nil =>
    cases rest with
    | nil => rfl
    | cons a t => exact findEndOfToken_stop a t (hrest a t rfl)
  | cons c w ih =>
    obtain ⟨h0, h34, h35, hs⟩ := hw c (List.mem_cons_self _ _)
    have hsep := (isSeparator_false_iff c).1 hs
    rw [List.cons_append, findEndOfToken,
      if_pos ⟨h0, h34, Or.inl ⟨hsep.1, hsep.2.1, hsep.2.2.1, h35, hsep.2.2.2⟩⟩,
      ih (fun d hd => hw d (List.mem_cons_of_mem _ hd))]
    simp [slashToBackslash]

/-- A quoted token: the scan takes every unit up to the closing quote as it is. -/
theorem findEndOfToken_quoted (s rest : List Nat) (hs : ∀ c ∈ s, c ≠ 34 ∧ c ≠ 0) :
    findEndOfToken true (s ++ 34 :: rest) = (s, 34 :: rest) := by
  induction s with
  | nil =>
    rw [List.nil_append, findEndOfToken, if_neg (by simp)]
  | cons c s ih =>
    obtain ⟨h34, h0⟩ := hs c (List.mem_cons_self _ _)
    rw [List.cons_append, findEndOfToken, if_pos ⟨h0, h34, Or.inr rfl⟩,
      ih (fun d hd => hs d (List.mem_cons_of_mem _ hd))]
    simp

theorem skipWhitespace_unquoted (p : List Nat) :
    skipWhitespace false p = p.dropWhile isSeparator := by
  induction p with
  | nil => rfl
  | cons c r ih =>
    rw [skipWhitespace, List.dropWhile_cons]
    by_cases hc : isSeparator c = true
    · rw [if_pos ⟨hc, rfl⟩, if_pos hc, ih]
    · rw [if_neg (fun h => hc h.1), if_neg hc]

theorem skipWhitespace_plain (q : Bool) (c : Nat) (r : List Nat) (hc : isSeparator c = false) :
    skipWhitespace q (c :: r) = c :: r := by
  rw [skipWhitespace, if_neg]
  intro h
  rw [hc] at h
  simp at h

theorem tokenLoop_succ (fuel : Nat) (q : Bool) (p : List Nat) (toks : List (List Nat)) :
    tokenLoop (fuel + 1) q p toks =
      if cur (skipWhitespace q p) = 0 ∨ cur (skipWhitespace q p) = 35 then (toks, q)
      else if cur (findEndOfToken (if cur (skipWhitespace q p) = 34 then !q else q)
                (if cur (skipWhitespace q p) = 34 then (skipWhitespace q p).tail
                  else skipWhitespace q p)).2 = 0 ∨
              cur (findEndOfToken (if cur (skipWhitespace q p) = 34 then !q else q)
                (if cur (skipWhitespace q p) = 34 then (skipWhitespace q p).tail
                  else skipWhitespace q p)).2 = 35 then
        (toks ++ [(findEndOfToken (if cur (skipWhitespace q p) = 34 then !q else q)
                (if cur (skipWhitespace q p) = 34 then (skipWhitespace q p).tail
                  else skipWhitespace q p)).1],
          if cur (findEndOfToken (if cur (skipWhitespace q p) = 34 then !q else q)
                (if cur (skipWhitespace q p) = 34 then (skipWhitespace q p).tail
                  else skipWhitespace q p)).2 = 34
            then !(if cur (skipWhitespace q p) = 34 then !q else q)
            else (if cur (skipWhitespace q p) = 34 then !q else q))
      else
        tokenLoop fuel
          (if cur (findEndOfToken (if cur (skipWhitespace q p) = 34 then !q else q)
                (if cur (skipWhitespace q p) = 34 then (skipWhitespace q p).tail
                  else skipWhitespace q p)).2 = 34
            then !(if cur (skipWhitespace q p) = 34 then !q else q)
            else (if cur (skipWhitespace q p) = 34 then !q else q))
          (findEndOfToken (if cur (skipWhitespace q p) = 34 then !q else q)
                (if cur (skipWhitespace q p) = 34 then (skipWhitespace q p).tail
                  else skipWhitespace q p)).2.tail
          (toks ++ [(findEndOfToken (if cur (skipWhitespace q p) = 34 then !q else q)
                (if cur (skipWhitespace q p) = 34 then (skipWhitespace q p).tail
                  else skipWhitespace q p)).1]) := rfl

/-- One iteration of the loop on an unquoted token `w` that starts the string: the
token is added with `/` rewritten, and the loop ends when the string ends or a `#`
follows, and goes on behind the separator otherwise. -/
theorem tokenLoop_plain_token (fuel : Nat) (w rest : List Nat) (toks : List (List Nat))
    (hne : w ≠ []) (hw : ∀ c ∈ w, plainUnit c)
    (hrest : ∀ a t, rest = a :: t → a = 0 ∨ a = 35 ∨ isSeparator a = true) :
    tokenLoop (fuel + 1) false (w ++ rest) toks =
      if cur rest = 0 ∨ cur rest = 35 then (toks ++ [slashToBackslash w], false)
      else tokenLoop fuel false rest.tail (toks ++ [slashToBackslash w]) := by
  obtain ⟨c, w1, rfl⟩ := List.exists_cons_of_ne_nil hne
  obtain ⟨h0, h34, h35, hs⟩ := hw c (List.mem_cons_self _ _)
  have hfe := findEndOfToken_unquoted (c :: w1) rest hw (by
    intro a t h hp
    rcases hrest a t h with h1 | h1 | h1
    · exact hp.1 h1
    · exact hp.2.2.1 h1
    · rw [hp.2.2.2] at h1; simp at h1)
  have hcur34 : cur rest ≠ 34 := by
    cases rest with
    | nil => simp [cur]
    | cons a t =>
      rcases hrest a t rfl with h1 | h1 | h1
      · simp [cur, h1]
      · simp [cur, h1]
      · intro h2
        simp only [cur, List.headD_cons] at h2
        rw [h2] at h1
        simp [isSeparator] at h1
  rw [tokenLoop_succ]
  rw [List.cons_append] at hfe ⊢
  rw [skipWhitespace_plain false c _ hs]
  simp only [cur, List.headD_cons, h0, h35, h34, or_self, if_false, hfe]
  simp only [cur] at hcur34
  simp only [hcur34, if_false]


theorem tokenLoop_end (fuel : Nat) (q : Bool) (p : List Nat) (toks : List (List Nat))
    (h : cur (skipWhitespace q p) = 0 ∨ cur (skipWhitespace q p) = 35) :
    tokenLoop (fuel + 1) q p toks = (toks, q) := by
  rw [tokenLoop_succ, if_pos h]

theorem tokenLoop_nil (fuel : Nat) (q : Bool) (toks : List (List Nat)) :
    tokenLoop fuel q [] toks = (toks, q) := by
  cases fuel with
  | zero => rfl
  | succ fuel => exact tokenLoop_end fuel q [] toks (Or.inl (by cases q <;> rfl))

theorem joinTokens_cons_cons (t t2 : List Nat) (ts : List (List Nat)) :
    joinTokens (t :: t2 :: ts) = t ++ 32 :: joinTokens (t2 :: ts) := rfl

theorem tokenLoop_joinTokens : ∀ (ts : List (List Nat)) (fuel : Nat) (toks : List (List Nat)),
    ts ≠ [] → (∀ t ∈ ts, plainToken t) → ts.length ≤ fuel →
    tokenLoop fuel false (joinTokens ts) toks = (toks ++ ts.map slashToBackslash, false) := by
  intro ts
  induction ts with
  | nil => intro fuel toks h; exact absurd rfl h
  | cons t ts ih =>
    intro fuel toks _ hplain hfuel
    obtain ⟨fuel, rfl⟩ : ∃ f, fuel = f + 1 := ⟨fuel - 1, by simp at hfuel; omega⟩
    obtain ⟨hne, hw⟩ := hplain t (List.mem_cons_self _ _)
    cases ts with
    | nil =>
      have := tokenLoop_plain_token fuel t [] toks hne hw (by intro a t h; simp at h)
      rw [List.append_nil] at this
      rw [joinTokens, this]
      simp [cur]
    | cons t2 ts =>
      rw [joinTokens_cons_cons, tokenLoop_plain_token fuel t _ toks hne hw
        (by
          intro a t h
          simp only [List.cons.injEq] at h
          rw [← h.1]
          exact Or.inr (Or.inr (by decide)))]
      simp only [cur, List.headD_cons, List.tail_cons]
      rw [if_neg (by decide)]
      rw [ih fuel _ (by simp) (fun t ht => hplain t (List.mem_cons_of_mem _ ht))
        (by simp at hfuel ⊢; omega)]
      simp

theorem joinTokens_length (ts : List (List Nat)) (h : ∀ t ∈ ts, t ≠ []) :
    ts.length ≤ (joinTokens ts).length + 1 := by
  induction ts with
  | nil => simp
  | cons t ts ih =>
    cases ts with
    | nil => simp [joinTokens]
    | cons t2 ts =>
      have := ih (fun t ht => h t (List.mem_cons_of_mem _ ht))
      rw [joinTokens_cons_cons]
      simp at this ⊢
      omega

/-- C12, as amended. For every non-empty list of tokens that are not empty and hold
no 0, no separator (space, tab, `=`, `,`), no `"` and no `#`: tokenizing the tokens
joined by single spaces yields the tokens with every `/` replaced by `\`, and
leaves `IsQuoted` false; so it yields exactly the tokens when none of them holds
a `/`. -/
theorem C12_tokenizer_round_trip (ts : List (List Nat)) (hne : ts ≠ [])
    (hplain : ∀ t ∈ ts, plainToken t) :
    tokenizeLine false (joinTokens ts) = (ts.map slashToBackslash, false) ∧
    ((∀ t ∈ ts, 47 ∉ t) → (tokenizeLine false (joinTokens ts)).1 = ts) := by
  have h1 : tokenizeLine false (joinTokens ts) = (ts.map slashToBackslash, false) := by
    unfold tokenizeLine
    rw [tokenLoop_joinTokens ts _ [] hne hplain
      (joinTokens_length ts (fun t ht => (hplain t ht).1))]
    simp
  refine ⟨h1, fun hslash => ?_⟩
  rw [h1]
  simp only
  have : ∀ t ∈ ts, slashToBackslash t = t := by
    intro t ht
    unfold slashToBackslash
    have h47 := hslash t ht
    nth_rewrite 2 [← List.map_id t]
    apply List.map_congr_left
    intro c hc
    have : c ≠ 47 := fun h => h47 (h ▸ hc)
    simp [this]
  nth_rewrite 2 [← List.map_id ts]
  exact List.map_congr_left this

/-- C13. For every string `s` without `"` and without 0, the line `loader "s"`
yields exactly the two tokens `loader` and `s`, and leaves `IsQuoted` false: `s` is
kept unit for unit, whatever separators, `#`, `/` or `\` it holds. -/
theorem C13_quoted_argument (s : List Nat) (hs : ∀ c ∈ s, c ≠ 34 ∧ c ≠ 0) :
    tokenizeLine false (wstr "loader " ++ 34 :: s ++ [34]) = ([wstr "loader", s], false) := by
  have hl : wstr "loader " = wstr "loader" ++ [32] := by decide
  have hplain : ∀ c ∈ wstr "loader", plainUnit c := by
    unfold plainUnit; decide
  have hfuel : (wstr "loader " ++ 34 :: s ++ [34]).length + 1 = (s.length + 7) + 3 := by
    have : (wstr "loader ").length = 7 := by decide
    simp [this]
    omega
  unfold tokenizeLine
  rw [hfuel, hl]
  have e1 : wstr "loader" ++ [32] ++ 34 :: s ++ [34]
      = wstr "loader" ++ (32 :: 34 :: (s ++ [34])) := by simp
  rw [e1, tokenLoop_plain_token _ _ _ _ (by decide) hplain
    (by
      intro a t h
      simp only [List.cons.injEq] at h
      rw [← h.1]
      exact Or.inr (Or.inr (by decide)))]
  simp only [cur, List.headD_cons, List.tail_cons]
  rw [if_neg (by decide), tokenLoop_succ, skipWhitespace_plain false 34 _ (by decide)]
  simp only [cur, List.headD_cons, List.tail_cons, if_true]
  rw [if_neg (by decide)]
  have e2 := findEndOfToken_quoted s [] hs
  simp only [Bool.not_false]
  rw [e2]
  simp only [List.headD_cons, List.tail_cons, if_true, Bool.not_true]
  rw [if_neg (by decide), tokenLoop_nil]
  have e3 : slashToBackslash (wstr "loader") = wstr "loader" := by decide
  rw [e3]
  rfl


/-! ## Lines without quotes -/

theorem takeWhile_append_all {α : Type} (f : α → Bool) (w r : List α) (hw : ∀ c ∈ w, f c = true) :
    (w ++ r).takeWhile f = w ++ r.takeWhile f := by
  induction w with
  | nil => rfl
  | cons a w ih =>
    rw [List.cons_append, List.takeWhile_cons, if_pos (hw a (List.mem_cons_self _ _)),
      ih (fun c hc => hw c (List.mem_cons_of_mem _ hc))]
    rfl

theorem isSeparator_ne_hash (a : Nat) (h : isSeparator a = true) : (a != 35) = true := by
  simp [isSeparator] at h
  rcases h with ((h | h) | h) | h <;> subst h <;> decide

theorem tokensRef_nil : tokensRef [] = [] := by decide

theorem tokensRef_separator (a : Nat) (r : List Nat) (h : isSeparator a = true) :
    tokensRef (a :: r) = tokensRef r := by
  unfold tokensRef
  rw [List.takeWhile_cons, if_pos (isSeparator_ne_hash a h), List.splitOnP_cons, if_pos h,
    List.filter_cons]
  simp

theorem tokensRef_dropWhile (p : List Nat) : tokensRef p = tokensRef (p.dropWhile isSeparator) := by
  induction p with
  | nil => rfl
  | cons a r ih =>
    rw [List.dropWhile_cons]
    by_cases h : isSeparator a = true
    · rw [if_pos h, tokensRef_separator a r h, ih]
    · rw [if_neg h]

theorem tokensRef_hash (r : List Nat) : tokensRef (35 :: r) = [] := by
  unfold tokensRef
  rw [List.takeWhile_cons, if_neg (by decide)]
  rfl

theorem plainUnit_ne_hash (c : Nat) (h : plainUnit c) : (c != 35) = true := by
  have := h.2.2.1
  simpa using this

theorem tokensRef_last (w rest : List Nat) (hne : w ≠ []) (hw : ∀ c ∈ w, plainUnit c)
    (hrest : rest = [] ∨ ∃ t, rest = 35 :: t) :
    tokensRef (w ++ rest) = [slashToBackslash w] := by
  unfold tokensRef
  have h1 : (w ++ rest).takeWhile (fun c => c != 35) = w := by
    rw [takeWhile_append_all _ w rest (fun c hc => plainUnit_ne_hash c (hw c hc))]
    rcases hrest with h | ⟨t, h⟩
    · rw [h]; simp
    · rw [h, List.takeWhile_cons, if_neg (by decide)]; simp
  rw [h1, List.splitOnP_eq_single isSeparator w (fun c hc => by rw [(hw c hc).2.2.2]; simp)]
  obtain ⟨c, w1, rfl⟩ := List.exists_cons_of_ne_nil hne
  rfl

theorem tokensRef_token (w : List Nat) (s : Nat) (rest : List Nat) (hne : w ≠ [])
    (hw : ∀ c ∈ w, plainUnit c) (hs : isSeparator s = true) :
    tokensRef (w ++ s :: rest) = slashToBackslash w :: tokensRef rest := by
  unfold tokensRef
  rw [takeWhile_append_all _ w _ (fun c hc => plainUnit_ne_hash c (hw c hc)),
    List.takeWhile_cons, if_pos (isSeparator_ne_hash s hs),
    List.splitOnP_first isSeparator w (fun c hc => by rw [(hw c hc).2.2.2]; simp) s hs]
  obtain ⟨c, w1, rfl⟩ := List.exists_cons_of_ne_nil hne
  rfl

theorem dropWhile_dropWhile_self {α : Type} (f : α → Bool) (l : List α) :
    (l.dropWhile f).dropWhile f = l.dropWhile f := by
  cases h : l.dropWhile f with
  | nil => rfl
  | cons a t =>
    have := dropWhile_head_false f l a t h
    rw [List.dropWhile_cons, if_neg (by simp [this])]

theorem tokenLoop_skip (fuel : Nat) (p : List Nat) (toks : List (List Nat)) :
    tokenLoop (fuel + 1) false p toks
      = tokenLoop (fuel + 1) false (p.dropWhile isSeparator) toks := by
  rw [tokenLoop_succ, tokenLoop_succ, skipWhitespace_unquoted, skipWhitespace_unquoted,
    dropWhile_dropWhile_self]

theorem length_dropWhile_le {α : Type} (f : α → Bool) (l : List α) :
    (l.dropWhile f).length ≤ l.length := by
  have h := congrArg List.length (List.takeWhile_append_dropWhile f l)
  rw [List.length_append] at h
  omega

theorem tokenLoop_no_quote : ∀ (n : Nat) (p : List Nat), p.length ≤ n →
    (∀ c ∈ p, c ≠ 34 ∧ c ≠ 0) → ∀ (fuel : Nat) (toks : List (List Nat)), n < fuel →
    tokenLoop fuel false p toks = (toks ++ tokensRef p, false) := by
  intro n
  induction n using Nat.strong_induction_on with
  | _ n ih =>
    intro p hlen hp fuel toks hfuel
    obtain ⟨fuel, rfl⟩ : ∃ f, fuel = f + 1 := ⟨fuel - 1, by omega⟩
    rw [tokenLoop_skip, tokensRef_dropWhile p]
    have hlen1 := length_dropWhile_le isSeparator p
    have hp1 : ∀ c ∈ p.dropWhile isSeparator, c ≠ 34 ∧ c ≠ 0 :=
      fun c hc => hp c ((List.dropWhile_sublist _).subset hc)
    cases h1 : p.dropWhile isSeparator with
    | nil => rw [tokenLoop_nil, tokensRef_nil, List.append_nil]
    | cons a r =>
      rw [h1] at hlen1 hp1
      have hasep : isSeparator a = false := dropWhile_head_false _ p a r h1
      by_cases h35 : a = 35
      · subst h35
        rw [tokenLoop_end _ _ _ _ (by right; rfl), tokensRef_hash, List.append_nil]
      · obtain ⟨w, hwd⟩ : ∃ w, w = (a :: r).takeWhile tokenUnit := ⟨_, rfl⟩
        obtain ⟨d, hdd⟩ : ∃ d, d = (a :: r).dropWhile tokenUnit := ⟨_, rfl⟩
        have hsplit : w ++ d = a :: r := by
          rw [hwd, hdd]; exact List.takeWhile_append_dropWhile tokenUnit (a :: r)
        have hw : ∀ c ∈ w, plainUnit c := by
          intro c hc
          rw [hwd] at hc
          have h2 := List.mem_takeWhile_imp hc
          have h3 := hp1 c ((List.takeWhile_sublist _).subset hc)
          simp only [tokenUnit, Bool.and_eq_true, Bool.not_eq_true', bne_iff_ne] at h2
          exact ⟨h3.2, h3.1, h2.2, h2.1⟩
        have hwne : w ≠ [] := by
          rw [hwd, List.takeWhile_cons, if_pos (by simp [tokenUnit, hasep, h35])]
          simp
        have hrest : ∀ b t, d = b :: t → b = 0 ∨ b = 35 ∨ isSeparator b = true := by
          intro b t h
          rw [hdd] at h
          have h2 := dropWhile_head_false _ _ b t h
          simp only [tokenUnit, Bool.and_eq_false_iff, Bool.not_eq_false', bne_eq_false_iff_eq]
            at h2
          rcases h2 with h2 | h2
          · exact Or.inr (Or.inr h2)
          · exact Or.inr (Or.inl h2)
        have hd34 : ∀ c ∈ d, c ≠ 34 ∧ c ≠ 0 := by
          intro c hc
          apply hp1 c
          rw [← hsplit]
          exact List.mem_append_right _ hc
        have hlenwd : w.length + d.length = (a :: r).length := by
          rw [← hsplit, List.length_append]
        have hwpos : 1 ≤ w.length := List.length_pos.2 hwne
        rw [← hsplit, tokenLoop_plain_token fuel w d toks hwne hw hrest]
        cases d with
        | nil =>
          rw [tokensRef_last w [] hwne hw (Or.inl rfl)]
          simp [cur]
        | cons b t =>
          have hb := hd34 b (List.mem_cons_self _ _)
          rcases hrest b t rfl with h3 | h3 | h3
          · exact absurd h3 hb.2
          · subst h3
            rw [tokensRef_last w (35 :: t) hwne hw (Or.inr ⟨t, rfl⟩)]
            simp [cur]
          · have hb35 : b ≠ 35 := by
              intro h; subst h; simp [isSeparator] at h3
            simp only [cur, List.headD_cons, List.tail_cons]
            rw [if_neg (by
              intro h
              rcases h with h | h
              · exact hb.2 h
              · exact hb35 h)]
            simp only [List.length_cons] at hlenwd hlen1
            rw [ih (t.length) (by omega) t (le_refl _)
              (fun c hc => hd34 c (List.mem_cons_of_mem _ hc)) fuel _ (by omega),
              tokensRef_token w b t hwne hw h3]
            simp

/-- C15. For every line without `"` and without 0, the tokens of the line are
those of the reference `tokensRef` (the prefix before the first `#`, split at the
runs of space, tab, `=` and `,`, empty pieces dropped, every `/` replaced by `\`),
in the same order, and `IsQuoted` stays false. -/
theorem C15_unquoted_line (Line : List Nat) (h : ∀ c ∈ Line, c ≠ 34 ∧ c ≠ 0) :
    tokenizeLine false Line = (tokensRef Line, false) := by
  unfold tokenizeLine
  rw [tokenLoop_no_quote Line.length Line (le_refl _) h _ [] (by omega)]
  simp


/-! ## `ReadLine` moves the cursor -/

theorem scanLine_ge (stop : Nat → Bool) (u : Nat → Nat) : ∀ (n p : Nat),
    p ≤ scanLine stop u n p := by
  intro n
  induction n with
  | zero => intro p; exact le_refl _
  | succ n ih =>
    intro p
    rw [scanLine]
    split
    · exact le_refl _
    · exact le_trans (Nat.le_succ p) (ih (p + 1))

theorem scanLine_le (stop : Nat → Bool) (u : Nat → Nat) : ∀ (n p : Nat),
    scanLine stop u n p ≤ p + n := by
  intro n
  induction n with
  | zero => intro p; exact le_refl _
  | succ n ih =>
    intro p
    rw [scanLine]
    split
    · omega
    · have := ih (p + 1); omega

theorem scanLine_stop (stop : Nat → Bool) (u : Nat → Nat) : ∀ (n p : Nat),
    scanLine stop u n p < p + n → stop (u (scanLine stop u n p)) = true := by
  intro n
  induction n with
  | zero => intro p h; simp [scanLine] at h
  | succ n ih =>
    intro p h
    rw [scanLine] at h ⊢
    by_cases hs : stop (u p) = true
    · rw [if_pos hs]; exact hs
    · rw [if_neg hs] at h ⊢
      exact ih (p + 1) (by omega)

/-- The two loops of `ReadLine` together move a cursor that is before the end
forward, and not beyond the end. -/
theorem scanLine_twice (u : Nat → Nat) (p e : Nat) (h : p < e) :
    p < scanLine (fun c => !isCRLF c) u (e - scanLine isCRLF u (e - p) p)
          (scanLine isCRLF u (e - p) p) ∧
    scanLine (fun c => !isCRLF c) u (e - scanLine isCRLF u (e - p) p)
          (scanLine isCRLF u (e - p) p) ≤ e := by
  have h1 := scanLine_ge isCRLF u (e - p) p
  have h2 := scanLine_le isCRLF u (e - p) p
  have h3 := scanLine_ge (fun c => !isCRLF c) u (e - scanLine isCRLF u (e - p) p)
    (scanLine isCRLF u (e - p) p)
  have h4 := scanLine_le (fun c => !isCRLF c) u (e - scanLine isCRLF u (e - p) p)
    (scanLine isCRLF u (e - p) p)
  refine ⟨?_, by omega⟩
  by_cases h5 : scanLine isCRLF u (e - p) p = p
  · have h6 := scanLine_stop isCRLF u (e - p) p (by omega)
    rw [h5] at h6 ⊢
    obtain ⟨n, hn⟩ : ∃ n, e - p = n + 1 := ⟨e - p - 1, by omega⟩
    rw [hn, scanLine, if_neg (by simp [h6])]
    have := scanLine_ge (fun c => !isCRLF c) u n (p + 1)
    omega
  · omega

theorem ReadLine_progress (File File1 : REFIT_FILE) (Line : List Nat)
    (h : ReadLine File = (some Line, File1)) : remaining File1 < remaining File := by
  unfold ReadLine at h
  cases hB : File.Buffer with
  | none => rw [hB] at h; simp at h
  | some B =>
    rw [hB] at h
    simp only at h
    by_cases h8 : File.Encoding = ENCODING_ISO8859_1 ∨ File.Encoding = ENCODING_UTF8
    · rw [if_pos h8] at h
      by_cases hp : File.Current8Ptr ≥ File.End8Ptr
      · rw [if_pos hp] at h; simp at h
      · rw [if_neg hp] at h
        simp only [Prod.mk.injEq] at h
        obtain ⟨-, rfl⟩ := h
        have hne : File.Encoding ≠ ENCODING_UTF16_LE := by
          rcases h8 with h8 | h8 <;> rw [h8] <;> decide
        have := scanLine_twice (unit8 B) File.Current8Ptr File.End8Ptr (by omega)
        simp only [remaining, hne, if_false]
        omega
    · rw [if_neg h8] at h
      by_cases h16 : File.Encoding = ENCODING_UTF16_LE
      · rw [if_pos h16] at h
        by_cases hp : File.Current16Ptr ≥ File.End16Ptr
        · rw [if_pos hp] at h; simp at h
        · rw [if_neg hp] at h
          simp only [Prod.mk.injEq] at h
          obtain ⟨-, rfl⟩ := h
          have := scanLine_twice (unit16 B) File.Current16Ptr File.End16Ptr (by omega)
          simp only [remaining, h16, if_true]
          omega
      · rw [if_neg h16] at h; simp at h

/-! ## `IsQuoted` between the lines of one call -/

theorem skipWhitespace_length (q : Bool) (p : List Nat) :
    (skipWhitespace q p).length ≤ p.length := by
  induction p with
  | nil => exact le_refl _
  | cons c r ih =>
    rw [skipWhitespace]
    split
    · exact le_trans ih (Nat.le_succ _)
    · exact le_refl _

theorem findEndOfToken_length (q : Bool) (p : List Nat) :
    (findEndOfToken q p).2.length ≤ p.length := by
  induction p with
  | nil => exact le_refl _
  | cons c r ih =>
    rw [findEndOfToken]
    split
    · exact le_trans ih (Nat.le_succ _)
    · exact le_refl _

theorem tokenLoop_step (fuel : Nat) (q : Bool) (p : List Nat) (toks : List (List Nat)) :
    tokenLoop (fuel + 1) q p toks =
      match tokenStep q p with
      | none => (toks, q)
      | some (T, q2, fin, p1) =>
        if fin = true then (toks ++ [T], q2) else tokenLoop fuel q2 p1 (toks ++ [T]) := by
  rw [tokenLoop_succ]
  unfold tokenStep
  by_cases h1 : cur (skipWhitespace q p) = 0 ∨ cur (skipWhitespace q p) = 35
  · simp only [h1, if_true]
  · simp only [h1, if_false]
    by_cases h2 : cur (findEndOfToken (if cur (skipWhitespace q p) = 34 then !q else q)
                (if cur (skipWhitespace q p) = 34 then (skipWhitespace q p).tail
                  else skipWhitespace q p)).2 = 0 ∨
              cur (findEndOfToken (if cur (skipWhitespace q p) = 34 then !q else q)
                (if cur (skipWhitespace q p) = 34 then (skipWhitespace q p).tail
                  else skipWhitespace q p)).2 = 35
    · simp only [h2, if_true, decide_True]
    · simp only [h2, if_false, decide_False, Bool.false_eq_true]

theorem tokenStep_length (q : Bool) (p : List Nat) (T : List Nat) (q2 : Bool) (p1 : List Nat)
    (h : tokenStep q p = some (T, q2, false, p1)) : p1.length < p.length := by
  have hlen : (findEndOfToken (if cur (skipWhitespace q p) = 34 then !q else q)
      (if cur (skipWhitespace q p) = 34 then (skipWhitespace q p).tail
        else skipWhitespace q p)).2.length ≤ p.length := by
    refine le_trans (findEndOfToken_length _ _) ?_
    have := skipWhitespace_length q p
    split
    · rw [List.length_tail]; omega
    · exact this
  unfold tokenStep at h
  by_cases h1 : cur (skipWhitespace q p) = 0 ∨ cur (skipWhitespace q p) = 35
  · simp only [h1, if_true] at h
    exact absurd h (by simp)
  · simp only [h1, if_false, Option.some.injEq, Prod.mk.injEq, decide_eq_false_iff_not] at h
    obtain ⟨-, -, h2, rfl⟩ := h
    rw [List.length_tail]
    have hne : (findEndOfToken (if cur (skipWhitespace q p) = 34 then !q else q)
        (if cur (skipWhitespace q p) = 34 then (skipWhitespace q p).tail
          else skipWhitespace q p)).2 ≠ [] := by
      intro h
      rw [h] at h2
      exact h2 (Or.inl rfl)
    have := List.length_pos.2 hne
    omega

/-- The loop over one line only adds tokens, and when it adds none it leaves
`IsQuoted` as it found it. -/
theorem tokenLoop_no_token : ∀ (fuel : Nat) (q : Bool) (p : List Nat) (toks : List (List Nat)),
    toks.length ≤ (tokenLoop fuel q p toks).1.length ∧
    ((tokenLoop fuel q p toks).1.length = toks.length → (tokenLoop fuel q p toks).2 = q) := by
  intro fuel
  induction fuel with
  | zero => intro q p toks; exact ⟨le_refl _, fun _ => rfl⟩
  | succ fuel ih =>
    intro q p toks
    rw [tokenLoop_step]
    cases hs : tokenStep q p with
    | none => exact ⟨le_refl _, fun _ => rfl⟩
    | some r =>
      obtain ⟨T, q2, fin, p1⟩ := r
      simp only
      cases fin with
      | true => simp
      | false =>
        simp only [Bool.false_eq_true, if_false]
        have := (ih q2 p1 (toks ++ [T])).1
        simp only [List.length_append, List.length_singleton] at this
        exact ⟨by omega, fun h => by omega⟩

/-- The fuel of `tokenizeLine` is enough: more fuel than the string has units gives
the same result. -/
theorem tokenLoop_fuel : ∀ (n : Nat) (p : List Nat), p.length ≤ n →
    ∀ (fuel : Nat) (q : Bool) (toks : List (List Nat)), n < fuel →
    tokenLoop fuel q p toks = tokenLoop (p.length + 1) q p toks := by
  intro n
  induction n using Nat.strong_induction_on with
  | _ n ih =>
    intro p hlen fuel q toks hfuel
    obtain ⟨fuel, rfl⟩ : ∃ f, fuel = f + 1 := ⟨fuel - 1, by omega⟩
    rw [tokenLoop_step, tokenLoop_step]
    cases hs : tokenStep q p with
    | none => rfl
    | some r =>
      obtain ⟨T, q2, fin, p1⟩ := r
      simp only
      cases fin with
      | true => rfl
      | false =>
        simp only [Bool.false_eq_true, if_false]
        have hp1 := tokenStep_length q p T q2 p1 hs
        rw [ih p1.length (by omega) p1 (le_refl _) fuel q2 _ (by omega),
          ih p1.length (by omega) p1 (le_refl _) p.length q2 _ (by omega)]

theorem tokenizeLine_no_token (Line : List Nat)
    (h : (tokenizeLine false Line).1.length = 0) : (tokenizeLine false Line).2 = false :=
  (tokenLoop_no_token _ false Line []).2 h

theorem readTokenLoop_eq_fresh : ∀ (fuel : Nat) (File : REFIT_FILE),
    readTokenLoop fuel false File = readTokenLoopFresh fuel File := by
  intro fuel
  induction fuel with
  | zero => intro File; rfl
  | succ fuel ih =>
    intro File
    rw [readTokenLoop, readTokenLoopFresh]
    cases hR : ReadLine File with
    | mk Line File1 =>
      cases Line with
      | none => rfl
      | some Line =>
        simp only
        by_cases h : (tokenizeLine false Line).1.length = 0
        · rw [if_pos h, if_pos h, tokenizeLine_no_token Line h, ih]
        · rw [if_neg h, if_neg h]


/-! ## The loops over the lines of a file end -/

theorem readTokenLoopFresh_fuel : ∀ (n : Nat) (File : REFIT_FILE), remaining File ≤ n →
    ∀ (fuel : Nat), n < fuel →
    readTokenLoopFresh fuel File = readTokenLoopFresh (remaining File + 1) File ∧
    readTokenLoopFresh fuel File ≠ none := by
  intro n
  induction n using Nat.strong_induction_on with
  | _ n ih =>
    intro File hn fuel hfuel
    obtain ⟨fuel, rfl⟩ : ∃ f, fuel = f + 1 := ⟨fuel - 1, by omega⟩
    rw [readTokenLoopFresh, readTokenLoopFresh]
    cases hR : ReadLine File with
    | mk Line File1 =>
      cases Line with
      | none => exact ⟨rfl, by simp⟩
      | some Line =>
        simp only
        have hprog := ReadLine_progress File File1 Line hR
        by_cases h : (tokenizeLine false Line).1.length = 0
        · rw [if_pos h, if_pos h]
          have h1 := ih (remaining File1) (by omega) File1 (le_refl _) fuel (by omega)
          have h2 := ih (remaining File1) (by omega) File1 (le_refl _) (remaining File)
            (by omega)
          exact ⟨by rw [h1.1, h2.1], h1.2⟩
        · rw [if_neg h, if_neg h]
          exact ⟨rfl, by simp⟩

theorem ReadTokenLine_eq_fresh (File : REFIT_FILE) :
    ReadTokenLine File = readTokenLoopFresh (remaining File + 1) File :=
  readTokenLoop_eq_fresh _ File

/-- One call of `ReadTokenLine` in terms of one call of `ReadLine`: a count of 0 at
the end of the file, the tokens of the line when it has some, and otherwise what
the call returns on the file behind the line. -/
theorem ReadTokenLine_unfold (File : REFIT_FILE) :
    ReadTokenLine File =
      match ReadLine File with
      | (none, File1) => some ([], File1)
      | (some Line, File1) =>
        if (tokenizeLine false Line).1.length = 0 then ReadTokenLine File1
        else some ((tokenizeLine false Line).1, File1) := by
  rw [ReadTokenLine_eq_fresh, readTokenLoopFresh]
  cases hR : ReadLine File with
  | mk Line File1 =>
    cases Line with
    | none => rfl
    | some Line =>
      simp only
      have hprog := ReadLine_progress File File1 Line hR
      by_cases h : (tokenizeLine false Line).1.length = 0
      · rw [if_pos h, if_pos h, ReadTokenLine_eq_fresh,
          (readTokenLoopFresh_fuel (remaining File1) File1 (le_refl _) (remaining File)
            (by omega)).1]
      · rw [if_neg h, if_neg h]

theorem readAllLines_fuel : ∀ (n : Nat) (File : REFIT_FILE), remaining File ≤ n →
    ∀ (fuel : Nat), n < fuel →
    readAllLines fuel File = readAllLines (remaining File + 1) File ∧
    readAllLines fuel File ≠ none := by
  intro n
  induction n using Nat.strong_induction_on with
  | _ n ih =>
    intro File hn fuel hfuel
    obtain ⟨fuel, rfl⟩ : ∃ f, fuel = f + 1 := ⟨fuel - 1, by omega⟩
    rw [readAllLines, readAllLines]
    cases hR : ReadLine File with
    | mk Line File1 =>
      cases Line with
      | none => exact ⟨rfl, by simp⟩
      | some Line =>
        simp only
        have hprog := ReadLine_progress File File1 Line hR
        have h1 := ih (remaining File1) (by omega) File1 (le_refl _) fuel (by omega)
        have h2 := ih (remaining File1) (by omega) File1 (le_refl _) (remaining File)
          (by omega)
        refine ⟨by rw [h1.1, h2.1], ?_⟩
        cases h3 : readAllLines fuel File1 with
        | none => exact absurd h3 h1.2
        | some ls => simp

theorem readAllTokenLines_eq : ∀ (n : Nat) (File : REFIT_FILE), remaining File ≤ n →
    ∀ (fuel : Nat), n < fuel →
    readAllTokenLines fuel File = (readAllLines fuel File).map tokenLinesRef := by
  intro n
  induction n using Nat.strong_induction_on with
  | _ n ih =>
    intro File hn fuel hfuel
    obtain ⟨fuel, rfl⟩ : ∃ f, fuel = f + 1 := ⟨fuel - 1, by omega⟩
    rw [readAllTokenLines, readAllLines, ReadTokenLine_unfold]
    cases hR : ReadLine File with
    | mk Line File1 =>
      cases Line with
      | none => rfl
      | some Line =>
        simp only
        have hprog := ReadLine_progress File File1 Line hR
        by_cases h : (tokenizeLine false Line).1.length = 0
        · rw [if_pos h]
          have h1 := ih (remaining File1) (by omega) File1 (le_refl _) (fuel + 1) (by omega)
          rw [readAllTokenLines] at h1
          rw [h1,
            (readAllLines_fuel (remaining File1) File1 (le_refl _) (fuel + 1) (by omega)).1,
            ← (readAllLines_fuel (remaining File1) File1 (le_refl _) fuel (by omega)).1]
          cases readAllLines fuel File1 with
          | none => rfl
          | some ls =>
            simp only [Option.map_some', tokenLinesRef, List.map_cons, List.filter_cons, h]
            rfl
        · rw [if_neg h]
          simp only [h, if_false]
          rw [ih (remaining File1) (by omega) File1 (le_refl _) fuel (by omega)]
          cases readAllLines fuel File1 with
          | none => rfl
          | some ls =>
            simp only [Option.map_some', tokenLinesRef, List.map_cons, List.filter_cons]
            have : ((tokenizeLine false Line).1.length != 0) = true := by simpa using h
            rw [if_pos this]

/-- C16. `IsQuoted` is a local of `ReadTokenLine` set to `FALSE` at every call and
carried from line to line inside a call; a line that yields no token leaves it
`FALSE`. So for every file: one call returns what the loop returns that resets
`IsQuoted` before every line; and the token lines returned by repeated calls, up
to the count 0 at the end of the file, are the token lines of the lines of the file,
every line tokenized from the unquoted state whatever the line before it left open,
the lines without a token left out. Both loops end with the fuel of one step per
remaining unit and one more. -/
theorem C16_every_line_starts_unquoted (File : REFIT_FILE) :
    ReadTokenLine File = readTokenLoopFresh (remaining File + 1) File ∧
    (∃ Lines, readAllLines (remaining File + 1) File = some Lines ∧
      readAllTokenLines (remaining File + 1) File = some (tokenLinesRef Lines)) ∧
    (∀ Line, (tokenizeLine false Line).1.length = 0 → (tokenizeLine false Line).2 = false) := by
  refine ⟨ReadTokenLine_eq_fresh File, ?_, tokenizeLine_no_token⟩
  have h1 := readAllLines_fuel (remaining File) File (le_refl _) (remaining File + 1) (by omega)
  have h2 := readAllTokenLines_eq (remaining File) File (le_refl _) (remaining File + 1)
    (by omega)
  cases h3 : readAllLines (remaining File + 1) File with
  | none => exact absurd h3 h1.2
  | some Lines =>
    rw [h3] at h2
    exact ⟨Lines, rfl, h2⟩

set_option maxRecDepth 100000 in
/-- C14 at the line `a"#b"`: the only token is `a`; the `#` between the two quotes
starts a comment, and the line ends with `IsQuoted` true. -/
theorem C14_hash_after_quote_is_comment :
    wstr "a\"#b\"" = [97, 34, 35, 98, 34] ∧
    tokenizeLine false (wstr "a\"#b\"") = ([wstr "a"], true) ∧
    tokenizeLine false (wstr "a \"#b\"") = ([wstr "a", wstr "#b"], false) := by
  decide


/-! ## `ReadConfig`: the effect of the directives, field by field -/

theorem ConstOrId_id {α : Type} : ConstOrId (fun x : α => x) := Or.inl (fun _ => rfl)

theorem ConstOrId_const {α : Type} (k : α) : ConstOrId (fun _ : α => k) :=
  Or.inr ⟨k, fun _ => rfl⟩

theorem ConstOrId_comp {α : Type} (f g : α → α) (hf : ConstOrId f) (hg : ConstOrId g) :
    ConstOrId (fun x => f (g x)) := by
  rcases hf with hf | ⟨k, hf⟩
  · rcases hg with hg | ⟨k, hg⟩
    · exact Or.inl (fun x => by show f (g x) = x; rw [hf, hg])
    · exact Or.inr ⟨k, fun x => by show f (g x) = k; rw [hf, hg]⟩
  · exact Or.inr ⟨k, fun x => hf _⟩

theorem ConstOrId_idem {α : Type} (f : α → α) (hf : ConstOrId f) (x : α) : f (f x) = f x := by
  rcases hf with hf | ⟨k, hf⟩
  · rw [hf]
  · rw [hf, hf]

theorem OrLike_id : OrLike (fun x => x) := ⟨true, 0, fun x => by simp⟩

theorem OrLike_or (k : Nat) : OrLike (fun x => x ||| k) := ⟨true, k, fun x => by simp⟩

theorem OrLike_const (k : Nat) : OrLike (fun _ => k) := ⟨false, k, fun x => by simp⟩

theorem OrLike_comp (f g : Nat → Nat) (hf : OrLike f) (hg : OrLike g) :
    OrLike (fun x => f (g x)) := by
  obtain ⟨kf, cf, hf⟩ := hf
  obtain ⟨kg, cg, hg⟩ := hg
  cases kf with
  | false => exact ⟨false, cf, fun x => by show f (g x) = _; rw [hf]; simp⟩
  | true =>
    refine ⟨kg, cg ||| cf, fun x => ?_⟩
    show f (g x) = _
    rw [hf, hg]
    simp only [if_true]
    rw [Nat.or_assoc]

theorem OrLike_idem (f : Nat → Nat) (hf : OrLike f) (x : Nat) : f (f x) = f x := by
  obtain ⟨kf, cf, hf⟩ := hf
  rw [hf (f x), hf x]
  cases kf with
  | false => simp
  | true => simp [Nat.or_assoc]

theorem setLoop_length (v : Nat → Nat) : ∀ (n i : Nat) (S : List Nat),
    (setLoop v n i S).length = S.length := by
  intro n
  induction n with
  | zero => intro i S; rfl
  | succ n ih => intro i S; rw [setLoop, ih, List.length_set]

theorem setLoop_getElem? (v : Nat → Nat) : ∀ (n i : Nat) (S : List Nat) (j : Nat),
    (setLoop v n i S)[j]? =
      if i ≤ j ∧ j < i + n then (S[j]?).map (fun _ => v j) else S[j]? := by
  intro n
  induction n with
  | zero =>
    intro i S j
    rw [setLoop, if_neg (by omega)]
  | succ n ih =>
    intro i S j
    rw [setLoop, ih, List.getElem?_set']
    by_cases h1 : i = j
    · subst h1
      rw [if_neg (by omega), if_pos rfl, if_pos (by omega)]
      rfl
    · rw [if_neg h1]
      by_cases h2 : i + 1 ≤ j ∧ j < i + 1 + n
      · rw [if_pos h2, if_pos (by omega)]
      · rw [if_neg h2, if_neg (by omega)]

theorem setLoop_setLoop (v1 v2 : Nat → Nat) (n : Nat) (S : List Nat) :
    setLoop v2 n 0 (setLoop v1 n 0 S) = setLoop v2 n 0 S := by
  apply List.ext_getElem?
  intro j
  rw [setLoop_getElem?, setLoop_getElem?, setLoop_getElem?]
  by_cases h : 0 ≤ j ∧ j < 0 + n
  · rw [if_pos h, if_pos h, if_pos h]
    cases S[j]? <;> rfl
  · rw [if_neg h, if_neg h, if_neg h]

theorem ScanLike_comp (n : Nat) (f g : List Nat → List Nat) (hf : ScanLike n f)
    (hg : ScanLike n g) : ScanLike n (fun x => f (g x)) := by
  rcases hf with hf | ⟨v, hf⟩
  · rcases hg with hg | ⟨w, hg⟩
    · exact Or.inl (fun x => by show f (g x) = _; rw [hf, hg])
    · exact Or.inr ⟨w, fun x => by show f (g x) = _; rw [hf, hg]⟩
  · rcases hg with hg | ⟨w, hg⟩
    · exact Or.inr ⟨v, fun x => by show f (g x) = _; rw [hf, hg]⟩
    · exact Or.inr ⟨v, fun x => by show f (g x) = _; rw [hf, hg, setLoop_setLoop]⟩

theorem ScanLike_idem (n : Nat) (f : List Nat → List Nat) (hf : ScanLike n f) (x : List Nat) :
    f (f x) = f x := by
  rcases hf with hf | ⟨v, hf⟩
  · rw [hf]
  · rw [hf (f x), hf x, setLoop_setLoop]

theorem Fieldwise_id (n : Nat) : Fieldwise n (fun cfg => cfg) :=
  ⟨⟨fun x => x, fun x => x, fun x => x, fun x => x, fun x => x, fun x => x, fun x => x,
     fun x => x, fun x => x⟩,
   ⟨ConstOrId_id, OrLike_id, OrLike_id, Or.inl (fun _ => rfl), ConstOrId_id, ConstOrId_id,
     ConstOrId_id, ConstOrId_id, ConstOrId_id⟩,
   fun _ => rfl⟩

theorem Fieldwise_comp (n : Nat) (F G : REFIT_CONFIG → REFIT_CONFIG) (hF : Fieldwise n F)
    (hG : Fieldwise n G) : Fieldwise n (fun cfg => F (G cfg)) := by
  obtain ⟨e, ⟨a1, a2, a3, a4, a5, a6, a7, a8, a9⟩, he⟩ := hF
  obtain ⟨d, ⟨b1, b2, b3, b4, b5, b6, b7, b8, b9⟩, hd⟩ := hG
  refine ⟨⟨fun x => e.timeout (d.timeout x), fun x => e.disable (d.disable x),
    fun x => e.hideui (d.hideui x), fun x => e.scanFor (d.scanFor x),
    fun x => e.banner (d.banner x), fun x => e.small (d.small x), fun x => e.big (d.big x),
    fun x => e.selection (d.selection x), fun x => e.textOnly (d.textOnly x)⟩,
    ⟨ConstOrId_comp e.timeout d.timeout a1 b1, OrLike_comp e.disable d.disable a2 b2,
     OrLike_comp e.hideui d.hideui a3 b3, ScanLike_comp n e.scanFor d.scanFor a4 b4,
     ConstOrId_comp e.banner d.banner a5 b5, ConstOrId_comp e.small d.small a6 b6,
     ConstOrId_comp e.big d.big a7 b7, ConstOrId_comp e.selection d.selection a8 b8,
     ConstOrId_comp e.textOnly d.textOnly a9 b9⟩, ?_⟩
  intro cfg
  show F (G cfg) = _
  rw [hd, he]
  rfl

theorem Fieldwise_idem (n : Nat) (F : REFIT_CONFIG → REFIT_CONFIG) (hF : Fieldwise n F)
    (cfg : REFIT_CONFIG) : F (F cfg) = F cfg := by
  obtain ⟨e, ⟨a1, a2, a3, a4, a5, a6, a7, a8, a9⟩, he⟩ := hF
  rw [he (F cfg), he cfg]
  simp only [FieldMaps.apply, ConstOrId_idem _ a1, OrLike_idem _ a2, OrLike_idem _ a3,
    ScanLike_idem n _ a4, ConstOrId_idem _ a5, ConstOrId_idem _ a6, ConstOrId_idem _ a7,
    ConstOrId_idem _ a8, ConstOrId_idem _ a9]

theorem Fieldwise_foldl (n : Nat) {β : Type} (step : REFIT_CONFIG → β → REFIT_CONFIG)
    (hstep : ∀ b, Fieldwise n (fun cfg => step cfg b)) :
    ∀ (bs : List β), Fieldwise n (fun cfg => bs.foldl step cfg) := by
  intro bs
  induction bs with
  | nil => exact Fieldwise_id n
  | cons b bs ih =>
    have := Fieldwise_comp n _ _ ih (hstep b)
    exact this

theorem Fieldwise_timeout (n : Nat) (f : Nat → Nat) (hf : ConstOrId f) :
    Fieldwise n (fun cfg => { cfg with Timeout := f cfg.Timeout }) :=
  ⟨{ FieldMaps.same with timeout := f },
   ⟨hf, OrLike_id, OrLike_id, Or.inl (fun _ => rfl), ConstOrId_id, ConstOrId_id,
     ConstOrId_id, ConstOrId_id, ConstOrId_id⟩,
   fun _ => rfl⟩

theorem Fieldwise_disable (n : Nat) (f : Nat → Nat) (hf : OrLike f) :
    Fieldwise n (fun cfg => { cfg with DisableFlags := f cfg.DisableFlags }) :=
  ⟨{ FieldMaps.same with disable := f },
   ⟨ConstOrId_id, hf, OrLike_id, Or.inl (fun _ => rfl), ConstOrId_id, ConstOrId_id,
     ConstOrId_id, ConstOrId_id, ConstOrId_id⟩,
   fun _ => rfl⟩

theorem Fieldwise_hideui (n : Nat) (f : Nat → Nat) (hf : OrLike f) :
    Fieldwise n (fun cfg => { cfg with HideUIFlags := f cfg.HideUIFlags }) :=
  ⟨{ FieldMaps.same with hideui := f },
   ⟨ConstOrId_id, OrLike_id, hf, Or.inl (fun _ => rfl), ConstOrId_id, ConstOrId_id,
     ConstOrId_id, ConstOrId_id, ConstOrId_id⟩,
   fun _ => rfl⟩

theorem Fieldwise_scanFor (n : Nat) (f : List Nat → List Nat) (hf : ScanLike n f) :
    Fieldwise n (fun cfg => { cfg with ScanFor := f cfg.ScanFor }) :=
  ⟨{ FieldMaps.same with scanFor := f },
   ⟨ConstOrId_id, OrLike_id, OrLike_id, hf, ConstOrId_id, ConstOrId_id,
     ConstOrId_id, ConstOrId_id, ConstOrId_id⟩,
   fun _ => rfl⟩

theorem Fieldwise_banner (n : Nat) (f : Option (List Nat) → Option (List Nat))
    (hf : ConstOrId f) :
    Fieldwise n (fun cfg => { cfg with BannerFileName := f cfg.BannerFileName }) :=
  ⟨{ FieldMaps.same with banner := f },
   ⟨ConstOrId_id, OrLike_id, OrLike_id, Or.inl (fun _ => rfl), hf, ConstOrId_id,
     ConstOrId_id, ConstOrId_id, ConstOrId_id⟩,
   fun _ => rfl⟩

theorem Fieldwise_small (n : Nat) (f : Option (List Nat) → Option (List Nat))
    (hf : ConstOrId f) :
    Fieldwise n
      (fun cfg => { cfg with SelectionSmallFileName := f cfg.SelectionSmallFileName }) :=
  ⟨{ FieldMaps.same with small := f },
   ⟨ConstOrId_id, OrLike_id, OrLike_id, Or.inl (fun _ => rfl), ConstOrId_id, hf,
     ConstOrId_id, ConstOrId_id, ConstOrId_id⟩,
   fun _ => rfl⟩

theorem Fieldwise_big (n : Nat) (f : Option (List Nat) → Option (List Nat))
    (hf : ConstOrId f) :
    Fieldwise n (fun cfg => { cfg with SelectionBigFileName := f cfg.SelectionBigFileName }) :=
  ⟨{ FieldMaps.same with big := f },
   ⟨ConstOrId_id, OrLike_id, OrLike_id, Or.inl (fun _ => rfl), ConstOrId_id, ConstOrId_id,
     hf, ConstOrId_id, ConstOrId_id⟩,
   fun _ => rfl⟩

theorem Fieldwise_selection (n : Nat) (f : Option (List Nat) → Option (List Nat))
    (hf : ConstOrId f) :
    Fieldwise n (fun cfg => { cfg with DefaultSelection := f cfg.DefaultSelection }) :=
  ⟨{ FieldMaps.same with selection := f },
   ⟨ConstOrId_id, OrLike_id, OrLike_id, Or.inl (fun _ => rfl), ConstOrId_id, ConstOrId_id,
     ConstOrId_id, hf, ConstOrId_id⟩,
   fun _ => rfl⟩

theorem Fieldwise_textOnly (n : Nat) (f : Bool → Bool) (hf : ConstOrId f) :
    Fieldwise n (fun cfg => { cfg with TextOnly := f cfg.TextOnly }) :=
  ⟨{ FieldMaps.same with textOnly := f },
   ⟨ConstOrId_id, OrLike_id, OrLike_id, Or.inl (fun _ => rfl), ConstOrId_id, ConstOrId_id,
     ConstOrId_id, ConstOrId_id, hf⟩,
   fun _ => rfl⟩

theorem HandleInt_ConstOrId (c : ConfigParams) (T : List (List Nat)) :
    ConstOrId (HandleInt c T) := by
  by_cases h1 : T.length < 2
  · exact Or.inl (fun x => by rw [HandleInt, if_pos h1])
  · by_cases h2 : T.length > 2
    · exact Or.inl (fun x => by rw [HandleInt, if_neg h1, if_pos h2])
    · exact Or.inr ⟨_, fun x => by rw [HandleInt, if_neg h1, if_neg h2]⟩

theorem HandleString_ConstOrId (T : List (List Nat)) : ConstOrId (HandleString T) := by
  by_cases h1 : T.length < 2
  · exact Or.inl (fun x => by rw [HandleString, if_pos h1])
  · by_cases h2 : T.length > 2
    · exact Or.inl (fun x => by rw [HandleString, if_neg h1, if_pos h2])
    · exact Or.inr ⟨_, fun x => by rw [HandleString, if_neg h1, if_neg h2]⟩

theorem scanforLoop_eq_setLoop (T : List (List Nat)) : ∀ (n i : Nat) (S : List Nat),
    scanforLoop T n i S = setLoop (scanforValue T) n i S := by
  intro n
  induction n with
  | zero => intro i S; rfl
  | succ n ih => intro i S; rw [scanforLoop, setLoop, ih]; rfl

theorem disableFlag_fieldwise (n : Nat) (c : ConfigParams) (FlagName : List Nat) :
    Fieldwise n (fun cfg => disableFlag c cfg FlagName) := by
  unfold disableFlag
  by_cases h1 : StriEq FlagName (wstr "shell") = true
  · simp only [h1, if_true]; exact Fieldwise_disable n _ (OrLike_or _)
  simp only [h1, if_false]
  by_cases h2 : StriEq FlagName (wstr "tools") = true
  · simp only [h2, if_true]; exact Fieldwise_disable n _ (OrLike_or _)
  simp only [h2, if_false]
  by_cases h3 : StriEq FlagName (wstr "singleuser") = true
  · simp only [h3, if_true]; exact Fieldwise_disable n _ (OrLike_or _)
  simp only [h3, if_false]
  by_cases h4 : StriEq FlagName (wstr "hwtest") = true
  · simp only [h4, if_true]; exact Fieldwise_disable n _ (OrLike_or _)
  simp only [h4, if_false]
  by_cases h5 : StriEq FlagName (wstr "all") = true
  · simp only [h5, if_true]; exact Fieldwise_disable n _ (OrLike_const _)
  simp only [h5, if_false]
  exact Fieldwise_id n

theorem hideuiFlag_fieldwise (n : Nat) (c : ConfigParams) (FlagName : List Nat) :
    Fieldwise n (fun cfg => hideuiFlag c cfg FlagName) := by
  unfold hideuiFlag
  by_cases h1 : StriEq FlagName (wstr "banner") = true
  · simp only [h1, if_true]; exact Fieldwise_hideui n _ (OrLike_or _)
  simp only [h1, if_false]
  by_cases h2 : StriEq FlagName (wstr "shell") = true
  · simp only [h2, if_true]; exact Fieldwise_disable n _ (OrLike_or _)
  simp only [h2, if_false]
  by_cases h3 : StriEq FlagName (wstr "tools") = true
  · simp only [h3, if_true]; exact Fieldwise_disable n _ (OrLike_or _)
  simp only [h3, if_false]
  by_cases h4 : StriEq FlagName (wstr "funcs") = true
  · simp only [h4, if_true]; exact Fieldwise_hideui n _ (OrLike_or _)
  simp only [h4, if_false]
  by_cases h5 : StriEq FlagName (wstr "label") = true
  · simp only [h5, if_true]; exact Fieldwise_hideui n _ (OrLike_or _)
  simp only [h5, if_false]
  by_cases h6 : StriEq FlagName (wstr "all") = true
  · simp only [h6, if_true]
    exact Fieldwise_comp n _ _ (Fieldwise_hideui n _ (OrLike_const c.HIDEUI_ALL))
      (Fieldwise_disable n _ (OrLike_or (c.DISABLE_FLAG_SHELL ||| c.DISABLE_FLAG_TOOLS)))
  simp only [h6, if_false]
  exact Fieldwise_id n

theorem handleTokenLine_fieldwise (c : ConfigParams) (T : List (List Nat)) :
    Fieldwise c.NUM_SCAN_OPTIONS (fun cfg => handleTokenLine c cfg T) := by
  unfold handleTokenLine
  by_cases h1 : StriEq (T.getD 0 []) (wstr "timeout") = true
  · simp only [h1, if_true]; exact Fieldwise_timeout _ _ (HandleInt_ConstOrId c T)
  simp only [h1, if_false]
  by_cases h2 : StriEq (T.getD 0 []) (wstr "disable") = true
  · simp only [h2, if_true]
    exact Fieldwise_foldl _ _ (disableFlag_fieldwise _ c) _
  simp only [h2, if_false]
  by_cases h3 : StriEq (T.getD 0 []) (wstr "scanfor") = true
  · simp only [h3, if_true]
    exact Fieldwise_scanFor _ _ (Or.inr ⟨scanforValue T, fun x => scanforLoop_eq_setLoop T _ 0 x⟩)
  simp only [h3, if_false]
  by_cases h4 : StriEq (T.getD 0 []) (wstr "hideui") = true
  · simp only [h4, if_true]
    exact Fieldwise_foldl _ _ (hideuiFlag_fieldwise _ c) _
  simp only [h4, if_false]
  by_cases h5 : StriEq (T.getD 0 []) (wstr "banner") = true
  · simp only [h5, if_true]; exact Fieldwise_banner _ _ (HandleString_ConstOrId T)
  simp only [h5, if_false]
  by_cases h6 : StriEq (T.getD 0 []) (wstr "selection_small") = true
  · simp only [h6, if_true]; exact Fieldwise_small _ _ (HandleString_ConstOrId T)
  simp only [h6, if_false]
  by_cases h7 : StriEq (T.getD 0 []) (wstr "selection_big") = true
  · simp only [h7, if_true]; exact Fieldwise_big _ _ (HandleString_ConstOrId T)
  simp only [h7, if_false]
  by_cases h8 : StriEq (T.getD 0 []) (wstr "default_selection") = true
  · simp only [h8, if_true]; exact Fieldwise_selection _ _ (HandleString_ConstOrId T)
  simp only [h8, if_false]
  by_cases h9 : StriEq (T.getD 0 []) (wstr "textonly") = true
  · simp only [h9, if_true]; exact Fieldwise_textOnly _ _ (ConstOrId_const true)
  simp only [h9, if_false]
  exact Fieldwise_id _

/-- The loop of `ReadConfig` applies the body to the token lines of the file, one
after the other. -/
theorem readConfigLoop_eq (c : ConfigParams) : ∀ (fuel : Nat) (File : REFIT_FILE)
    (cfg : REFIT_CONFIG),
    readConfigLoop c fuel File cfg =
      (readAllTokenLines fuel File).map (fun Ts => Ts.foldl (handleTokenLine c) cfg) := by
  intro fuel
  induction fuel with
  | zero => intro File cfg; rfl
  | succ fuel ih =>
    intro File cfg
    rw [readConfigLoop, readAllTokenLines]
    cases hT : ReadTokenLine File with
    | none => rfl
    | some r =>
      obtain ⟨TokenList, File1⟩ := r
      by_cases h : TokenList.length = 0
      · simp only [h, if_true]; rfl
      · simp only [h, if_false]
        rw [ih]
        cases readAllTokenLines fuel File1 <;> rfl

/-- The repeated calls of `ReadTokenLine` end, with the token lines of the lines of
the file. -/
theorem readAllTokenLines_total (File : REFIT_FILE) :
    ∃ Lines, readAllLines (remaining File + 1) File = some Lines ∧
      readAllTokenLines (remaining File + 1) File = some (tokenLinesRef Lines) := by
  have h1 := readAllLines_fuel (remaining File) File (le_refl _) (remaining File + 1) (by omega)
  have h2 := readAllTokenLines_eq (remaining File) File (le_refl _) (remaining File + 1)
    (by omega)
  cases h3 : readAllLines (remaining File + 1) File with
  | none => exact absurd h3 h1.2
  | some Lines =>
    rw [h3] at h2
    exact ⟨Lines, rfl, h2⟩

/-- The function `ReadConfig` returns, and what it does to `GlobalConfig` is the
effect of a list of token lines that depends on the file only. -/
theorem ReadConfig_eq (c : ConfigParams) (FileExists : Bool) (fs : FileAccess) :
    ∃ Ts : List (List (List Nat)), ∀ cfg,
      ReadConfig c FileExists fs cfg = some (Ts.foldl (handleTokenLine c) cfg) := by
  unfold ReadConfig
  cases FileExists with
  | false => exact ⟨[], fun cfg => rfl⟩
  | true =>
    cases hR : ReadFile fs blankFile with
    | mk Status File =>
      by_cases hE : EFI_ERROR Status = true
      · exact ⟨[], fun cfg => by simp [hE]⟩
      · obtain ⟨Lines, _, h2⟩ := readAllTokenLines_total File
        exact ⟨tokenLinesRef Lines, fun cfg => by simp [hE, readConfigLoop_eq, h2]⟩


/-- C17. For every answer of the firmware to the file calls (the content of the
configuration file included) and every `GlobalConfig` before the call, `ReadConfig`
returns, and a second call for the same file on the `GlobalConfig` that the first
one left returns that same `GlobalConfig`: all nine fields, the strings by value. -/
theorem C17_config_idempotence (c : ConfigParams) (FileExists : Bool) (fs : FileAccess)
    (cfg : REFIT_CONFIG) :
    ∃ cfg1, ReadConfig c FileExists fs cfg = some cfg1 ∧
      ReadConfig c FileExists fs cfg1 = some cfg1 := by
  obtain ⟨Ts, h⟩ := ReadConfig_eq c FileExists fs
  refine ⟨Ts.foldl (handleTokenLine c) cfg, h cfg, ?_⟩
  rw [h]
  exact congrArg some (Fieldwise_idem c.NUM_SCAN_OPTIONS _
    (Fieldwise_foldl c.NUM_SCAN_OPTIONS (handleTokenLine c)
      (fun T => handleTokenLine_fieldwise c T) Ts) cfg)

/-- C18. A token line whose first token is `timeout`, in any case of the letters:
with exactly two tokens `Timeout` becomes `Atoi` of the second token and no other
field changes; with one token or more than two the whole `GlobalConfig` stays as it
was. `Atoi` is the library function that reads the number. -/
theorem C18_timeout_arity (c : ConfigParams) (cfg : REFIT_CONFIG) (T : List (List Nat))
    (h : StriEq (T.getD 0 []) (wstr "timeout") = true) :
    handleTokenLine c cfg T =
      if T.length = 2 then { cfg with Timeout := c.Atoi (T.getD 1 []) } else cfg := by
  unfold handleTokenLine
  simp only [h, if_true, HandleInt]
  by_cases h1 : T.length < 2
  · rw [if_pos h1, if_neg (by omega)]
  · rw [if_neg h1]
    by_cases h2 : T.length > 2
    · rw [if_pos h2, if_neg (by omega)]
    · rw [if_neg h2, if_pos (by omega)]

/-- C19. The line `hideui all` has the tokens `hideui` and `all`; for every
`GlobalConfig` before it, the body of the loop of `ReadConfig`, and `ReadConfig` on
a file that holds this line, leave `HideUIFlags` equal to `HIDEUI_ALL`,
`DisableFlags` equal to its value before OR-ed with
`DISABLE_FLAG_SHELL | DISABLE_FLAG_TOOLS`, and the other fields as they were; so
every bit of the two flags and every bit set before is set afterwards. -/
theorem C19_hideui_all (c : ConfigParams) (cfg : REFIT_CONFIG) :
    (tokenizeLine false (wstr "hideui all")).1 = [wstr "hideui", wstr "all"] ∧
    handleTokenLine c cfg [wstr "hideui", wstr "all"] =
      { cfg with HideUIFlags := c.HIDEUI_ALL,
                 DisableFlags := cfg.DisableFlags |||
                   (c.DISABLE_FLAG_SHELL ||| c.DISABLE_FLAG_TOOLS) } ∧
    ReadConfig c true (fileWith (bytesOf "hideui all\n")) cfg =
      some { cfg with HideUIFlags := c.HIDEUI_ALL,
                      DisableFlags := cfg.DisableFlags |||
                        (c.DISABLE_FLAG_SHELL ||| c.DISABLE_FLAG_TOOLS) } ∧
    (handleTokenLine c cfg [wstr "hideui", wstr "all"]).HideUIFlags = c.HIDEUI_ALL ∧
    ∀ i, (c.DISABLE_FLAG_SHELL.testBit i = true ∨ c.DISABLE_FLAG_TOOLS.testBit i = true ∨
        cfg.DisableFlags.testBit i = true) →
      (handleTokenLine c cfg [wstr "hideui", wstr "all"]).DisableFlags.testBit i = true := by
  have h1 : handleTokenLine c cfg [wstr "hideui", wstr "all"] =
      { cfg with HideUIFlags := c.HIDEUI_ALL,
                 DisableFlags := cfg.DisableFlags |||
                   (c.DISABLE_FLAG_SHELL ||| c.DISABLE_FLAG_TOOLS) } := rfl
  refine ⟨by decide, h1, rfl, by rw [h1], ?_⟩
  intro i hi
  rw [h1]
  simp only [Nat.testBit_or, Bool.or_eq_true]
  tauto

theorem setLoop_full (v : Nat → Nat) (n : Nat) (S : List Nat) (h : S.length = n) :
    setLoop v n 0 S = (List.range n).map v := by
  apply List.ext_getElem?
  intro j
  rw [setLoop_getElem?]
  by_cases hj : j < n
  · rw [if_pos (by omega), List.getElem?_eq_getElem (by omega),
      List.getElem?_eq_getElem (by simpa using hj)]
    simp
  · rw [if_neg (by omega), List.getElem?_eq_none (by omega),
      List.getElem?_eq_none (by simp; omega)]

theorem StriEq_scanfor_head (T0 : List Nat) (h : StriEq T0 (wstr "scanfor") = true) :
    cur T0 = 115 ∨ cur T0 = 83 := by
  cases T0 with
  | nil => exact absurd h (by decide)
  | cons a r =>
    have h1 : toLowerUnit a = 115 := by
      have h2 : (a :: r).map toLowerUnit = (wstr "scanfor").map toLowerUnit := by
        simpa [StriEq] using h
      have h3 : ((a :: r).map toLowerUnit).head? = some 115 := by rw [h2]; decide
      simpa using h3
    show a = 115 ∨ a = 83
    unfold toLowerUnit at h1
    by_cases hc : 65 ≤ a ∧ a ≤ 90
    · rw [if_pos hc] at h1; right; omega
    · rw [if_neg hc] at h1; left; exact h1

/-- C20. A token line whose first token is `scanfor`, in any case of the letters,
on a `ScanFor` of `NUM_SCAN_OPTIONS` slots: afterwards slot `i` holds the first unit
of token `i` for every `i` below the number of tokens and a space for the other `i`,
and no other field changes. So slot 0 holds the first unit of the directive name, an
`s` or an `S`, and slot 1 the first unit of the first argument when there is one. -/
theorem C20_scanfor_slots (c : ConfigParams) (cfg : REFIT_CONFIG) (T : List (List Nat))
    (h : StriEq (T.getD 0 []) (wstr "scanfor") = true)
    (hlen : cfg.ScanFor.length = c.NUM_SCAN_OPTIONS) :
    handleTokenLine c cfg T =
      { cfg with
        ScanFor := (List.range c.NUM_SCAN_OPTIONS).map (fun i =>
          if i < T.length then cur (T.getD i []) else 32) } ∧
    (0 < c.NUM_SCAN_OPTIONS →
      (handleTokenLine c cfg T).ScanFor[0]? = some (cur (T.getD 0 [])) ∧
      (cur (T.getD 0 []) = 115 ∨ cur (T.getD 0 []) = 83)) ∧
    (1 < c.NUM_SCAN_OPTIONS → 1 < T.length →
      (handleTokenLine c cfg T).ScanFor[1]? = some (cur (T.getD 1 []))) := by
  have hT : 0 < T.length := by
    cases T with
    | nil => exact absurd h (by decide)
    | cons a r => simp
  have h0 : StriEq (T.getD 0 []) (wstr "timeout") = false := by
    cases hb : StriEq (T.getD 0 []) (wstr "timeout") with
    | false => rfl
    | true =>
      exfalso
      have e1 : (T.getD 0 []).map toLowerUnit = (wstr "timeout").map toLowerUnit := by
        simpa [StriEq] using hb
      have e2 : (T.getD 0 []).map toLowerUnit = (wstr "scanfor").map toLowerUnit := by
        simpa [StriEq] using h
      rw [e1] at e2
      exact absurd e2 (by decide)
  have h1 : StriEq (T.getD 0 []) (wstr "disable") = false := by
    cases hb : StriEq (T.getD 0 []) (wstr "disable") with
    | false => rfl
    | true =>
      exfalso
      have e1 : (T.getD 0 []).map toLowerUnit = (wstr "disable").map toLowerUnit := by
        simpa [StriEq] using hb
      have e2 : (T.getD 0 []).map toLowerUnit = (wstr "scanfor").map toLowerUnit := by
        simpa [StriEq] using h
      rw [e1] at e2
      exact absurd e2 (by decide)
  have key : handleTokenLine c cfg T =
      { cfg with
        ScanFor := (List.range c.NUM_SCAN_OPTIONS).map (fun i =>
          if i < T.length then cur (T.getD i []) else 32) } := by
    unfold handleTokenLine
    simp only [h0, h1, h, if_true, if_false, Bool.false_eq_true]
    rw [scanforLoop_eq_setLoop, setLoop_full _ _ _ hlen]
    rfl
  refine ⟨key, ?_, ?_⟩
  · intro hn
    refine ⟨?_, StriEq_scanfor_head _ h⟩
    rw [key]
    simp [hn, hT]
  · intro hn h1T
    rw [key]
    simp [hn, h1T]

/-! ## The statements about the configuration file at concrete inputs -/

set_option maxRecDepth 100000 in
/-- C12 as stated, at the tokens `loader` and `/EFI/x`: no unit of them is a
separator, a `"` or a `#`, and the line `loader /EFI/x` yields the tokens `loader`
and `\EFI\x`, not the tokens it was joined from. -/
theorem C12_counterexample :
    (∀ t ∈ [wstr "loader", wstr "/EFI/x"], ∀ c ∈ t, isSeparator c = false ∧ c ≠ 34 ∧ c ≠ 35) ∧
    joinTokens [wstr "loader", wstr "/EFI/x"] = wstr "loader /EFI/x" ∧
    (tokenizeLine false (joinTokens [wstr "loader", wstr "/EFI/x"])).1 =
      [wstr "loader", wstr "\\EFI\\x"] ∧
    (tokenizeLine false (joinTokens [wstr "loader", wstr "/EFI/x"])).1 ≠
      [wstr "loader", wstr "/EFI/x"] := by
  decide

set_option maxRecDepth 100000 in
/-- C12 as amended, at the tokens `icon` and `a/b.icns`, and at the tokens `timeout`
and `20`. -/
theorem C12_tokenizer_round_trip_witness :
    (tokenizeLine false (joinTokens [wstr "icon", wstr "a/b.icns"]) =
        ([wstr "icon", wstr "a/b.icns"].map slashToBackslash, false) ∧
      ((∀ t ∈ [wstr "icon", wstr "a/b.icns"], 47 ∉ t) →
        (tokenizeLine false (joinTokens [wstr "icon", wstr "a/b.icns"])).1 =
          [wstr "icon", wstr "a/b.icns"])) ∧
    (tokenizeLine false (joinTokens [wstr "timeout", wstr "20"])).1 =
      [wstr "timeout", wstr "20"] :=
  ⟨C12_tokenizer_round_trip [wstr "icon", wstr "a/b.icns"] (by decide)
     (by unfold plainToken plainUnit; decide),
   (C12_tokenizer_round_trip [wstr "timeout", wstr "20"] (by decide)
     (by unfold plainToken plainUnit; decide)).2 (by decide)⟩

set_option maxRecDepth 100000 in
/-- C13 at the line `loader "\EFI\Linux\vmlinuz.efi"`. -/
theorem C13_quoted_argument_witness :
    wstr "loader \"\\EFI\\Linux\\vmlinuz.efi\"" =
      wstr "loader " ++ 34 :: wstr "\\EFI\\Linux\\vmlinuz.efi" ++ [34] ∧
    tokenizeLine false (wstr "loader " ++ 34 :: wstr "\\EFI\\Linux\\vmlinuz.efi" ++ [34]) =
      ([wstr "loader", wstr "\\EFI\\Linux\\vmlinuz.efi"], false) :=
  ⟨by decide, C13_quoted_argument (wstr "\\EFI\\Linux\\vmlinuz.efi") (by decide)⟩

set_option maxRecDepth 100000 in
/-- C15 at the line `loader /EFI/BOOT/bootx64.efi`. -/
theorem C15_unquoted_line_witness :
    tokenizeLine false (wstr "loader /EFI/BOOT/bootx64.efi") =
      (tokensRef (wstr "loader /EFI/BOOT/bootx64.efi"), false) ∧
    tokensRef (wstr "loader /EFI/BOOT/bootx64.efi") =
      [wstr "loader", wstr "\\EFI\\BOOT\\bootx64.efi"] :=
  ⟨C15_unquoted_line (wstr "loader /EFI/BOOT/bootx64.efi") (by decide), by decide⟩

set_option maxRecDepth 100000 in
/-- C18 at the lines `timeout 20 extra` and `timeout 20`, with `Atoi` reading the
decimal digits: the first leaves the `GlobalConfig` as it was, the second sets
`Timeout` to 20. -/
theorem C18_timeout_arity_witness :
    (tokenizeLine false (wstr "timeout 20 extra")).1 =
      [wstr "timeout", wstr "20", wstr "extra"] ∧
    handleTokenLine exConfigParams exConfig [wstr "timeout", wstr "20", wstr "extra"] =
      exConfig ∧
    handleTokenLine exConfigParams exConfig [wstr "timeout", wstr "20"] =
      { exConfig with Timeout := 20 } :=
  ⟨by decide,
   (C18_timeout_arity exConfigParams exConfig [wstr "timeout", wstr "20", wstr "extra"]
     (by decide)).trans (by decide),
   (C18_timeout_arity exConfigParams exConfig [wstr "timeout", wstr "20"]
     (by decide)).trans (by decide)⟩

set_option maxRecDepth 100000 in
/-- C20 at the line `scanfor internal,external` with four slots: the slots hold
`s`, `i`, `e` and a space. -/
theorem C20_scanfor_slots_witness :
    (tokenizeLine false (wstr "scanfor internal,external")).1 =
      [wstr "scanfor", wstr "internal", wstr "external"] ∧
    (handleTokenLine exConfigParams exConfig
      [wstr "scanfor", wstr "internal", wstr "external"]).ScanFor = [115, 105, 101, 32] ∧
    (handleTokenLine exConfigParams exConfig
      [wstr "scanfor", wstr "internal", wstr "external"]).ScanFor[1]? = some 105 :=
  ⟨by decide,
   (congrArg REFIT_CONFIG.ScanFor (C20_scanfor_slots exConfigParams exConfig
     [wstr "scanfor", wstr "internal", wstr "external"] (by decide) (by decide)).1).trans
     (by decide),
   ((C20_scanfor_slots exConfigParams exConfig
     [wstr "scanfor", wstr "internal", wstr "external"] (by decide) (by decide)).2.2
     (by decide) (by decide)).trans (by decide)⟩

/-! # The chain walk: frame, order of the writes, termination -/

/-! ## What a write changes in the sector read -/

theorem ops_split (c : Nat) (w : Sector) (ops pre : List BlockOp) (c1 : Nat) (w1 : Sector)
    (post : List BlockOp)
    (h : BlockOp.read c :: BlockOp.write c w :: ops = pre ++ BlockOp.write c1 w1 :: post) :
    (pre = [BlockOp.read c] ∧ c1 = c ∧ w1 = w ∧ post = ops) ∨
    ∃ pre1, pre = BlockOp.read c :: BlockOp.write c w :: pre1 ∧
      ops = pre1 ++ BlockOp.write c1 w1 :: post := by
  cases pre with
  | nil => simp at h
  | cons a pre1 =>
    simp only [List.cons_append, List.cons.injEq] at h
    obtain ⟨rfl, h⟩ := h
    cases pre1 with
    | nil =>
      simp only [List.nil_append, List.cons.injEq, BlockOp.write.injEq] at h
      obtain ⟨⟨rfl, rfl⟩, rfl⟩ := h
      exact Or.inl ⟨rfl, rfl, rfl, rfl⟩
    | cons b pre2 =>
      simp only [List.cons_append, List.cons.injEq] at h
      obtain ⟨rfl, h⟩ := h
      exact Or.inr ⟨pre2, rfl, h⟩

theorem ops_split_one (c : Nat) (w : Sector) (pre : List BlockOp) (c1 : Nat) (w1 : Sector)
    (post : List BlockOp)
    (h : [BlockOp.read c, BlockOp.write c w] = pre ++ BlockOp.write c1 w1 :: post) :
    pre = [BlockOp.read c] ∧ c1 = c ∧ w1 = w ∧ post = [] := by
  rcases ops_split c w [] pre c1 w1 post h with h1 | ⟨pre1, _, h2⟩
  · exact h1
  · exact absurd h2 (by simp)

theorem after_read (io : BlockDev) (c : Nat) :
    (io.after [BlockOp.read c]).disk = io.disk := rfl

theorem after_rewrite (io : BlockDev) (c : Nat) (w : Sector) (ops : List BlockOp)
    (h : ¬ EFI_ERROR (io.status (io.log ++ [.read c]) (.write c w)) = true) :
    io.after (BlockOp.read c :: BlockOp.write c w :: ops) =
      BlockDev.after { io with log := io.log ++ [.read c] ++ [.write c w],
                               disk := Function.update io.disk c w } ops := by
  rw [BlockDev.after, BlockDev.after]
  simp only [ReadBlocks, WriteBlocks, if_neg h]

/-- Every write of the chain walk writes back the sector that the call before it
read, changed at most in the four flag bytes. -/
theorem walk_frame (p : Params) (k eb : Nat) : ∀ (fuel c L : Nat) (io : BlockDev),
    ∃ ops, (walk p k eb fuel c L io).io.log = io.log ++ ops ∧
      ∀ pre c1 w post, ops = pre ++ BlockOp.write c1 w :: post →
        c1 ≠ 0 ∧ w.length = ((io.after pre).disk c1).length ∧
        ∀ off, ¬ flagOffset off → w.getD off 0 = ((io.after pre).disk c1).getD off 0 := by
  intro fuel
  induction fuel with
  | zero =>
    intro c L io
    rw [walk_zero]
    split_ifs <;> exact ⟨[], by simp, fun pre c1 w post h => by simp at h⟩
  | succ fuel ih =>
    intro c L io
    by_cases hc : c = 0
    · subst hc; rw [walk_done]
      exact ⟨[], by simp, fun pre c1 w post h => by simp at h⟩
    · rw [walk_succ _ _ _ _ _ _ _ hc]
      have hread : ∀ pre c1 w post, [BlockOp.read c] = pre ++ BlockOp.write c1 w :: post →
          c1 ≠ 0 ∧ w.length = ((io.after pre).disk c1).length ∧
          ∀ off, ¬ flagOffset off → w.getD off 0 = ((io.after pre).disk c1).getD off 0 := by
        intro pre c1 w post h
        cases pre with
        | nil => simp at h
        | cons a pre1 => simp at h
      by_cases h1 : EFI_ERROR (io.status io.log (.read c)) = true
      · rw [if_pos h1]; exact ⟨[.read c], rfl, hread⟩
      rw [if_neg h1]
      by_cases h2 : Signature (io.disk c) ≠ 0xaa55
      · rw [if_pos h2]; exact ⟨[.read c], rfl, hread⟩
      rw [if_neg h2]
      cases hm : embrLoop p k eb 4 0 (io.disk c) 0 L with
      | none => exact ⟨[.read c], rfl, hread⟩
      | some r =>
        obtain ⟨w, nx, L1⟩ := r
        simp only
        obtain ⟨hlen, hfr⟩ := embrLoop_frame p k eb 4 0 (io.disk c) 0 L w nx L1 hm
        have hone : c ≠ 0 ∧ w.length = ((io.after [BlockOp.read c]).disk c).length ∧
            ∀ off, ¬ flagOffset off →
              w.getD off 0 = ((io.after [BlockOp.read c]).disk c).getD off 0 := by
          refine ⟨hc, hlen, fun off hoff => hfr off (fun j _ hj e => hoff ⟨j, by omega, e⟩)⟩
        have hpair : ∀ pre c1 w1 post,
            [BlockOp.read c, BlockOp.write c w] = pre ++ BlockOp.write c1 w1 :: post →
            c1 ≠ 0 ∧ w1.length = ((io.after pre).disk c1).length ∧
            ∀ off, ¬ flagOffset off → w1.getD off 0 = ((io.after pre).disk c1).getD off 0 := by
          intro pre c1 w1 post h
          obtain ⟨rfl, rfl, rfl, _⟩ := ops_split_one c w pre c1 w1 post h
          exact hone
        by_cases h3 : EFI_ERROR (io.status (io.log ++ [.read c]) (.write c w)) = true
        · rw [if_pos h3]; exact ⟨[.read c, .write c w], by simp, hpair⟩
        rw [if_neg h3]
        by_cases h4 : k < L1
        · rw [if_pos h4]; exact ⟨[.read c, .write c w], by simp, hpair⟩
        · rw [if_neg h4]
          obtain ⟨ops, h5, h6⟩ := ih nx L1
            { io with log := io.log ++ [.read c] ++ [.write c w],
                      disk := Function.update io.disk c w }
          refine ⟨.read c :: .write c w :: ops, by rw [h5]; simp, ?_⟩
          intro pre c1 w1 post h
          rcases ops_split c w ops pre c1 w1 post h with ⟨rfl, rfl, rfl, _⟩ | ⟨pre1, rfl, h7⟩
          · exact hone
          · rw [after_rewrite io c w pre1 h3]
            exact h6 pre1 c1 w1 post h7

theorem not_flagOffset_entry (i d : Nat) (hd1 : 1 ≤ d) (hd : d < 16) :
    ¬ flagOffset (entryOffset i + d) := by
  rintro ⟨j, _, h⟩
  unfold entryOffset at h
  omega

/-- Sectors that agree on every byte from 446 on that is not a flag byte hold the same
partition entries, flags apart. -/
theorem frame_fields (w s : Sector)
    (h : ∀ off, 446 ≤ off → ¬ flagOffset off → w.getD off 0 = s.getD off 0) (i : Nat) :
    (∀ d, 1 ≤ d → d < 16 → w.getD (entryOffset i + d) 0 = s.getD (entryOffset i + d) 0) ∧
    PartType w i = PartType s i ∧ StartLBA w i = StartLBA s i ∧ Size w i = Size s i := by
  have hb : ∀ d, 1 ≤ d → d < 16 →
      w.getD (entryOffset i + d) 0 = s.getD (entryOffset i + d) 0 := by
    intro d hd1 hd
    exact h _ (by unfold entryOffset; omega) (not_flagOffset_entry i d hd1 hd)
  refine ⟨hb, hb 4 (by omega) (by omega), ?_, ?_⟩
  · unfold StartLBA
    apply readU32_congr
    intro d hd
    rw [Nat.add_assoc]
    exact hb (8 + d) (by omega) (by omega)
  · unfold Size
    apply readU32_congr
    intro d hd
    rw [Nat.add_assoc]
    exact hb (12 + d) (by omega) (by omega)

theorem changesOnlyFlags_of_frame (p : Params) (hB : p.MBR_BOOTCODE_SIZE ≤ 446) (c : Nat)
    (s w : Sector) (hlen : w.length = s.length)
    (hfr : ∀ off, ¬ flagOffset off →
      ¬ (c = 0 ∧ HaveBootCode p s = false ∧ off < p.MBR_BOOTCODE_SIZE) →
      w.getD off 0 = s.getD off 0) : changesOnlyFlags p c s w := by
  refine ⟨hlen, ?_, fun i _ => frame_fields w s ?_ i⟩
  · intro off hne
    by_contra hcon
    rw [not_or] at hcon
    exact hne (hfr off hcon.1 hcon.2)
  · intro off h446 hoff
    exact hfr off hoff (fun hc => by omega)

/-- C26. With `SYSLINUX_MBR_SIZE <= MBR_BOOTCODE_SIZE <= 446`, for every run: each
write goes to the block read by the call before it and writes a sector of the same
length that differs from the one read (the content of the block when the write is
issued) at most in the four flag bytes at 446, 462, 478 and 494 and, for LBA 0 when
the first `MBR_BOOTCODE_SIZE` bytes read were all zero, in those bytes. The other
fifteen bytes of every partition entry, with type, start LBA and size, are as
read. -/
theorem C26_only_flags_and_boot_code_change (p : Params) (fuel : Nat) (io : BlockDev) (k : Nat)
    (hSB : p.SYSLINUX_MBR_SIZE ≤ p.MBR_BOOTCODE_SIZE) (hB : p.MBR_BOOTCODE_SIZE ≤ 446) :
    ∃ ops, (ActivateMbrPartition p fuel io k).io.log = io.log ++ ops ∧
      ∀ pre c w post, ops = pre ++ BlockOp.write c w :: post →
        (∃ pre1, pre = pre1 ++ [BlockOp.read c]) ∧
        changesOnlyFlags p c ((io.after pre).disk c) w := by
  have hread : ∀ pre c w post, [BlockOp.read 0] = pre ++ BlockOp.write c w :: post → False := by
    intro pre c w post h
    cases pre with
    | nil => simp at h
    | cons a pre1 => simp at h
  rw [Activate_unfold]
  by_cases h1 : EFI_ERROR (io.status io.log (.read 0)) = true
  · rw [if_pos h1]
    exact ⟨[.read 0], rfl, fun pre c w post h => (hread pre c w post h).elim⟩
  rw [if_neg h1]
  by_cases h2 : Signature (io.disk 0) ≠ 0xaa55
  · rw [if_pos h2]
    exact ⟨[.read 0], rfl, fun pre c w post h => (hread pre c w post h).elim⟩
  rw [if_neg h2]
  cases hm : mbrLoop p k 4 0 (addBootCode p (io.disk 0)) 0 with
  | none => exact ⟨[.read 0], rfl, fun pre c w post h => (hread pre c w post h).elim⟩
  | some r =>
    obtain ⟨w0, eb⟩ := r
    simp only
    obtain ⟨hlen, hfr⟩ := mbrLoop_frame p k 4 0 (addBootCode p (io.disk 0)) 0 w0 eb hm
    have hone : (∃ pre1, [BlockOp.read 0] = pre1 ++ [BlockOp.read 0]) ∧
        changesOnlyFlags p 0 ((io.after [BlockOp.read 0]).disk 0) w0 := by
      refine ⟨⟨[], rfl⟩, changesOnlyFlags_of_frame p hB 0 _ w0 ?_ ?_⟩
      · rw [hlen, addBootCode_length]; rfl
      · intro off hoff hboot
        rw [hfr off (fun j _ hj e => hoff ⟨j, by omega, e⟩)]
        show (addBootCode p (io.disk 0)).getD off 0 = (io.disk 0).getD off 0
        by_cases hH : HaveBootCode p (io.disk 0) = true
        · rw [addBootCode, if_pos hH]
        · apply addBootCode_getD_ge_syslinux
          have : ¬ off < p.MBR_BOOTCODE_SIZE := fun hlt =>
            hboot ⟨rfl, by simpa using hH, hlt⟩
          omega
    have hpair : ∀ pre c w post,
        [BlockOp.read 0, BlockOp.write 0 w0] = pre ++ BlockOp.write c w :: post →
        (∃ pre1, pre = pre1 ++ [BlockOp.read c]) ∧
          changesOnlyFlags p c ((io.after pre).disk c) w := by
      intro pre c w post h
      obtain ⟨rfl, rfl, rfl, _⟩ := ops_split_one 0 w0 pre c w post h
      exact hone
    by_cases h3 : EFI_ERROR (io.status (io.log ++ [.read 0]) (.write 0 w0)) = true
    · rw [if_pos h3]; exact ⟨[.read 0, .write 0 w0], by simp, hpair⟩
    rw [if_neg h3]
    by_cases h4 : k ≥ 4
    · rw [if_pos h4]
      obtain ⟨ops, h5, h6⟩ := walk_frame p k eb fuel eb 4
        { io with log := io.log ++ [.read 0] ++ [.write 0 w0],
                  disk := Function.update io.disk 0 w0 }
      obtain ⟨ops2, h7, _, h8⟩ := walk_changes p k eb fuel eb 4
        { io with log := io.log ++ [.read 0] ++ [.write 0 w0],
                  disk := Function.update io.disk 0 w0 }
      have hops : ops2 = ops := List.append_cancel_left (h7.symm.trans h5)
      subst hops
      refine ⟨.read 0 :: .write 0 w0 :: ops2, by rw [h5]; simp, ?_⟩
      intro pre c w post h
      rcases ops_split 0 w0 ops2 pre c w post h with ⟨rfl, rfl, rfl, _⟩ | ⟨pre1, rfl, h9⟩
      · exact hone
      · obtain ⟨hc0, hl, hf⟩ := h6 pre1 c w post h9
        obtain ⟨pre2, hp2⟩ := h8 pre1 c w post h9
        rw [after_rewrite io 0 w0 pre1 h3]
        refine ⟨⟨.read 0 :: .write 0 w0 :: pre2, by rw [hp2]; simp⟩,
          changesOnlyFlags_of_frame p hB c _ w hl (fun off hoff _ => hf off hoff)⟩
    · rw [if_neg h4]; exact ⟨[.read 0, .write 0 w0], by simp, hpair⟩

/-! ## One EMBR with a logical partition in slot 0 -/

theorem flagOK_pass (b : Byte) (h : flagOK b) : ¬ (b ≠ 0x00 ∧ b ≠ 0x80) := by
  rcases h with h | h
  · exact fun hc => hc.1 h
  · exact fun hc => hc.2 h

/-- The scan of an EMBR whose slot 0 holds a logical partition, after that slot. -/
theorem embrLoop_data (p : Params) (k eb : Nat) (buf : Sector) (nx L : Nat)
    (hf0 : flagOK (Flags buf 0)) (hd : dataEntry p buf 0) :
    embrLoop p k eb 4 0 buf nx L =
      embrLoop p k eb 3 1 (setFlags buf 0 (if k = L then 0x80 else 0x00)) nx
        ((L + 1) % 2 ^ p.UINTN_BITS) := by
  obtain ⟨hs, hz, ht⟩ := hd
  rw [embrLoop, if_neg (flagOK_pass _ hf0), if_neg (by simp [hs, hz]), if_neg (by simp [ht])]

/-- The scan of an EMBR with a logical partition in slot 0 and a link in slot 1. -/
theorem embrLoop_data_link (p : Params) (k eb : Nat) (buf : Sector) (nx L : Nat)
    (hf0 : flagOK (Flags buf 0)) (hf1 : flagOK (Flags buf 1)) (hd : dataEntry p buf 0)
    (hl : linkEntry p buf 1) :
    embrLoop p k eb 4 0 buf nx L =
      some (setFlags (setFlags buf 0 (if k = L then 0x80 else 0x00)) 1
              (if k ≥ (L + 1) % 2 ^ p.UINTN_BITS then 0x80 else 0x00),
            (eb + StartLBA buf 1) % 2 ^ 32, (L + 1) % 2 ^ p.UINTN_BITS) := by
  obtain ⟨hs, hz, ht⟩ := hl
  rw [embrLoop_data p k eb buf nx L hf0 hd, embrLoop,
    Flags_setFlags_ne _ _ _ _ (by decide), StartLBA_setFlags, Size_setFlags, PartType_setFlags,
    if_neg (flagOK_pass _ hf1), if_neg (by simp [hs, hz]), if_pos ht]

/-- The scan of an EMBR with a logical partition in slot 0 and nothing in slot 1. -/
theorem embrLoop_data_end (p : Params) (k eb : Nat) (buf : Sector) (nx L : Nat)
    (hf0 : flagOK (Flags buf 0)) (hf1 : flagOK (Flags buf 1)) (hd : dataEntry p buf 0)
    (he : StartLBA buf 1 = 0 ∨ Size buf 1 = 0) :
    embrLoop p k eb 4 0 buf nx L =
      some (setFlags buf 0 (if k = L then 0x80 else 0x00), nx,
            (L + 1) % 2 ^ p.UINTN_BITS) := by
  rw [embrLoop_data p k eb buf nx L hf0 hd, embrLoop,
    Flags_setFlags_ne _ _ _ _ (by decide), StartLBA_setFlags, Size_setFlags,
    if_neg (flagOK_pass _ hf1), if_pos he]

/-- A scan that passes a logical partition in slot 0 counts at least one and at most
four partitions, when the counter does not wrap. -/
theorem embrLoop_data_count (p : Params) (k eb : Nat) (buf : Sector) (nx L : Nat) (w : Sector)
    (nx1 L1 : Nat) (hsig : Signature buf = 0xaa55) (hd : dataEntry p buf 0)
    (hL : L + 4 < 2 ^ p.UINTN_BITS)
    (h : embrLoop p k eb 4 0 buf nx L = some (w, nx1, L1)) : L < L1 ∧ L1 ≤ L + 4 := by
  have hf0 : flagOK (Flags buf 0) := by
    by_contra hc
    rw [embrLoop_eq_none p k eb 4 0 buf nx L 0 (le_refl _) (by omega)
      (fun j _ hj => absurd hj (by omega)) hc] at h
    exact absurd h (by simp)
  rw [embrLoop_data p k eb buf nx L hf0 hd, Nat.mod_eq_of_lt (by omega)] at h
  have hlen := length_of_Signature buf hsig
  have := embrLoop_count p k eb 3 1 _ nx (L + 1) w nx1 L1 h
    (by rw [setFlags_length]; unfold entryOffset; omega) (by omega)
  omega

/-! ## The walk ends when every EMBR counts a logical partition -/

theorem mem_readLBAs (c : Nat) : ∀ (ops : List BlockOp), c ∈ readLBAs ops ↔ BlockOp.read c ∈ ops := by
  intro ops
  induction ops with
  | nil => simp [readLBAs]
  | cons op ops ih =>
    cases op with
    | read c1 => simp [readLBAs, ih]
    | write c1 w => simp [readLBAs, ih]

theorem walk_bounded (p : Params) (k eb : Nat) (hk : k + 4 < 2 ^ p.UINTN_BITS) :
    ∀ (fuel c L : Nat) (io : BlockDev), L ≤ k → k + 1 - L ≤ fuel →
    ∃ ops, (walk p k eb fuel c L io).io.log = io.log ++ ops ∧
      ((∀ c1, c1 ≠ 0 → BlockOp.read c1 ∈ ops → dataEntry p (io.disk c1) 0) →
        (walk p k eb fuel c L io).Status ≠ none ∧ (readLBAs ops).length ≤ k + 1 - L) := by
  intro fuel
  induction fuel with
  | zero => intro c L io hL hf; omega
  | succ fuel ih =>
    intro c L io hL hf
    by_cases hc : c = 0
    · subst hc; rw [walk_done]
      exact ⟨[], by simp, fun _ => ⟨by simp, by simp [readLBAs]⟩⟩
    · rw [walk_succ _ _ _ _ _ _ _ hc]
      by_cases h1 : EFI_ERROR (io.status io.log (.read c)) = true
      · rw [if_pos h1]
        exact ⟨[.read c], rfl, fun _ => ⟨by simp, by simp [readLBAs]; omega⟩⟩
      rw [if_neg h1]
      by_cases h2 : Signature (io.disk c) ≠ 0xaa55
      · rw [if_pos h2]
        exact ⟨[.read c], rfl, fun _ => ⟨by simp, by simp [readLBAs]; omega⟩⟩
      rw [if_neg h2]
      cases hm : embrLoop p k eb 4 0 (io.disk c) 0 L with
      | none => exact ⟨[.read c], rfl, fun _ => ⟨by simp, by simp [readLBAs]; omega⟩⟩
      | some r =>
        obtain ⟨w, nx, L1⟩ := r
        simp only
        by_cases h3 : EFI_ERROR (io.status (io.log ++ [.read c]) (.write c w)) = true
        · rw [if_pos h3]
          exact ⟨[.read c, .write c w], by simp,
            fun _ => ⟨by simp, by simp [readLBAs]; omega⟩⟩
        rw [if_neg h3]
        by_cases h4 : k < L1
        · rw [if_pos h4]
          exact ⟨[.read c, .write c w], by simp,
            fun _ => ⟨by simp, by simp [readLBAs]; omega⟩⟩
        · rw [if_neg h4]
          by_cases hd : dataEntry p (io.disk c) 0
          · have hcnt := embrLoop_data_count p k eb (io.disk c) 0 L w nx L1
              (by simpa using h2) hd (by omega) hm
            obtain ⟨ops, h5, h6⟩ := ih nx L1
              { io with log := io.log ++ [.read c] ++ [.write c w],
                        disk := Function.update io.disk c w } (by omega) (by omega)
            refine ⟨.read c :: .write c w :: ops, by rw [h5]; simp, ?_⟩
            intro hvis
            have hvis2 : ∀ c1, c1 ≠ 0 → BlockOp.read c1 ∈ ops →
                dataEntry p (Function.update io.disk c w c1) 0 := by
              intro c1 hc1 hmem
              by_cases e : c1 = c
              · subst e
                rw [Function.update_same]
                obtain ⟨e1, e2, e3⟩ := embrLoop_fields p k eb 4 0 (io.disk c1) 0 L w nx L1 hm 0
                unfold dataEntry
                rw [e1, e2, e3]
                exact hd
              · rw [Function.update_noteq e]
                exact hvis c1 hc1 (by simp [hmem])
            obtain ⟨h7, h8⟩ := h6 hvis2
            refine ⟨h7, ?_⟩
            simp only [readLBAs, List.length_cons]
            omega
          · obtain ⟨ops, h5, _⟩ := walk_log p k eb fuel nx L1
              { io with log := io.log ++ [.read c] ++ [.write c w],
                        disk := Function.update io.disk c w }
            refine ⟨.read c :: .write c w :: ops, by rw [h5]; simp, ?_⟩
            intro hvis
            exact absurd (hvis c hc (by simp)) hd

/-- C28, as amended. For every k from 4 on with `k + 4 < 2^UINTN_BITS`: if every
EMBR that the run reads holds in slot 0 an entry with start LBA and size not zero
and a type that is not extended, then the run with k - 3 rounds of fuel or more has
ended (its status is not `none`), and it has read at most k - 2 blocks: LBA 0 and at
most k - 3 EMBRs, whether or not the links form a cycle. -/
theorem C28_walk_ends_when_every_embr_counts (p : Params) (fuel : Nat) (io : BlockDev) (k : Nat)
    (h4 : 4 ≤ k) (hk : k + 4 < 2 ^ p.UINTN_BITS) (hfuel : k - 3 ≤ fuel)
    (hdata : ∀ c, c ≠ 0 →
      BlockOp.read c ∈ (ActivateMbrPartition p fuel io k).io.log.drop io.log.length →
      dataEntry p (io.disk c) 0) :
    (ActivateMbrPartition p fuel io k).Status ≠ none ∧
    (readLBAs ((ActivateMbrPartition p fuel io k).io.log.drop io.log.length)).length ≤ k - 2 := by
  rw [Activate_unfold] at hdata ⊢
  by_cases h1 : EFI_ERROR (io.status io.log (.read 0)) = true
  · rw [if_pos h1]
    simp [readLBAs]; omega
  rw [if_neg h1] at hdata ⊢
  by_cases h2 : Signature (io.disk 0) ≠ 0xaa55
  · rw [if_pos h2]
    simp [readLBAs]; omega
  rw [if_neg h2] at hdata ⊢
  cases hm : mbrLoop p k 4 0 (addBootCode p (io.disk 0)) 0 with
  | none => simp [readLBAs]; omega
  | some r =>
    obtain ⟨w0, eb⟩ := r
    rw [hm] at hdata
    simp only at hdata ⊢
    by_cases h3 : EFI_ERROR (io.status (io.log ++ [.read 0]) (.write 0 w0)) = true
    · rw [if_pos h3]
      simp [readLBAs]; omega
    rw [if_neg h3] at hdata ⊢
    rw [if_pos h4] at hdata ⊢
    obtain ⟨ops, h5, h6⟩ := walk_bounded p k eb hk fuel eb 4
      { io with log := io.log ++ [.read 0] ++ [.write 0 w0],
                disk := Function.update io.disk 0 w0 } h4 (by omega)
    have hlog : (walk p k eb fuel eb 4
        { io with log := io.log ++ [.read 0] ++ [.write 0 w0],
                  disk := Function.update io.disk 0 w0 }).io.log.drop io.log.length =
        .read 0 :: .write 0 w0 :: ops := by
      rw [h5]
      simp
    rw [hlog] at hdata ⊢
    have hvis : ∀ c1, c1 ≠ 0 → BlockOp.read c1 ∈ ops →
        dataEntry p (Function.update io.disk 0 w0 c1) 0 := by
      intro c1 hc1 hmem
      rw [Function.update_noteq hc1]
      exact hdata c1 hc1 (by simp [hmem])
    obtain ⟨h7, h8⟩ := h6 hvis
    refine ⟨h7, ?_⟩
    simp only [readLBAs, List.length_cons]
    omega

/-! ## Well-formed EMBRs -/

theorem flagOK_ite (c : Prop) [Decidable c] : flagOK (if c then 0x80 else 0x00) := by
  by_cases h : c
  · rw [if_pos h]; exact Or.inr rfl
  · rw [if_neg h]; exact Or.inl rfl

/-- The scan of a well-formed EMBR: it counts one partition, sets the flag of slot 0,
follows the link of slot 1 if there is one, and leaves a well-formed EMBR with the
same types, start LBAs and sizes. -/
theorem wellFormedEmbr_scan (p : Params) (k eb L : Nat) (buf : Sector)
    (h : wellFormedEmbr p buf) :
    ∃ w nx, embrLoop p k eb 4 0 buf 0 L = some (w, nx, (L + 1) % 2 ^ p.UINTN_BITS) ∧
      wellFormedEmbr p w ∧
      (∀ j, PartType w j = PartType buf j ∧ StartLBA w j = StartLBA buf j ∧
        Size w j = Size buf j) ∧
      Flags w 0 = (if k = L then 0x80 else 0x00) ∧
      (linkEntry p buf 1 → nx = (eb + StartLBA buf 1) % 2 ^ 32) ∧
      (¬ linkEntry p buf 1 → nx = 0) := by
  obtain ⟨hsig, hf0, hf1, hd, hl⟩ := h
  have hlen := length_of_Signature buf hsig
  have key : ∀ (w : Sector) (nx : Nat),
      embrLoop p k eb 4 0 buf 0 L = some (w, nx, (L + 1) % 2 ^ p.UINTN_BITS) →
      flagOK (Flags w 0) → flagOK (Flags w 1) →
      wellFormedEmbr p w ∧
      (∀ j, PartType w j = PartType buf j ∧ StartLBA w j = StartLBA buf j ∧
        Size w j = Size buf j) := by
    intro w nx hm g0 g1
    have hfields := embrLoop_fields p k eb 4 0 buf 0 L w nx _ hm
    refine ⟨⟨?_, g0, g1, ?_, ?_⟩, hfields⟩
    · rw [embrLoop_Signature p k eb buf 0 L w nx _ hm]; exact hsig
    · unfold dataEntry
      rw [(hfields 0).1, (hfields 0).2.1, (hfields 0).2.2]; exact hd
    · unfold linkEntry
      rw [(hfields 1).1, (hfields 1).2.1, (hfields 1).2.2]; exact hl
  by_cases hlink : linkEntry p buf 1
  · have hm := embrLoop_data_link p k eb buf 0 L hf0 hf1 hd hlink
    have g0 : Flags (setFlags (setFlags buf 0 (if k = L then 0x80 else 0x00)) 1
        (if k ≥ (L + 1) % 2 ^ p.UINTN_BITS then 0x80 else 0x00)) 0 =
        (if k = L then 0x80 else 0x00) := by
      rw [Flags_setFlags_ne _ _ _ _ (by decide),
        Flags_setFlags_eq _ _ _ (by unfold entryOffset; omega)]
    have g1 : Flags (setFlags (setFlags buf 0 (if k = L then 0x80 else 0x00)) 1
        (if k ≥ (L + 1) % 2 ^ p.UINTN_BITS then 0x80 else 0x00)) 1 =
        (if k ≥ (L + 1) % 2 ^ p.UINTN_BITS then 0x80 else 0x00) := by
      rw [Flags_setFlags_eq _ _ _ (by rw [setFlags_length]; unfold entryOffset; omega)]
    obtain ⟨k1, k2⟩ := key _ _ hm (by rw [g0]; exact flagOK_ite _) (by rw [g1]; exact flagOK_ite _)
    exact ⟨_, _, hm, k1, k2, g0, fun _ => rfl, fun hc => absurd hlink hc⟩
  · have he : StartLBA buf 1 = 0 ∨ Size buf 1 = 0 := by
      rcases hl with hl | hl
      · exact absurd hl hlink
      · exact hl
    have hm := embrLoop_data_end p k eb buf 0 L hf0 hf1 hd he
    have g0 : Flags (setFlags buf 0 (if k = L then 0x80 else 0x00)) 0 =
        (if k = L then 0x80 else 0x00) := by
      rw [Flags_setFlags_eq _ _ _ (by unfold entryOffset; omega)]
    have g1 : Flags (setFlags buf 0 (if k = L then (0x80 : Byte) else 0x00)) 1 = Flags buf 1 :=
      Flags_setFlags_ne _ _ _ _ (by decide)
    obtain ⟨k1, k2⟩ := key _ _ hm (by rw [g0]; exact flagOK_ite _) (by rw [g1]; exact hf1)
    exact ⟨_, _, hm, k1, k2, g0, fun hc => absurd hc hlink, fun _ => rfl⟩

/-! ## A cyclic chain and the largest partition index -/

theorem cycle_walk : ∀ (fuel c L : Nat) (io : BlockDev), (c = 1000 ∨ c = 1200) →
    io.status = okStatus →
    (∀ c1, c1 = 1000 ∨ c1 = 1200 → wellFormedEmbr exParams (io.disk c1) ∧
      linkEntry exParams (io.disk c1) 1 ∧ StartLBA (io.disk c1) 1 = 200) →
    (walk exParams 18446744073709551615 1000 fuel c L io).Status = none ∧
    ∃ ops, (walk exParams 18446744073709551615 1000 fuel c L io).io.log = io.log ++ ops ∧
      ∀ c1, BlockOp.read c1 ∈ ops → c1 = 1000 ∨ c1 = 1200 := by
  intro fuel
  induction fuel with
  | zero =>
    intro c L io hc hst hinv
    have hc0 : c ≠ 0 := by omega
    rw [walk_zero, if_neg hc0]
    exact ⟨rfl, [], by simp, fun c1 h => by simp at h⟩
  | succ fuel ih =>
    intro c L io hc hst hinv
    have hc0 : c ≠ 0 := by omega
    obtain ⟨hwf, hlink, hstart⟩ := hinv c hc
    obtain ⟨w, nx, hm, hwf1, hfields, _, hnx, _⟩ :=
      wellFormedEmbr_scan exParams 18446744073709551615 1000 L (io.disk c) hwf
    have hnx1 : nx = 1200 := by rw [hnx hlink, hstart]; norm_num
    have hbits : (2 : Nat) ^ exParams.UINTN_BITS = 18446744073709551616 := by decide
    have hL1 : ¬ 18446744073709551615 < (L + 1) % 2 ^ exParams.UINTN_BITS := by
      have := Nat.mod_lt (L + 1) (show 0 < 2 ^ exParams.UINTN_BITS by rw [hbits]; omega)
      rw [hbits] at this ⊢
      omega
    have hr : ¬ EFI_ERROR (io.status io.log (.read c)) = true := by
      rw [hst]; simp [okStatus, EFI_ERROR]
    have hw : ¬ EFI_ERROR (io.status (io.log ++ [.read c]) (.write c w)) = true := by
      rw [hst]; simp [okStatus, EFI_ERROR]
    rw [walk_succ _ _ _ _ _ _ _ hc0, if_neg hr, if_neg (by simpa using hwf.1), hm]
    simp only
    rw [if_neg hw, if_neg hL1, hnx1]
    obtain ⟨h1, ops, h2, h3⟩ := ih 1200 ((L + 1) % 2 ^ exParams.UINTN_BITS)
      { io with log := io.log ++ [.read c] ++ [.write c w],
                disk := Function.update io.disk c w }
      (Or.inr rfl) hst (by
        intro c1 hc1
        by_cases e : c1 = c
        · subst e
          simp only [Function.update_same]
          refine ⟨hwf1, ?_, ?_⟩
          · unfold linkEntry
            rw [(hfields 1).1, (hfields 1).2.1, (hfields 1).2.2]; exact hlink
          · rw [(hfields 1).2.1]; exact hstart
        · simp only [Function.update_noteq e]
          exact hinv c1 hc1)
    refine ⟨h1, .read c :: .write c w :: ops, by rw [h2]; simp, ?_⟩
    intro c1 hmem
    simp only [List.mem_cons, BlockOp.read.injEq] at hmem
    rcases hmem with rfl | hmem | hmem
    · exact hc
    · exact absurd hmem (by simp)
    · exact h3 c1 hmem

/-! ## A walk that reads no block twice ends -/

theorem readU32_lt (buf : Sector) (off : Nat) : readU32 buf off < 2 ^ 32 := by
  unfold readU32
  have h0 := (buf.getD off 0).isLt
  have h1 := (buf.getD (off + 1) 0).isLt
  have h2 := (buf.getD (off + 2) 0).isLt
  have h3 := (buf.getD (off + 3) 0).isLt
  omega

theorem mbrLoop_ExtBase_lt (p : Params) (k n : Nat) : ∀ (i : Nat) (buf : Sector) (e : Nat)
    (w : Sector) (e1 : Nat), mbrLoop p k n i buf e = some (w, e1) → e < 2 ^ 32 → e1 < 2 ^ 32 := by
  induction n with
  | zero =>
    intro i buf e w e1 h he
    simp only [mbrLoop, Option.some.injEq, Prod.mk.injEq] at h
    omega
  | succ n ih =>
    intro i buf e w e1 h he
    rw [mbrLoop] at h
    by_cases h1 : Flags buf i ≠ 0x00 ∧ Flags buf i ≠ 0x80
    · rw [if_pos h1] at h; exact absurd h (by simp)
    rw [if_neg h1] at h
    by_cases h2 : i = k
    · rw [if_pos h2] at h; exact ih _ _ _ _ _ h he
    rw [if_neg h2] at h
    by_cases h3 : k ≥ 4 ∧ p.IS_EXTENDED_PART_TYPE (PartType buf i) = true
    · rw [if_pos h3] at h; exact ih _ _ _ _ _ h (readU32_lt _ _)
    · rw [if_neg h3] at h; exact ih _ _ _ _ _ h he

theorem embrLoop_next_lt (p : Params) (k eb n : Nat) : ∀ (i : Nat) (buf : Sector) (nx L : Nat)
    (w : Sector) (nx1 L1 : Nat), embrLoop p k eb n i buf nx L = some (w, nx1, L1) →
    nx < 2 ^ 32 → nx1 < 2 ^ 32 := by
  induction n with
  | zero =>
    intro i buf nx L w nx1 L1 h hn
    simp only [embrLoop, Option.some.injEq, Prod.mk.injEq] at h
    omega
  | succ n ih =>
    intro i buf nx L w nx1 L1 h hn
    rw [embrLoop] at h
    by_cases h1 : Flags buf i ≠ 0x00 ∧ Flags buf i ≠ 0x80
    · rw [if_pos h1] at h; exact absurd h (by simp)
    rw [if_neg h1] at h
    by_cases h2 : StartLBA buf i = 0 ∨ Size buf i = 0
    · rw [if_pos h2] at h
      simp only [Option.some.injEq, Prod.mk.injEq] at h
      omega
    rw [if_neg h2] at h
    by_cases h3 : p.IS_EXTENDED_PART_TYPE (PartType buf i) = true
    · rw [if_pos h3] at h
      simp only [Option.some.injEq, Prod.mk.injEq] at h
      rw [← h.2.1]
      exact Nat.mod_lt _ (by norm_num)
    · rw [if_neg h3] at h; exact ih _ _ _ _ _ _ _ h hn

/-- A walk that is still going when the fuel runs out has read one EMBR per round of
fuel, each at an LBA that is not zero and fits 32 bits. -/
theorem walk_none_reads (p : Params) (k eb : Nat) : ∀ (fuel c L : Nat) (io : BlockDev),
    c < 2 ^ 32 → (walk p k eb fuel c L io).Status = none →
    ∃ ops, (walk p k eb fuel c L io).io.log = io.log ++ ops ∧
      (readLBAs ops).length = fuel ∧ ∀ x ∈ readLBAs ops, x ≠ 0 ∧ x < 2 ^ 32 := by
  intro fuel
  induction fuel with
  | zero =>
    intro c L io _ h
    rw [walk_zero] at h ⊢
    by_cases hc : c = 0
    · rw [if_pos hc] at h; exact absurd h (by simp)
    · rw [if_neg hc]
      exact ⟨[], by simp, rfl, fun x hx => by simp [readLBAs] at hx⟩
  | succ fuel ih =>
    intro c L io hlt h
    by_cases hc : c = 0
    · subst hc; rw [walk_done] at h; exact absurd h (by simp)
    · rw [walk_succ _ _ _ _ _ _ _ hc] at h ⊢
      by_cases h1 : EFI_ERROR (io.status io.log (.read c)) = true
      · rw [if_pos h1] at h; exact absurd h (by simp)
      rw [if_neg h1] at h ⊢
      by_cases h2 : Signature (io.disk c) ≠ 0xaa55
      · rw [if_pos h2] at h; exact absurd h (by simp)
      rw [if_neg h2] at h ⊢
      cases hm : embrLoop p k eb 4 0 (io.disk c) 0 L with
      | none => rw [hm] at h; exact absurd h (by simp)
      | some r =>
        obtain ⟨w, nx, L1⟩ := r
        rw [hm] at h
        simp only at h ⊢
        by_cases h3 : EFI_ERROR (io.status (io.log ++ [.read c]) (.write c w)) = true
        · rw [if_pos h3] at h; exact absurd h (by simp)
        rw [if_neg h3] at h ⊢
        by_cases h4 : k < L1
        · rw [if_pos h4] at h; exact absurd h (by simp)
        rw [if_neg h4] at h ⊢
        have hnx := embrLoop_next_lt p k eb 4 0 (io.disk c) 0 L w nx L1 hm (by norm_num)
        obtain ⟨ops, h5, h6, h7⟩ := ih nx L1 _ hnx h
        refine ⟨.read c :: .write c w :: ops, by rw [h5]; simp, by simp [readLBAs, h6], ?_⟩
        intro x hx
        simp only [readLBAs, List.mem_cons] at hx
        rcases hx with rfl | hx
        · exact ⟨hc, hlt⟩
        · exact h7 x hx

theorem nodup_length_le (l : List Nat) (N : Nat) (hn : l.Nodup) (hb : ∀ x ∈ l, x < N) :
    l.length ≤ N := by
  have hsub : l ⊆ List.range N := fun x hx => List.mem_range.2 (hb x hx)
  have := (List.subperm_of_subset hn hsub).length_le
  simpa using this

/-- C27, as amended. For every device and partition index, a run with 2^32 rounds of
fuel or more has ended (its status is not `none`) unless it has read some block twice:
the LBAs of the chain fit 32 bits, so a walk that never comes back to a block it has
read reads fewer than 2^32 blocks. -/
theorem C27_walk_ends_unless_a_block_is_read_twice (p : Params) (fuel : Nat) (io : BlockDev)
    (k : Nat) (hfuel : 2 ^ 32 ≤ fuel) :
    (ActivateMbrPartition p fuel io k).Status ≠ none ∨
    ¬ (readLBAs ((ActivateMbrPartition p fuel io k).io.log.drop io.log.length)).Nodup := by
  by_cases hs : (ActivateMbrPartition p fuel io k).Status = none
  · right
    intro hnd
    rw [Activate_unfold] at hs hnd
    by_cases h1 : EFI_ERROR (io.status io.log (.read 0)) = true
    · rw [if_pos h1] at hs; exact absurd hs (by simp)
    rw [if_neg h1] at hs hnd
    by_cases h2 : Signature (io.disk 0) ≠ 0xaa55
    · rw [if_pos h2] at hs; exact absurd hs (by simp)
    rw [if_neg h2] at hs hnd
    cases hm : mbrLoop p k 4 0 (addBootCode p (io.disk 0)) 0 with
    | none => rw [hm] at hs; exact absurd hs (by simp)
    | some r =>
      obtain ⟨w0, eb⟩ := r
      rw [hm] at hs hnd
      simp only at hs hnd
      by_cases h3 : EFI_ERROR (io.status (io.log ++ [.read 0]) (.write 0 w0)) = true
      · rw [if_pos h3] at hs; exact absurd hs (by simp)
      rw [if_neg h3] at hs hnd
      by_cases h4 : k ≥ 4
      · rw [if_pos h4] at hs hnd
        have heb := mbrLoop_ExtBase_lt p k 4 0 _ 0 w0 eb hm (by norm_num)
        obtain ⟨ops, h5, h6, h7⟩ := walk_none_reads p k eb fuel eb 4 _ heb hs
        rw [h5] at hnd
        simp only [List.append_assoc, List.drop_left, List.cons_append, List.nil_append,
          readLBAs] at hnd
        have hlen := nodup_length_le (0 :: readLBAs ops) (2 ^ 32) hnd (by
          intro x hx
          simp only [List.mem_cons] at hx
          rcases hx with rfl | hx
          · norm_num
          · exact (h7 x hx).2)
        simp only [List.length_cons] at hlen
        omega
      · rw [if_neg h4] at hs; exact absurd hs (by simp)
  · exact Or.inl hs

/-! ## A cyclic chain without logical partitions -/

set_option maxRecDepth 1000000 in
theorem loop_walk : ∀ (fuel c : Nat) (log : List BlockOp), (c = 1000 ∨ c = 1200) →
    (walk exParams 4 1000 fuel c 4 ⟨loopDisk, log, okStatus⟩).Status = none := by
  intro fuel
  induction fuel with
  | zero =>
    intro c log hc
    have hc0 : c ≠ 0 := by omega
    rw [walk_zero, if_neg hc0]
  | succ fuel ih =>
    intro c log hc
    have hc0 : c ≠ 0 := by omega
    have hsig : Signature (loopDisk c) = 0xaa55 := by
      rcases hc with rfl | rfl <;> decide
    have hm : embrLoop exParams 4 1000 4 0 (loopDisk c) 0 4 = some (loopDisk c, 1200, 4) := by
      rcases hc with rfl | rfl <;> decide
    rw [walk_succ _ _ _ _ _ _ _ hc0]
    simp only [okStatus, EFI_ERROR, Bool.false_eq_true, if_false]
    rw [if_neg (by simpa using hsig), hm]
    simp only [Nat.lt_irrefl, if_false, Function.update_eq_self]
    exact ih 1200 _ (Or.inr rfl)

/-! ## Activation of a logical partition on a well-formed disk -/

theorem after_status (io : BlockDev) : ∀ (ops : List BlockOp), (io.after ops).status = io.status := by
  intro ops
  induction ops generalizing io with
  | nil => rfl
  | cons op ops ih =>
    cases op with
    | read c => rw [BlockDev.after, ih]; rfl
    | write c w =>
      rw [BlockDev.after, ih]
      simp only [WriteBlocks]
      split_ifs <;> rfl

theorem mem_rewriteCalls (lba : Nat) (w1 : Sector) : ∀ (cs : List Nat) (ws : List Sector),
    BlockOp.write lba w1 ∈ rewriteCalls cs ws → lba ∈ cs := by
  intro cs
  induction cs with
  | nil => intro ws h; simp [rewriteCalls] at h
  | cons c cs ih =>
    intro ws h
    cases ws with
    | nil => simp [rewriteCalls] at h
    | cons w ws =>
      simp only [rewriteCalls, List.mem_cons, BlockOp.write.injEq] at h
      rcases h with h | h | h
      · exact absurd h (by simp)
      · exact List.mem_cons.2 (Or.inl h.1)
      · exact List.mem_cons_of_mem _ (ih ws h)

theorem hideLoop_false (Volumes : List REFIT_VOLUME) (V : REFIT_VOLUME) (n : Nat) :
    ∀ (cnt i : Nat), hideLoop Volumes V n cnt i false = false := by
  intro cnt
  induction cnt with
  | zero => intro i; rfl
  | succ cnt ih =>
    intro i
    rw [hideLoop]
    cases Volumes[i]? with
    | none => exact ih _
    | some V2 =>
      simp only
      by_cases h : i ≠ n ∧ V2.HasBootCode = true ∧ V2.WholeDiskBlockIo = V.WholeDiskBlockIo
      · rw [if_pos h]; exact ih _
      · rw [if_neg h]; exact ih _

/-- The loop leaves `ShowVolume` true exactly when no volume in its range, other than
the one at `n`, has boot code and the same whole-disk handle. -/
theorem hideLoop_true (Volumes : List REFIT_VOLUME) (V : REFIT_VOLUME) (n : Nat) :
    ∀ (cnt i : Nat), hideLoop Volumes V n cnt i true = true ↔
      ¬ ∃ m V2, i ≤ m ∧ m < i + cnt ∧ m ≠ n ∧ Volumes[m]? = some V2 ∧
        V2.HasBootCode = true ∧ V2.WholeDiskBlockIo = V.WholeDiskBlockIo := by
  intro cnt
  induction cnt with
  | zero =>
    intro i
    rw [hideLoop]
    simp only [true_iff]
    rintro ⟨m, V2, h1, h2, _⟩
    omega
  | succ cnt ih =>
    intro i
    rw [hideLoop]
    cases hV : Volumes[i]? with
    | none =>
      simp only
      rw [ih]
      constructor
      · rintro h ⟨m, V2, h1, h2, h3, h4, h5⟩
        by_cases hm : m = i
        · subst hm; rw [hV] at h4; exact absurd h4 (by simp)
        · exact h ⟨m, V2, by omega, by omega, h3, h4, h5⟩
      · rintro h ⟨m, V2, h1, h2, h3, h4, h5⟩
        exact h ⟨m, V2, by omega, by omega, h3, h4, h5⟩
    | some W =>
      simp only
      by_cases h : i ≠ n ∧ W.HasBootCode = true ∧ W.WholeDiskBlockIo = V.WholeDiskBlockIo
      · rw [if_pos h, hideLoop_false]
        simp only [Bool.false_eq_true, false_iff, not_not]
        exact ⟨i, W, le_refl _, by omega, h.1, hV, h.2⟩
      · rw [if_neg h, ih]
        constructor
        · rintro h0 ⟨m, V2, h1, h2, h3, h4, h5⟩
          by_cases hm : m = i
          · subst hm
            rw [hV] at h4
            simp only [Option.some.injEq] at h4
            subst h4
            exact h ⟨h3, h5⟩
          · exact h0 ⟨m, V2, by omega, by omega, h3, h4, h5⟩
        · rintro h0 ⟨m, V2, h1, h2, h3, h4, h5⟩
          exact h0 ⟨m, V2, by omega, by omega, h3, h4, h5⟩

theorem hideLoop_all_true (Volumes : List REFIT_VOLUME) (V : REFIT_VOLUME) (n : Nat) :
    hideLoop Volumes V n Volumes.length 0 true = true ↔ ¬ otherBootable Volumes V n := by
  rw [hideLoop_true]
  unfold otherBootable
  constructor
  · rintro h ⟨m, V2, h1, h2, h3⟩
    have hm : m < Volumes.length := by
      by_contra hge
      rw [List.getElem?_eq_none (by omega)] at h2
      exact absurd h2 (by simp)
    exact h ⟨m, V2, Nat.zero_le _, by omega, h1, h2, h3⟩
  · rintro h ⟨m, V2, _, _, h1, h2, h3⟩
    exact h ⟨m, V2, h1, h2, h3⟩

/-- C21. `ScanLegacyVolume` calls `AddLegacyEntry` for the volume `V` at index `n` if
and only if `V` is Apple legacy or has boot code, and it is not the case that `V` is
flagged and a volume at another index has boot code and the whole-disk handle of `V`.
So a whole-disk volume with boot code, at offset 0 and without OS name, is hidden
when another volume of the same disk has boot code, and a volume with boot code that
is not Apple legacy and not such a whole-disk volume is always shown. -/
theorem C21_legacy_entry_emitted (Volumes : List REFIT_VOLUME) (V : REFIT_VOLUME) (n : Nat) :
    (ScanLegacyVolume Volumes V n = true ↔
      (V.IsAppleLegacy = true ∨ V.HasBootCode = true) ∧
        ¬ (flagged V ∧ otherBootable Volumes V n)) ∧
    (V.HasBootCode = true → V.BlockIo = V.WholeDiskBlockIo → V.BlockIOOffset = 0 →
      V.OSName = none → otherBootable Volumes V n → ScanLegacyVolume Volumes V n = false) ∧
    (V.IsAppleLegacy = false → V.HasBootCode = true →
      ¬ (V.BlockIo = V.WholeDiskBlockIo ∧ V.BlockIOOffset = 0 ∧ V.OSName = none) →
      ScanLegacyVolume Volumes V n = true) := by
  have main : ScanLegacyVolume Volumes V n = true ↔
      (V.IsAppleLegacy = true ∨ V.HasBootCode = true) ∧
        ¬ (flagged V ∧ otherBootable Volumes V n) := by
    unfold ScanLegacyVolume flagged
    cases hA : V.IsAppleLegacy with
    | true =>
      simp only [if_true, true_or, true_and]
      exact hideLoop_all_true Volumes V n
    | false =>
      cases hB : V.HasBootCode with
      | false => simp
      | true =>
        simp only [Bool.false_eq_true, if_false, if_true, false_or, or_true, true_and]
        by_cases hW : V.BlockIo = V.WholeDiskBlockIo ∧ V.BlockIOOffset = 0 ∧ V.OSName = none
        · simp only [if_pos hW, if_true, hW, true_and, and_self]
          exact hideLoop_all_true Volumes V n
        · simp only [if_neg hW, Bool.false_eq_true, if_false, true_iff]
          exact fun h => hW h.1
  refine ⟨main, ?_, ?_⟩
  · intro h1 h2 h3 h4 h5
    cases hS : ScanLegacyVolume Volumes V n with
    | false => rfl
    | true => exact absurd ⟨Or.inr ⟨h1, h2, h3, h4⟩, h5⟩ (main.mp hS).2
  · intro h1 h2 h3
    refine main.mpr ⟨Or.inr h2, ?_⟩
    rintro ⟨hf, _⟩
    rcases hf with hf | hf
    · rw [h1] at hf; exact absurd hf (by simp)
    · exact h3 hf.2

/-- C21 at a disk that is seen as a whole-disk volume and as one partition, both with
boot code: the whole-disk volume is hidden, the partition is shown, and the
whole-disk volume alone is shown. -/
theorem C21_legacy_entry_examples :
    ScanLegacyVolume [exWholeDisk, exPartition] exWholeDisk 0 = false ∧
    ScanLegacyVolume [exWholeDisk, exPartition] exPartition 1 = true ∧
    ScanLegacyVolume [exWholeDisk] exWholeDisk 0 = true := by
  decide

/-! # Stanzas (`AddStanzaEntries`) -/

/-- Two directive names that differ after lower-casing are not both equal to a
token. -/
theorem StriEq_excl (T a b : List Nat) (hab : a.map toLowerUnit ≠ b.map toLowerUnit)
    (h : StriEq T a = true) : StriEq T b = false := by
  cases hb : StriEq T b with
  | false => rfl
  | true =>
    exfalso
    have e1 : T.map toLowerUnit = a.map toLowerUnit := by simpa [StriEq] using h
    have e2 : T.map toLowerUnit = b.map toLowerUnit := by simpa [StriEq] using hb
    exact hab (e1.symm.trans e2)

theorem MergeStrings_initrd (First : Option (List Nat)) (T1 : List Nat) :
    MergeStrings (MergeStrings First (wstr "initrd=") 32) T1 0 =
      MergeStrings First (wstr "initrd=" ++ T1) 32 := by
  cases First with
  | none => simp [MergeStrings]
  | some f => simp [MergeStrings]

/-- A line that is not a `loader` line and holds the argument its directive reads:
the body of the loop returns, keeps `DefaultsSet`, and appends the item of the line,
if it has one, to the load options. -/
theorem stanzaLine_other (sp : StanzaParams) (Entry : LOADER_ENTRY) (D : Bool)
    (T : List (List Nat)) (hL : ¬ isLoaderLine T) (hargs : readsArgument T → 2 ≤ T.length) :
    ∃ Entry1, stanzaLine sp Entry D T = some (Entry1, D) ∧
      Entry1.LoadOptions =
        match optionItem T with
        | none => Entry.LoadOptions
        | some item => MergeStrings Entry.LoadOptions item 32 := by
  have h0 : StriEq (T.getD 0 []) (wstr "loader") = false := by
    cases h : StriEq (T.getD 0 []) (wstr "loader") with
    | false => rfl
    | true => exact absurd h hL
  have hget : 2 ≤ T.length → T[1]? = some (T.getD 1 []) := by
    intro h2
    rw [List.getD_eq_getElem?_getD, List.getElem?_eq_getElem (by omega)]
    rfl
  unfold stanzaLine optionItem
  simp only [h0, Bool.false_eq_true, if_false]
  by_cases h1 : StriEq (T.getD 0 []) (wstr "icon") = true
  · have e1 := StriEq_excl _ _ (wstr "options") (by decide) h1
    have e2 := StriEq_excl _ _ (wstr "initrd") (by decide) h1
    simp only [h1, if_true, e1, e2, Bool.false_eq_true, if_false]
    rw [hget (hargs (Or.inr (Or.inl h1)))]
    exact ⟨_, rfl, rfl⟩
  simp only [h1, if_false]
  by_cases h2 : StriEq (T.getD 0 []) (wstr "initrd") = true
  · have e1 := StriEq_excl _ _ (wstr "options") (by decide) h2
    simp only [h2, if_true, e1, Bool.false_eq_true, if_false]
    rw [hget (hargs (Or.inr (Or.inr (Or.inl h2))))]
    exact ⟨_, rfl, MergeStrings_initrd _ _⟩
  simp only [h2, if_false]
  by_cases h3 : StriEq (T.getD 0 []) (wstr "options") = true
  · simp only [h3, if_true]
    rw [hget (hargs (Or.inr (Or.inr (Or.inr (Or.inl h3)))))]
    exact ⟨_, rfl, rfl⟩
  simp only [h3, if_false]
  by_cases h4 : StriEq (T.getD 0 []) (wstr "ostype") = true
  · simp only [h4, if_true]
    by_cases h5 : T.length > 1
    · rw [if_pos h5]; exact ⟨_, rfl, rfl⟩
    · rw [if_neg h5]; exact ⟨_, rfl, rfl⟩
  simp only [h4, if_false]
  by_cases h6 : StriEq (T.getD 0 []) (wstr "graphics") = true
  · simp only [h6, if_true]
    rw [hget (hargs (Or.inr (Or.inr (Or.inr (Or.inr h6)))))]
    exact ⟨_, rfl, rfl⟩
  simp only [h6, if_false]
  by_cases h7 : StriEq (T.getD 0 []) (wstr "disabled") = true
  · simp only [h7, if_true]; exact ⟨_, rfl, rfl⟩
  simp only [h7, if_false]
  exact ⟨_, rfl, rfl⟩

/-- A `loader` line with its argument: the body of the loop returns with
`DefaultsSet` true and the load options `NULL`. -/
theorem stanzaLine_loader (sp : StanzaParams) (Entry : LOADER_ENTRY) (D : Bool)
    (T : List (List Nat)) (hL : isLoaderLine T) (hlen : 2 ≤ T.length) :
    ∃ Entry1, stanzaLine sp Entry D T = some (Entry1, true) ∧ Entry1.LoadOptions = none := by
  have hget : T[1]? = some (T.getD 1 []) := by
    rw [List.getD_eq_getElem?_getD, List.getElem?_eq_getElem (by omega)]
    rfl
  unfold stanzaLine
  unfold isLoaderLine at hL
  simp only [hL, if_true]
  rw [hget]
  exact ⟨_, rfl, rfl⟩

theorem stanzaLines_append (sp : StanzaParams) : ∀ (a b : List (List (List Nat)))
    (Entry : LOADER_ENTRY) (D : Bool),
    stanzaLines sp (a ++ b) Entry D =
      match stanzaLines sp a Entry D with
      | none => none
      | some (Entry1, D1) => stanzaLines sp b Entry1 D1 := by
  intro a
  induction a with
  | nil => intro b Entry D; rfl
  | cons T a ih =>
    intro b Entry D
    rw [List.cons_append, stanzaLines, stanzaLines]
    cases stanzaLine sp Entry D T with
    | none => rfl
    | some r => exact ih b r.1 r.2

/-- Lines that hold the arguments their directives read are all processed. -/
theorem stanzaLines_total (sp : StanzaParams) : ∀ (body : List (List (List Nat)))
    (Entry : LOADER_ENTRY) (D : Bool), (∀ T ∈ body, readsArgument T → 2 ≤ T.length) →
    ∃ Entry1 D1, stanzaLines sp body Entry D = some (Entry1, D1) := by
  intro body
  induction body with
  | nil => intro Entry D _; exact ⟨Entry, D, rfl⟩
  | cons T body ih =>
    intro Entry D hargs
    have hT := hargs T (List.mem_cons_self _ _)
    have hrest : ∀ T1 ∈ body, readsArgument T1 → 2 ≤ T1.length :=
      fun T1 h1 => hargs T1 (List.mem_cons_of_mem _ h1)
    rw [stanzaLines]
    by_cases hL : isLoaderLine T
    · obtain ⟨E1, h1, _⟩ := stanzaLine_loader sp Entry D T hL (hT (Or.inl hL))
      rw [h1]
      exact ih E1 true hrest
    · obtain ⟨E1, h1, _⟩ := stanzaLine_other sp Entry D T hL hT
      rw [h1]
      exact ih E1 D hrest

/-- Lines without a `loader` line append their items to the load options, in
order. -/
theorem stanzaLines_no_loader (sp : StanzaParams) : ∀ (body : List (List (List Nat)))
    (Entry : LOADER_ENTRY) (D : Bool), (∀ T ∈ body, readsArgument T → 2 ≤ T.length) →
    (∀ T ∈ body, ¬ isLoaderLine T) →
    ∃ Entry1, stanzaLines sp body Entry D = some (Entry1, D) ∧
      Entry1.LoadOptions =
        (body.filterMap optionItem).foldl (fun lo item => MergeStrings lo item 32)
          Entry.LoadOptions := by
  intro body
  induction body with
  | nil => intro Entry D _ _; exact ⟨Entry, rfl, rfl⟩
  | cons T body ih =>
    intro Entry D hargs hno
    obtain ⟨E1, h1, h2⟩ := stanzaLine_other sp Entry D T (hno T (List.mem_cons_self _ _))
      (hargs T (List.mem_cons_self _ _))
    obtain ⟨E2, h3, h4⟩ := ih E1 D (fun T1 h => hargs T1 (List.mem_cons_of_mem _ h))
      (fun T1 h => hno T1 (List.mem_cons_of_mem _ h))
    refine ⟨E2, ?_, ?_⟩
    · rw [stanzaLines, h1]; exact h3
    · rw [h4, h2]
      cases hi : optionItem T with
      | none => simp [List.filterMap_cons, hi]
      | some item => simp [List.filterMap_cons, hi]

theorem joinTokens_cons (t : List Nat) (ts : List (List Nat)) :
    joinTokens (t :: ts) = t ++ (ts.map (fun x => 32 :: x)).flatten := by
  induction ts generalizing t with
  | nil => simp [joinTokens]
  | cons t2 ts ih => rw [joinTokens_cons_cons, ih]; simp

theorem foldl_MergeStrings_some (items : List (List Nat)) : ∀ (f : List Nat),
    items.foldl (fun lo item => MergeStrings lo item 32) (some f) =
      some (f ++ (items.map (fun x => 32 :: x)).flatten) := by
  induction items with
  | nil => intro f; simp
  | cons t ts ih =>
    intro f
    rw [List.foldl_cons]
    have : MergeStrings (some f) t 32 = some (f ++ 32 :: t) := by simp [MergeStrings]
    rw [this, ih]
    simp

/-- Appending the items one after the other to `NULL` gives their space-separated
concatenation. -/
theorem foldl_MergeStrings_none (items : List (List Nat)) :
    items.foldl (fun lo item => MergeStrings lo item 32) none = joinOptions items := by
  cases items with
  | nil => rfl
  | cons t ts =>
    rw [List.foldl_cons]
    have : MergeStrings none t 32 = some t := rfl
    rw [this, foldl_MergeStrings_some, joinOptions, if_neg (by simp), joinTokens_cons]

/-- The loop of `AddStanzaEntries` applies the body to the token lines of the file
before the closing brace, one after the other. -/
theorem stanzaLoop_eq (sp : StanzaParams) : ∀ (fuel : Nat) (File : REFIT_FILE)
    (Entry : LOADER_ENTRY) (D : Bool) (Ts : List (List (List Nat))),
    readAllTokenLines fuel File = some Ts →
    (stanzaLines sp (stanzaBody Ts) Entry D = none →
      stanzaLoop sp fuel File Entry D = .readOutside) ∧
    (∀ Entry1 D1, stanzaLines sp (stanzaBody Ts) Entry D = some (Entry1, D1) →
      ∃ File1, stanzaLoop sp fuel File Entry D = .returned (stanzaFinish sp Entry1 D1) File1) := by
  intro fuel
  induction fuel with
  | zero => intro File Entry D Ts h; simp [readAllTokenLines] at h
  | succ fuel ih =>
    intro File Entry D Ts h
    rw [readAllTokenLines] at h
    rw [stanzaLoop]
    cases hT : ReadTokenLine File with
    | none => rw [hT] at h; simp at h
    | some r =>
      obtain ⟨T, File1⟩ := r
      rw [hT] at h
      simp only at h ⊢
      by_cases h0 : T.length = 0
      · rw [if_pos h0] at h
        simp only [Option.some.injEq] at h
        subst h
        rw [if_neg (by omega)]
        simp only [stanzaBody, List.takeWhile_nil, stanzaLines]
        refine ⟨fun hn => by simp at hn, ?_⟩
        intro E1 D1 he
        simp only [Option.some.injEq, Prod.mk.injEq] at he
        obtain ⟨rfl, rfl⟩ := he
        exact ⟨File1, rfl⟩
      · rw [if_neg h0] at h
        cases hrest : readAllTokenLines fuel File1 with
        | none => rw [hrest] at h; simp at h
        | some Ts1 =>
          rw [hrest] at h
          simp only [Option.map_some', Option.some.injEq] at h
          subst h
          by_cases hb : StriEq (T.getD 0 []) (wstr "\x7d") = false
          · rw [if_pos ⟨by omega, hb⟩]
            have hbody : stanzaBody (T :: Ts1) = T :: stanzaBody Ts1 := by
              unfold stanzaBody
              rw [List.takeWhile_cons]
              simp only [hb]
              rfl
            rw [hbody, stanzaLines]
            cases hl : stanzaLine sp Entry D T with
            | none => exact ⟨fun _ => rfl, fun E1 D1 he => by simp at he⟩
            | some r => exact ih File1 r.1 r.2 Ts1 hrest
          · rw [if_neg (fun hc => hb hc.2)]
            have hbody : stanzaBody (T :: Ts1) = [] := by
              simp only [Bool.not_eq_false] at hb
              unfold stanzaBody
              rw [List.takeWhile_cons]
              simp only [hb]
              rfl
            rw [hbody, stanzaLines]
            refine ⟨fun hn => by simp at hn, ?_⟩
            intro E1 D1 he
            simp only [Option.some.injEq, Prod.mk.injEq] at he
            obtain ⟨rfl, rfl⟩ := he
            exact ⟨File1, rfl⟩

/-- C22. For every file positioned behind a `menuentry` line whose stanza body (the
token lines before the closing brace) holds a `loader` line, `pre ++ L :: post` with
`L` the last `loader` line, and in which every `loader`, `icon`, `initrd`, `options`
and `graphics` line has its argument: `AddStanzaEntries` returns, and the load options
of the entry are the space-separated concatenation, in file order, of the arguments
of the `options` lines and of `initrd=` with the arguments of the `initrd` lines of
`post`, `NULL` when `post` has none. What the lines of `pre` appended and what
`SetLoaderDefaults` seeded is discarded. -/
theorem C22_load_options_after_last_loader (sp : StanzaParams) (File : REFIT_FILE)
    (Title : Option (List Nat)) (Ts pre post : List (List (List Nat))) (L : List (List Nat))
    (hTs : readAllTokenLines (remaining File + 1) File = some Ts)
    (hbody : stanzaBody Ts = pre ++ L :: post)
    (hL : isLoaderLine L) (hpost : ∀ T ∈ post, ¬ isLoaderLine T)
    (hargs : ∀ T ∈ stanzaBody Ts, readsArgument T → 2 ≤ T.length) :
    ∃ Entry File1,
      AddStanzaEntries sp (remaining File + 1) File Title = .returned Entry File1 ∧
      Entry.LoadOptions = joinOptions (post.filterMap optionItem) := by
  rw [hbody] at hargs
  have hpre : ∀ T ∈ pre, readsArgument T → 2 ≤ T.length :=
    fun T h => hargs T (List.mem_append_left _ h)
  have hLarg : 2 ≤ L.length :=
    hargs L (List.mem_append_right _ (List.mem_cons_self _ _)) (Or.inl hL)
  have hpostarg : ∀ T ∈ post, readsArgument T → 2 ≤ T.length :=
    fun T h => hargs T (List.mem_append_right _ (List.mem_cons_of_mem _ h))
  obtain ⟨E1, D1, h1⟩ := stanzaLines_total sp pre ⟨Title, none, none, none, false, true, 32, none⟩
    false hpre
  obtain ⟨E2, h2, h2o⟩ := stanzaLine_loader sp E1 D1 L hL hLarg
  obtain ⟨E3, h3, h3o⟩ := stanzaLines_no_loader sp post E2 true hpostarg hpost
  have hall : stanzaLines sp (stanzaBody Ts) ⟨Title, none, none, none, false, true, 32, none⟩
      false = some (E3, true) := by
    rw [hbody, stanzaLines_append, h1]
    simp only
    rw [stanzaLines, h2]
    exact h3
  obtain ⟨File1, h4⟩ := (stanzaLoop_eq sp _ File _ false Ts hTs).2 E3 true hall
  refine ⟨E3, File1, ?_, ?_⟩
  · rw [AddStanzaEntries, h4]
    rfl
  · rw [h3o, h2o, foldl_MergeStrings_none]

/-! ## Empty tokens -/

theorem mem_skipWhitespace (q : Bool) (c : Nat) : ∀ (p : List Nat),
    c ∈ skipWhitespace q p → c ∈ p := by
  intro p
  induction p with
  | nil => intro h; exact h
  | cons a r ih =>
    intro h
    rw [skipWhitespace] at h
    by_cases hc : isSeparator a = true ∧ q = false
    · rw [if_pos hc] at h; exact List.mem_cons_of_mem _ (ih h)
    · rw [if_neg hc] at h; exact h

theorem mem_findEndOfToken_rest (q : Bool) (c : Nat) : ∀ (p : List Nat),
    c ∈ (findEndOfToken q p).2 → c ∈ p := by
  intro p
  induction p with
  | nil => intro h; exact h
  | cons a r ih =>
    intro h
    rw [findEndOfToken] at h
    split at h
    · exact List.mem_cons_of_mem _ (ih h)
    · exact h

theorem skipWhitespace_head (q : Bool) : ∀ (p : List Nat) (a : Nat) (r : List Nat),
    skipWhitespace q p = a :: r → q = true ∨ isSeparator a = false := by
  intro p
  induction p with
  | nil => intro a r h; simp [skipWhitespace] at h
  | cons b t ih =>
    intro a r h
    rw [skipWhitespace] at h
    by_cases hc : isSeparator b = true ∧ q = false
    · rw [if_pos hc] at h; exact ih a r h
    · rw [if_neg hc] at h
      simp only [List.cons.injEq] at h
      obtain ⟨rfl, _⟩ := h
      cases q with
      | true => exact Or.inl rfl
      | false =>
        right
        cases hs : isSeparator b with
        | false => rfl
        | true => exact absurd ⟨hs, rfl⟩ hc

theorem findEndOfToken_ne_nil (q : Bool) (a : Nat) (r : List Nat) (h0 : a ≠ 0) (h34 : a ≠ 34)
    (h : q = true ∨ (isSeparator a = false ∧ a ≠ 35)) :
    (findEndOfToken q (a :: r)).1 ≠ [] := by
  rw [findEndOfToken, if_pos]
  · simp
  · refine ⟨h0, h34, ?_⟩
    rcases h with h | ⟨h1, h2⟩
    · exact Or.inr h
    · have := (isSeparator_false_iff a).1 h1
      exact Or.inl ⟨this.1, this.2.1, this.2.2.1, h2, this.2.2.2⟩

/-- One round of the loop over a line on a string without `"`: the token is not
empty, and the rest of the string holds no `"`. -/
theorem tokenStep_nonempty (q : Bool) (p : List Nat) (h34 : 34 ∉ p) (T : List Nat) (q2 fin : Bool)
    (p1 : List Nat) (h : tokenStep q p = some (T, q2, fin, p1)) : T ≠ [] ∧ 34 ∉ p1 := by
  unfold tokenStep at h
  by_cases h1 : cur (skipWhitespace q p) = 0 ∨ cur (skipWhitespace q p) = 35
  · simp only [h1, if_true] at h
    exact absurd h (by simp)
  · simp only [h1, if_false] at h
    cases hs : skipWhitespace q p with
    | nil => rw [hs] at h1; exact absurd (Or.inl rfl) h1
    | cons a r =>
      rw [hs] at h h1
      have ha : a ∈ p := mem_skipWhitespace q a p (by rw [hs]; exact List.mem_cons_self _ _)
      have ha34 : a ≠ 34 := fun e => h34 (e ▸ ha)
      have hcur : cur (a :: r) = a := rfl
      rw [hcur] at h h1
      simp only [ha34, if_false, Option.some.injEq, Prod.mk.injEq] at h
      obtain ⟨hT, _, _, hp1⟩ := h
      constructor
      · rw [← hT]
        refine findEndOfToken_ne_nil q a r (fun e => h1 (Or.inl e)) ha34 ?_
        rcases skipWhitespace_head q p a r hs with hq | hsep
        · exact Or.inl hq
        · exact Or.inr ⟨hsep, fun e => h1 (Or.inr e)⟩
      · rw [← hp1]
        intro hmem
        have h2 := mem_findEndOfToken_rest q 34 (a :: r) (List.mem_of_mem_tail hmem)
        exact h34 (mem_skipWhitespace q 34 p (by rw [hs]; exact h2))

theorem tokenLoop_nonempty : ∀ (fuel : Nat) (q : Bool) (p : List Nat) (toks : List (List Nat)),
    34 ∉ p → (∀ t ∈ toks, t ≠ []) → ∀ t ∈ (tokenLoop fuel q p toks).1, t ≠ [] := by
  intro fuel
  induction fuel with
  | zero => intro q p toks _ ht; exact ht
  | succ fuel ih =>
    intro q p toks h34 ht
    rw [tokenLoop_step]
    cases hs : tokenStep q p with
    | none => exact ht
    | some r =>
      obtain ⟨T, q2, fin, p1⟩ := r
      obtain ⟨hT, hp1⟩ := tokenStep_nonempty q p h34 T q2 fin p1 hs
      have ht2 : ∀ t ∈ toks ++ [T], t ≠ [] := by
        intro t hmem
        rcases List.mem_append.1 hmem with h | h
        · exact ht t h
        · simp only [List.mem_singleton] at h; rw [h]; exact hT
      simp only
      by_cases hf : fin = true
      · rw [if_pos hf]; exact ht2
      · rw [if_neg hf]; exact ih q2 p1 (toks ++ [T]) hp1 ht2

theorem ReadLine_Buffer (File File1 : REFIT_FILE) (r : Option (List Nat))
    (h : ReadLine File = (r, File1)) : File1.Buffer = File.Buffer := by
  unfold ReadLine at h
  cases hB : File.Buffer with
  | none =>
    rw [hB] at h
    simp only [Prod.mk.injEq] at h
    rw [← h.2, hB]
  | some B =>
    rw [hB] at h
    simp only at h
    split_ifs at h <;> simp only [Prod.mk.injEq] at h <;> rw [← h.2] <;> simp [hB]

/-- A token line that the loop of `ReadTokenLine` returns with tokens is the token
list of a line that `ReadLine` returned for the same buffer. -/
theorem readTokenLoopFresh_line : ∀ (fuel : Nat) (File : REFIT_FILE) (T : List (List Nat))
    (File1 : REFIT_FILE), readTokenLoopFresh fuel File = some (T, File1) → T.length ≠ 0 →
    ∃ File0 Line, File0.Buffer = File.Buffer ∧ ReadLine File0 = (some Line, File1) ∧
      T = (tokenizeLine false Line).1 := by
  intro fuel
  induction fuel with
  | zero => intro File T File1 h; simp [readTokenLoopFresh] at h
  | succ fuel ih =>
    intro File T File1 h hT
    rw [readTokenLoopFresh] at h
    cases hR : ReadLine File with
    | mk Line File2 =>
      rw [hR] at h
      cases Line with
      | none =>
        simp only [Option.some.injEq, Prod.mk.injEq] at h
        rw [← h.1] at hT
        exact absurd rfl hT
      | some Line =>
        simp only at h
        by_cases h0 : (tokenizeLine false Line).1.length = 0
        · rw [if_pos h0] at h
          obtain ⟨File0, Line0, hb, hr, ht⟩ := ih File2 T File1 h hT
          exact ⟨File0, Line0, hb.trans (ReadLine_Buffer File File2 _ hR), hr, ht⟩
        · rw [if_neg h0] at h
          simp only [Option.some.injEq, Prod.mk.injEq] at h
          obtain ⟨rfl, rfl⟩ := h
          exact ⟨File, Line, rfl, hR, rfl⟩

/-- C23, as amended. A token line that `ReadTokenLine` returns with a non-zero count
is the token list of one line of the file, tokenized from the unquoted state, and it
holds an empty token only if that line holds a `"`: every token of a line without
`"` is non-empty. -/
theorem C23_empty_token_needs_quote (File File1 : REFIT_FILE) (T : List (List Nat))
    (h : ReadTokenLine File = some (T, File1)) (hT : T.length ≠ 0) :
    ∃ File0 Line, File0.Buffer = File.Buffer ∧ ReadLine File0 = (some Line, File1) ∧
      T = (tokenizeLine false Line).1 ∧ ∀ t ∈ T, t = [] → 34 ∈ Line := by
  rw [ReadTokenLine_eq_fresh] at h
  obtain ⟨File0, Line, hb, hr, ht⟩ := readTokenLoopFresh_line _ File T File1 h hT
  refine ⟨File0, Line, hb, hr, ht, ?_⟩
  intro t hmem he
  by_contra h34
  rw [ht] at hmem
  exact tokenLoop_nonempty _ false Line [] h34 (fun t h => by simp at h) t hmem he

/-! ## A chain long enough for the partition counter to wrap -/

/-- One step of the scan of an EMBR over a logical partition. -/
theorem embrLoop_step_data (p : Params) (k eb n i : Nat) (buf : Sector) (nx L : Nat)
    (hf : flagOK (Flags buf i)) (hd : dataEntry p buf i) :
    embrLoop p k eb (n + 1) i buf nx L =
      embrLoop p k eb n (i + 1) (setFlags buf i (if k = L then 0x80 else 0x00)) nx
        ((L + 1) % 2 ^ p.UINTN_BITS) := by
  obtain ⟨hs, hz, ht⟩ := hd
  rw [embrLoop, if_neg (flagOK_pass _ hf), if_neg (by simp [hs, hz]), if_neg (by simp [ht])]

/-- The step of the scan of an EMBR at a link. -/
theorem embrLoop_step_link (p : Params) (k eb n i : Nat) (buf : Sector) (nx L : Nat)
    (hf : flagOK (Flags buf i)) (hl : linkEntry p buf i) :
    embrLoop p k eb (n + 1) i buf nx L =
      some (setFlags buf i (if k ≥ L then 0x80 else 0x00),
            (eb + StartLBA buf i) % 2 ^ 32, L) := by
  obtain ⟨hs, hz, ht⟩ := hl
  rw [embrLoop, if_neg (flagOK_pass _ hf), if_neg (by simp [hs, hz]), if_pos ht]

theorem dataEntry_setFlags (p : Params) (buf : Sector) (i j : Nat) (v : Byte) :
    dataEntry p (setFlags buf i v) j ↔ dataEntry p buf j := by
  unfold dataEntry
  rw [StartLBA_setFlags, Size_setFlags, PartType_setFlags]

theorem linkEntry_setFlags (p : Params) (buf : Sector) (i j : Nat) (v : Byte) :
    linkEntry p (setFlags buf i v) j ↔ linkEntry p buf j := by
  unfold linkEntry
  rw [StartLBA_setFlags, Size_setFlags, PartType_setFlags]

/-- The scan of an EMBR with logical partitions in slots 0 to 2 and a link in slot 3. -/
theorem embrLoop_three_link (p : Params) (k eb : Nat) (buf : Sector) (nx L : Nat)
    (hf : ∀ i, i < 4 → flagOK (Flags buf i)) (h0 : dataEntry p buf 0)
    (h1 : dataEntry p buf 1) (h2 : dataEntry p buf 2) (h3 : linkEntry p buf 3) :
    embrLoop p k eb 4 0 buf nx L =
      some (setFlags (setFlags (setFlags (setFlags buf 0 (if k = L then 0x80 else 0x00)) 1
              (if k = (L + 1) % 2 ^ p.UINTN_BITS then 0x80 else 0x00)) 2
              (if k = ((L + 1) % 2 ^ p.UINTN_BITS + 1) % 2 ^ p.UINTN_BITS then 0x80 else 0x00)) 3
              (if k ≥ (((L + 1) % 2 ^ p.UINTN_BITS + 1) % 2 ^ p.UINTN_BITS + 1)
                  % 2 ^ p.UINTN_BITS then 0x80 else 0x00),
            (eb + StartLBA buf 3) % 2 ^ 32,
            (((L + 1) % 2 ^ p.UINTN_BITS + 1) % 2 ^ p.UINTN_BITS + 1) % 2 ^ p.UINTN_BITS) := by
  rw [embrLoop_step_data p k eb 3 0 buf nx L (hf 0 (by omega)) h0]
  rw [embrLoop_step_data p k eb 2 1 _ nx _
    (by rw [Flags_setFlags_ne _ _ _ _ (by decide)]; exact hf 1 (by omega))
    ((dataEntry_setFlags _ _ _ _ _).2 h1)]
  rw [embrLoop_step_data p k eb 1 2 _ nx _
    (by rw [Flags_setFlags_ne _ _ _ _ (by decide), Flags_setFlags_ne _ _ _ _ (by decide)]
        exact hf 2 (by omega))
    ((dataEntry_setFlags _ _ _ _ _).2 ((dataEntry_setFlags _ _ _ _ _).2 h2))]
  rw [embrLoop_step_link p k eb 0 3 _ nx _
    (by rw [Flags_setFlags_ne _ _ _ _ (by decide), Flags_setFlags_ne _ _ _ _ (by decide),
          Flags_setFlags_ne _ _ _ _ (by decide)]
        exact hf 3 (by omega))
    ((linkEntry_setFlags _ _ _ _ _).2 ((linkEntry_setFlags _ _ _ _ _).2
      ((linkEntry_setFlags _ _ _ _ _).2 h3)))]
  rw [StartLBA_setFlags, StartLBA_setFlags, StartLBA_setFlags]

theorem exParams32_bits : 2 ^ exParams32.UINTN_BITS = 4294967296 := by decide

/-- The bytes of `longEmbr n` before the start LBA of its link. -/
theorem longEmbr_split (n : Nat) :
    longEmbr n =
      (List.replicate 446 0 ++ mkEntry 0 0x83 63 1 ++ mkEntry 0 0x83 64 1 ++ mkEntry 0 0x83 65 1
          ++ [0, 0, 0, 0, 0x05, 0, 0, 0])
        ++ (le32 n ++ (le32 1 ++ [0x55, 0xAA])) := by
  simp only [longEmbr, mkSector, mkEntry, List.append_assoc]

theorem getD_append_middle (P A B R : List Byte) (hA : A.length = B.length) (off : Nat)
    (h : off < P.length ∨ P.length + A.length ≤ off) :
    (P ++ (A ++ R)).getD off 0 = (P ++ (B ++ R)).getD off 0 := by
  rcases h with h | h
  · rw [List.getD_append _ _ _ _ h, List.getD_append _ _ _ _ h]
  · rw [List.getD_append_right _ _ _ _ (by omega), List.getD_append_right _ _ _ _ (by omega),
      List.getD_append_right _ _ _ _ (by omega),
      List.getD_append_right _ _ _ _ (by omega), hA]

set_option maxRecDepth 1000000 in
theorem longEmbr_getD (n off : Nat) (h : off < 502 ∨ 506 ≤ off) :
    (longEmbr n).getD off 0 = (longEmbr 0).getD off 0 := by
  have hlen : (List.replicate 446 (0 : Byte) ++ mkEntry 0 0x83 63 1 ++ mkEntry 0 0x83 64 1
      ++ mkEntry 0 0x83 65 1 ++ [0, 0, 0, 0, 0x05, 0, 0, 0]).length = 502 := by decide
  have h4 : ∀ m, (le32 m).length = 4 := fun m => rfl
  rw [longEmbr_split n, longEmbr_split 0]
  apply getD_append_middle _ (le32 n) (le32 0) _ rfl
  rw [hlen, h4]
  omega

set_option maxRecDepth 1000000 in
theorem longEmbr_Signature (n : Nat) : Signature (longEmbr n) = 0xaa55 := by
  rw [Signature_congr (longEmbr n) (longEmbr 0) (longEmbr_getD n 510 (by omega))
    (longEmbr_getD n 511 (by omega))]
  decide

set_option maxRecDepth 1000000 in
theorem longEmbr_flags (n i : Nat) (hi : i < 4) : flagOK (Flags (longEmbr n) i) := by
  have h : Flags (longEmbr n) i = Flags (longEmbr 0) i :=
    longEmbr_getD n _ (by unfold entryOffset; omega)
  rw [h]
  interval_cases i <;> decide

set_option maxRecDepth 1000000 in
theorem longEmbr_data (n i : Nat) (hi : i < 3) : dataEntry exParams32 (longEmbr n) i := by
  have h1 : StartLBA (longEmbr n) i = StartLBA (longEmbr 0) i :=
    readU32_congr _ _ _ (fun d hd => longEmbr_getD n _ (by unfold entryOffset; omega))
  have h2 : Size (longEmbr n) i = Size (longEmbr 0) i :=
    readU32_congr _ _ _ (fun d hd => longEmbr_getD n _ (by unfold entryOffset; omega))
  have h3 : PartType (longEmbr n) i = PartType (longEmbr 0) i :=
    longEmbr_getD n _ (by unfold entryOffset; omega)
  unfold dataEntry
  rw [h1, h2, h3]
  interval_cases i <;> decide

set_option maxRecDepth 1000000 in
theorem longEmbr_StartLBA (n : Nat) (hn : n < 4294967296) : StartLBA (longEmbr n) 3 = n := by
  have hlen : (List.replicate 446 (0 : Byte) ++ mkEntry 0 0x83 63 1 ++ mkEntry 0 0x83 64 1
      ++ mkEntry 0 0x83 65 1 ++ [0, 0, 0, 0, 0x05, 0, 0, 0]).length = 502 := by decide
  have hb : ∀ d, d < 4 → (longEmbr n).getD (502 + d) 0 = (le32 n).getD d 0 := by
    intro d hd
    rw [longEmbr_split n, List.getD_append_right _ _ _ _ (by rw [hlen]; omega), hlen,
      List.getD_append _ _ _ _ (by show 502 + d - 502 < 4; omega)]
    congr 1
    omega
  have h : StartLBA (longEmbr n) 3 =
      n % 256 + 256 * (n / 256 % 256) + 65536 * (n / 65536 % 256)
        + 16777216 * (n / 16777216 % 256) := by
    show readU32 (longEmbr n) 502 = _
    unfold readU32
    have h0 := hb 0 (by omega)
    rw [Nat.add_zero] at h0
    rw [h0, hb 1 (by omega), hb 2 (by omega), hb 3 (by omega)]
    rfl
  rw [h]
  omega

set_option maxRecDepth 1000000 in
theorem longEmbr_link (n : Nat) (h0 : n ≠ 0) (hn : n < 4294967296) :
    linkEntry exParams32 (longEmbr n) 3 := by
  have h2 : Size (longEmbr n) 3 = Size (longEmbr 0) 3 :=
    readU32_congr _ _ _ (fun d hd => longEmbr_getD n _ (by unfold entryOffset; omega))
  have h3 : PartType (longEmbr n) 3 = PartType (longEmbr 0) 3 :=
    longEmbr_getD n _ (by unfold entryOffset; omega)
  unfold linkEntry
  rw [longEmbr_StartLBA n hn, h2, h3]
  exact ⟨h0, by decide, by decide⟩

/-- The walk over `m` EMBRs of the long chain, when partition k lies behind them and
the counter does not wrap: it goes on at block c + m with the counter raised by 3 m,
and has changed no block outside the `m` blocks read. -/
theorem long_walk (k : Nat) : ∀ (m f c L : Nat) (io : BlockDev),
    c ≠ 0 → c + m < 4294967296 → L + 3 * m ≤ k → k < 4294967296 → io.status = okStatus →
    (∀ x, c ≤ x → x < c + m → io.disk x = longEmbr x) →
    ∃ io1, walk exParams32 k 1 (m + f) c L io =
        walk exParams32 k 1 f (c + m) (L + 3 * m) io1 ∧
      io1.status = okStatus ∧ ∀ x, (x < c ∨ c + m ≤ x) → io1.disk x = io.disk x := by
  intro m
  induction m with
  | zero =>
    intro f c L io _ _ _ _ hst _
    exact ⟨io, by simp, hst, fun _ _ => rfl⟩
  | succ m ih =>
    intro f c L io hc hcm hL hk hst hdisk
    have hr : ¬ EFI_ERROR (io.status io.log (.read c)) = true := by
      rw [hst]; simp [okStatus, EFI_ERROR]
    have hw : ∀ w, ¬ EFI_ERROR (io.status (io.log ++ [.read c]) (.write c w)) = true := by
      intro w; rw [hst]; simp [okStatus, EFI_ERROR]
    have hscan := embrLoop_three_link exParams32 k 1 (longEmbr c) 0 L (longEmbr_flags c)
      (longEmbr_data c 0 (by omega)) (longEmbr_data c 1 (by omega))
      (longEmbr_data c 2 (by omega)) (longEmbr_link c hc (by omega))
    have e1 : (L + 1) % 4294967296 = L + 1 := Nat.mod_eq_of_lt (by omega)
    have e2 : (L + 1 + 1) % 4294967296 = L + 2 := Nat.mod_eq_of_lt (by omega)
    have e3 : (L + 2 + 1) % 4294967296 = L + 3 := Nat.mod_eq_of_lt (by omega)
    have e4 : (1 + c) % 2 ^ 32 = c + 1 := by
      rw [show (2 : Nat) ^ 32 = 4294967296 by norm_num]; omega
    rw [exParams32_bits, longEmbr_StartLBA c (by omega), e1, e2, e3, e4] at hscan
    rw [show m + 1 + f = (m + f) + 1 by omega, walk_succ _ _ _ _ _ _ _ hc, if_neg hr,
      hdisk c (le_refl _) (by omega), if_neg (not_not.2 (longEmbr_Signature c)), hscan]
    simp only
    rw [if_neg (hw _), if_neg (by omega : ¬ k < L + 3)]
    obtain ⟨io1, h1, h2, h3⟩ := ih f (c + 1) (L + 3)
      { io with log := io.log ++ [.read c] ++ [.write c _],
                disk := Function.update io.disk c _ }
      (by omega) (by omega) (by omega) hk hst (by
        intro x hx1 hx2
        simp only [Function.update_noteq (by omega : x ≠ c)]
        exact hdisk x (by omega) (by omega))
    refine ⟨io1, ?_, h2, ?_⟩
    · rw [h1, show c + 1 + m = c + (m + 1) by omega,
        show L + 3 + 3 * m = L + 3 * (m + 1) by omega]
    · intro x hx
      rw [h3 x (by omega)]
      simp only [Function.update_noteq (by omega : x ≠ c)]

set_option maxRecDepth 1000000 in
/-- The run on the long chain with a 32-bit `UINTN` and k = 2^32 - 2. The walk enters
block n with the counter at 3 n + 1; at block 1431655764 the counter is 2^32 - 3, so
slot 1 holds partition k and is marked active, and the counter wraps to 0 after
slot 2. The walk goes on, entering block 1431655765 + j with the counter at 3 j; at
block 2863311529 the counter is 2^32 - 4, so slot 2 holds partition k again and is
marked active, and the counter ends at 2^32 - 1, above k. -/
theorem long_run :
    (ActivateMbrPartition exParams32 3000000000 longDev 4294967294).Status
      = some .EFI_SUCCESS ∧
    (ActivateMbrPartition exParams32 3000000000 longDev 4294967294).LogicalPartitionIndex
      = 4294967295 ∧
    activeNonLink exParams32
      ((ActivateMbrPartition exParams32 3000000000 longDev 4294967294).io.disk 1431655764) = 1 ∧
    activeNonLink exParams32
      ((ActivateMbrPartition exParams32 3000000000 longDev 4294967294).io.disk 2863311529)
        = 1 := by
  obtain ⟨w0, hw0⟩ : ∃ w0 : Sector, w0 = mkSector 1 (mkEntry 0x80 0x05 1 4294967295)
      emptyEntry emptyEntry emptyEntry := ⟨_, rfl⟩
  obtain ⟨W1, hW1⟩ : ∃ W1 : Sector, W1 = setFlags (setFlags (setFlags (setFlags
      (longEmbr 1431655764) 0 0x00) 1 0x80) 2 0x00) 3 0x80 := ⟨_, rfl⟩
  obtain ⟨W2, hW2⟩ : ∃ W2 : Sector, W2 = setFlags (setFlags (setFlags (setFlags
      (longEmbr 2863311529) 0 0x00) 1 0x00) 2 0x80) 3 0x00 := ⟨_, rfl⟩
  have hm : mbrLoop exParams32 4294967294 4 0 (addBootCode exParams32 (longDev.disk 0)) 0
      = some (w0, 1) := by rw [hw0]; decide
  have hs1 : embrLoop exParams32 4294967294 1 4 0 (longEmbr 1431655764) 0 4294967293
      = some (W1, 1431655765, 0) := by rw [hW1]; decide
  have hs2 : embrLoop exParams32 4294967294 1 4 0 (longEmbr 2863311529) 0 4294967292
      = some (W2, 2863311530, 4294967295) := by rw [hW2]; decide
  have ha1 : activeNonLink exParams32 W1 = 1 := by rw [hW1]; decide
  have ha2 : activeNonLink exParams32 W2 = 1 := by rw [hW2]; decide
  have hlong : ∀ x, x ≠ 0 → longDev.disk x = longEmbr x := by
    intro x hx
    show (if x = 0 then _ else longEmbr x) = _
    rw [if_neg hx]
  have hst : ∀ (io : BlockDev) l op, io.status = okStatus →
      ¬ EFI_ERROR (io.status l op) = true := by
    intro io l op h; rw [h]; simp [okStatus, EFI_ERROR]
  -- the primary stage
  obtain ⟨io0, hio0⟩ : ∃ io0 : BlockDev, io0 =
      { longDev with log := longDev.log ++ [.read 0] ++ [.write 0 w0],
                     disk := Function.update longDev.disk 0 w0 } := ⟨_, rfl⟩
  have hrun : ActivateMbrPartition exParams32 3000000000 longDev 4294967294 =
      walk exParams32 4294967294 1 3000000000 1 4 io0 := by
    rw [Activate_unfold, if_neg (hst longDev _ _ rfl), if_neg (by decide), hm, hio0]
    simp only
    rw [if_neg (hst longDev _ _ rfl), if_pos (by decide)]
  have hst0 : io0.status = okStatus := by rw [hio0]; rfl
  have hd0 : ∀ x, x ≠ 0 → io0.disk x = longEmbr x := by
    intro x hx
    rw [hio0]
    simp only [Function.update_noteq hx]
    exact hlong x hx
  -- the blocks 1 to 1431655763
  obtain ⟨io1, h1, hst1, hf1⟩ := long_walk 4294967294 1431655763 1568344237 1 4 io0
    (by omega) (by omega) (by omega) (by omega) hst0 (fun x hx _ => hd0 x (by omega))
  have h1a : walk exParams32 4294967294 1 3000000000 1 4 io0 =
      walk exParams32 4294967294 1 (1568344236 + 1) 1431655764 4294967293 io1 := h1
  -- block 1431655764, where the counter wraps
  obtain ⟨io2, hio2⟩ : ∃ io2 : BlockDev, io2 =
      { io1 with log := io1.log ++ [.read 1431655764] ++ [.write 1431655764 W1],
                 disk := Function.update io1.disk 1431655764 W1 } := ⟨_, rfl⟩
  have h2 : walk exParams32 4294967294 1 (1568344236 + 1) 1431655764 4294967293 io1 =
      walk exParams32 4294967294 1 1568344236 1431655765 0 io2 := by
    rw [walk_succ _ _ _ _ _ _ _ (by omega), if_neg (hst io1 _ _ hst1),
      hf1 1431655764 (by omega), hd0 1431655764 (by omega),
      if_neg (not_not.2 (longEmbr_Signature _)), hs1, hio2]
    simp only
    rw [if_neg (hst io1 _ _ hst1), if_neg (by omega)]
  have hst2 : io2.status = okStatus := by rw [hio2]; exact hst1
  -- the blocks 1431655765 to 2863311528
  obtain ⟨io3, h3, hst3, hf3⟩ := long_walk 4294967294 1431655764 136688472 1431655765 0 io2
    (by omega) (by omega) (by omega) (by omega) hst2 (by
      intro x hx1 hx2
      rw [hio2]
      simp only [Function.update_noteq (by omega : x ≠ 1431655764)]
      rw [hf1 x (by omega)]
      exact hd0 x (by omega))
  have h3a : walk exParams32 4294967294 1 1568344236 1431655765 0 io2 =
      walk exParams32 4294967294 1 (136688471 + 1) 2863311529 4294967292 io3 := h3
  -- block 2863311529, where the walk stops
  have hd3 : io3.disk 2863311529 = longEmbr 2863311529 := by
    rw [hf3 _ (by omega), hio2]
    simp only [Function.update_noteq (by omega : (2863311529 : Nat) ≠ 1431655764)]
    rw [hf1 _ (by omega)]
    exact hd0 _ (by omega)
  have h4 : walk exParams32 4294967294 1 (136688471 + 1) 2863311529 4294967292 io3 =
      ⟨some .EFI_SUCCESS,
        { io3 with log := io3.log ++ [.read 2863311529] ++ [.write 2863311529 W2],
                   disk := Function.update io3.disk 2863311529 W2 }, 4294967295⟩ := by
    rw [walk_succ _ _ _ _ _ _ _ (by omega), if_neg (hst io3 _ _ hst3), hd3,
      if_neg (not_not.2 (longEmbr_Signature _)), hs2]
    simp only
    rw [if_neg (hst io3 _ _ hst3), if_pos (by omega)]
  rw [hrun, h1a, h2, h3a, h4]
  refine ⟨rfl, rfl, ?_, ?_⟩
  · show activeNonLink exParams32 (Function.update io3.disk 2863311529 W2 1431655764) = 1
    rw [Function.update_noteq (by omega), hf3 _ (by omega), hio2]
    simp only [Function.update_same]
    exact ha1
  · show activeNonLink exParams32 (Function.update io3.disk 2863311529 W2 2863311529) = 1
    rw [Function.update_same]
    exact ha2

/-! ## The statements about the chain walk at concrete inputs -/

set_option maxRecDepth 1000000 in
/-- C2 refuted as stated, by six runs with k at least 4 that return `EFI_SUCCESS`.
(1) On `primaryDisk`, which has no primary of extended type, with k = 4: no extended
primary is active afterwards. (2) On `twoExtendedDisk` with k = 4: two extended
primaries are active afterwards. (3) On `staleDisk` with k = 4: the walk stops in the
EMBR at LBA 1000, which holds partition 4, and does not read the EMBR at LBA 1200,
whose logical partition was active before the call; two logical entries of the chain
are active afterwards. (4) On `behindLinkDisk` with k = 4: the scan of the EMBR at
LBA 1000 leaves at its link in slot 1, and the entry in slot 2, active before the
call, stays so; that EMBR holds two active logical entries afterwards. (5) On
`chainDisk` with k = 6, where the chain holds the partitions 4 and 5 only: no logical
entry is active afterwards. (6) On `longDisk` with a 32-bit `UINTN` and
k = 2^32 - 2, for which k + 4 is not below `2^UINTN_BITS`: no logical entry of the
blocks 1431655764 and 2863311529 is active before the call, and each of the two
holds an active logical entry afterwards, because the counter wraps after the first
and reaches k a second time. -/
theorem C2_counterexample :
    ((ActivateMbrPartition exParams 0 primaryDev 4).Status = some .EFI_SUCCESS ∧
      activeExtendedPrimaries exParams
        ((ActivateMbrPartition exParams 0 primaryDev 4).io.disk 0) = 0) ∧
    ((ActivateMbrPartition exParams 1 twoExtendedDev 4).Status = some .EFI_SUCCESS ∧
      activeExtendedPrimaries exParams
        ((ActivateMbrPartition exParams 1 twoExtendedDev 4).io.disk 0) = 2) ∧
    ((ActivateMbrPartition exParams 1 staleDev 4).Status = some .EFI_SUCCESS ∧
      activeNonLink exParams ((ActivateMbrPartition exParams 1 staleDev 4).io.disk 1000) = 1 ∧
      activeNonLink exParams ((ActivateMbrPartition exParams 1 staleDev 4).io.disk 1200) = 1) ∧
    ((ActivateMbrPartition exParams 1 behindLinkDev 4).Status = some .EFI_SUCCESS ∧
      activeNonLink exParams
        ((ActivateMbrPartition exParams 1 behindLinkDev 4).io.disk 1000) = 2) ∧
    ((ActivateMbrPartition exParams 2 chainDev 6).Status = some .EFI_SUCCESS ∧
      activeNonLink exParams ((ActivateMbrPartition exParams 2 chainDev 6).io.disk 1000) = 0 ∧
      activeNonLink exParams ((ActivateMbrPartition exParams 2 chainDev 6).io.disk 1200) = 0) ∧
    (4 ≤ 4294967294 ∧ ¬ 4294967294 + 4 < 2 ^ exParams32.UINTN_BITS ∧
      activeNonLink exParams32 (longDev.disk 1431655764) = 0 ∧
      activeNonLink exParams32 (longDev.disk 2863311529) = 0) ∧
    (ActivateMbrPartition exParams32 3000000000 longDev 4294967294).Status
      = some .EFI_SUCCESS ∧
    (ActivateMbrPartition exParams32 3000000000 longDev 4294967294).LogicalPartitionIndex
      = 4294967295 ∧
    activeNonLink exParams32
      ((ActivateMbrPartition exParams32 3000000000 longDev 4294967294).io.disk 1431655764) = 1 ∧
    activeNonLink exParams32
      ((ActivateMbrPartition exParams32 3000000000 longDev 4294967294).io.disk 2863311529)
        = 1 :=
  ⟨by decide, by decide, by decide, by decide, by decide, by decide, long_run⟩

set_option maxRecDepth 1000000 in
/-- C28 as stated, at the cyclic disk with k = 2^64 - 1 and a 64-bit `UINTN`: every
EMBR read holds a logical partition in slot 0, and the walk has not ended after any
number of rounds, because `LogicalPartitionIndex` cannot exceed k. -/
theorem C28_counterexample :
    4 ≤ 18446744073709551615 ∧ 18446744073709551615 < 2 ^ exParams.UINTN_BITS ∧
    ∀ fuel,
      (ActivateMbrPartition exParams fuel cycleDev 18446744073709551615).Status = none ∧
      ∀ c, c ≠ 0 →
        BlockOp.read c ∈
          (ActivateMbrPartition exParams fuel cycleDev 18446744073709551615).io.log →
        dataEntry exParams (cycleDisk c) 0 := by
  refine ⟨by decide, by decide, ?_⟩
  intro fuel
  obtain ⟨w0, hw0⟩ : ∃ w0 : Sector, w0 = mkSector 1 (mkEntry 0 0x83 63 100)
      (mkEntry 0 0x83 200 100) (mkEntry 0x80 0x05 1000 5000) emptyEntry := ⟨_, rfl⟩
  have hm : mbrLoop exParams 18446744073709551615 4 0
      (addBootCode exParams (cycleDev.disk 0)) 0 = some (w0, 1000) := by rw [hw0]; decide
  have hwf : ∀ c1, c1 = 1000 ∨ c1 = 1200 → wellFormedEmbr exParams (cycleDisk c1) ∧
      linkEntry exParams (cycleDisk c1) 1 ∧ StartLBA (cycleDisk c1) 1 = 200 := by
    intro c1 hc1
    rcases hc1 with rfl | rfl <;>
      (unfold wellFormedEmbr dataEntry linkEntry; decide)
  have hrun : ActivateMbrPartition exParams fuel cycleDev 18446744073709551615 =
      walk exParams 18446744073709551615 1000 fuel 1000 4
        { cycleDev with log := cycleDev.log ++ [.read 0] ++ [.write 0 w0],
                        disk := Function.update cycleDev.disk 0 w0 } := by
    rw [Activate_unfold, if_neg (by decide), if_neg (by decide), hm]
    simp only
    rw [if_neg (by simp [cycleDev, okStatus, EFI_ERROR]), if_pos (by decide)]
  rw [hrun]
  obtain ⟨h1, ops, h2, h3⟩ := cycle_walk fuel 1000 4
    { cycleDev with log := cycleDev.log ++ [.read 0] ++ [.write 0 w0],
                    disk := Function.update cycleDev.disk 0 w0 }
    (Or.inl rfl) rfl (by
      intro c1 hc1
      have hne : c1 ≠ 0 := by omega
      simp only [Function.update_noteq hne]
      exact hwf c1 hc1)
  refine ⟨h1, ?_⟩
  intro c hc hmem
  rw [h2] at hmem
  have : c = 1000 ∨ c = 1200 := by
    simp only [List.mem_append, List.mem_cons, List.mem_singleton, BlockOp.read.injEq,
      List.not_mem_nil, or_false] at hmem
    rcases hmem with ((hmem | hmem) | hmem) | hmem
    · exact absurd hmem (by simp [cycleDev])
    · exact absurd hmem hc
    · exact absurd hmem (by simp)
    · exact h3 c hmem
  exact (hwf c this).1.2.2.2.1

set_option maxRecDepth 1000000 in
/-- C27 as stated, at the disk whose EMBR at LBA 1200 holds only a link to itself,
with k = 4 and a device on which every call succeeds: the walk has not ended after any
number of rounds. -/
theorem C27_counterexample :
    (∀ l op, EFI_ERROR (loopDev.status l op) = false) ∧
    ∀ fuel, (ActivateMbrPartition exParams fuel loopDev 4).Status = none := by
  refine ⟨fun _ _ => rfl, ?_⟩
  intro fuel
  have hm : mbrLoop exParams 4 4 0 (addBootCode exParams (loopDev.disk 0)) 0 =
      some (loopDisk 0, 1000) := by decide
  rw [Activate_unfold, if_neg (by decide), if_neg (by decide), hm]
  simp only
  rw [if_neg (by simp [loopDev, okStatus, EFI_ERROR]), if_pos (by decide)]
  have hd : Function.update loopDev.disk 0 (loopDisk 0) = loopDisk :=
    Function.update_eq_self 0 loopDisk
  rw [hd]
  exact loop_walk fuel 1000 _ (Or.inl rfl)

set_option maxRecDepth 1000000 in
/-- C27 as amended, at the disk of scenario 6 with k = 5 and 2^32 rounds of fuel: the
run has ended, with success. -/
theorem C27_walk_ends_witness :
    ((ActivateMbrPartition exParams 4294967296 chainDev 5).Status ≠ none ∨
      ¬ (readLBAs ((ActivateMbrPartition exParams 4294967296 chainDev 5).io.log.drop
          chainDev.log.length)).Nodup) ∧
    (ActivateMbrPartition exParams 4294967296 chainDev 5).Status = some .EFI_SUCCESS :=
  ⟨C27_walk_ends_unless_a_block_is_read_twice exParams 4294967296 chainDev 5 (by decide),
   by decide⟩

set_option maxRecDepth 1000000 in
/-- C26 at the disk of scenario 6 with k = 5 and the parameters of the examples. -/
theorem C26_only_flags_witness :
    ∃ ops, (ActivateMbrPartition exParams 2 chainDev 5).io.log = chainDev.log ++ ops ∧
      ∀ pre c w post, ops = pre ++ BlockOp.write c w :: post →
        (∃ pre1, pre = pre1 ++ [BlockOp.read c]) ∧
        changesOnlyFlags exParams c ((chainDev.after pre).disk c) w :=
  C26_only_flags_and_boot_code_change exParams 2 chainDev 5 (by decide) (by decide)

set_option maxRecDepth 1000000 in
/-- C28 as amended, at the cyclic disk with k = 6: the run with three rounds of fuel
has ended after reading LBA 0, the EMBR at 1000 and twice the EMBR at 1200. -/
theorem C28_walk_ends_witness :
    ((ActivateMbrPartition exParams 3 cycleDev 6).Status ≠ none ∧
      (readLBAs ((ActivateMbrPartition exParams 3 cycleDev 6).io.log.drop
        cycleDev.log.length)).length ≤ 6 - 2) ∧
    readLBAs (ActivateMbrPartition exParams 3 cycleDev 6).io.log = [0, 1000, 1200, 1200] :=
  ⟨C28_walk_ends_when_every_embr_counts exParams 3 cycleDev 6 (by decide) (by decide)
    (by decide)
    (by
      intro c hc hmem
      have e : readLBAs ((ActivateMbrPartition exParams 3 cycleDev 6).io.log.drop
          cycleDev.log.length) = [0, 1000, 1200, 1200] := by decide
      have hc1 := (mem_readLBAs c _).2 hmem
      rw [e] at hc1
      simp only [List.mem_cons, List.mem_singleton, List.not_mem_nil, or_false] at hc1
      rcases hc1 with h | h | h | h
      · exact absurd h hc
      · subst h; unfold dataEntry; decide
      · subst h; unfold dataEntry; decide
      · subst h; unfold dataEntry; decide),
   by decide⟩

/-! ## The statements about stanzas at concrete inputs -/

set_option maxRecDepth 1000000 in
/-- C22 at a stanza body with an `options` line before the `loader` line, defaults
that seed the load options `ro`, and an `options` and an `initrd` line after it: the
load options are `ro quiet initrd=\initrd.img`. -/
theorem C22_load_options_witness :
    ∃ Entry File1,
      AddStanzaEntries exStanzaParams (68 + 1)
        (fileOf (bytesOf
          "options old\nloader /vmlinuz\noptions \"ro quiet\"\ninitrd /initrd.img\n\x7d\n")
          ENCODING_ISO8859_1) (some (wstr "Linux")) = .returned Entry File1 ∧
      Entry.LoadOptions = some (wstr "ro quiet initrd=\\initrd.img") :=
  C22_load_options_after_last_loader exStanzaParams
    (fileOf (bytesOf
      "options old\nloader /vmlinuz\noptions \"ro quiet\"\ninitrd /initrd.img\n\x7d\n")
      ENCODING_ISO8859_1) (some (wstr "Linux"))
    [[wstr "options", wstr "old"], [wstr "loader", wstr "\\vmlinuz"],
     [wstr "options", wstr "ro quiet"], [wstr "initrd", wstr "\\initrd.img"], [wstr "\x7d"]]
    [[wstr "options", wstr "old"]]
    [[wstr "options", wstr "ro quiet"], [wstr "initrd", wstr "\\initrd.img"]]
    [wstr "loader", wstr "\\vmlinuz"]
    (by decide) (by decide) (by unfold isLoaderLine; decide) (by unfold isLoaderLine; decide)
    (by unfold readsArgument; decide)

set_option maxRecDepth 1000000 in
/-- C24 at the stanza body that holds the line `loader` without an argument: the line
has one token, and the body of the loop reads `TokenList[1]`. The same holds for
`icon`, `initrd`, `options` and `graphics`; only `ostype` tests `TokenCount`. -/
theorem C24_argument_read_outside_token_list :
    (ReadTokenLine (fileOf (bytesOf "loader\n\x7d\n") ENCODING_ISO8859_1)).map Prod.fst =
      some [wstr "loader"] ∧
    AddStanzaEntries exStanzaParams (9 + 1)
      (fileOf (bytesOf "loader\n\x7d\n") ENCODING_ISO8859_1) (some (wstr "Linux")) =
      .readOutside ∧
    (∀ d ∈ [wstr "loader", wstr "icon", wstr "initrd", wstr "options", wstr "graphics"],
      stanzaLine exStanzaParams ⟨none, none, none, none, false, true, 32, none⟩ false [d] =
        none) ∧
    stanzaLine exStanzaParams ⟨none, none, none, none, false, true, 32, none⟩ false
      [wstr "ostype"] = some (⟨none, none, none, none, false, true, 32, none⟩, false) := by
  decide

set_option maxRecDepth 1000000 in
/-- C23 as stated, at the file that holds the line `""`: `ReadTokenLine` returns one
token, and it is empty. -/
theorem C23_counterexample :
    (ReadTokenLine (fileOf (bytesOf "\"\"\n") ENCODING_ISO8859_1)).map Prod.fst =
      some [[]] ∧
    (ReadTokenLine (fileOf (bytesOf "options \"\"\n") ENCODING_ISO8859_1)).map Prod.fst =
      some [wstr "options", []] := by
  decide

set_option maxRecDepth 1000000 in
/-- C23 as amended, at the file that holds the lines `# comment` and `timeout 20`. -/
theorem C23_empty_token_needs_quote_witness :
    ∃ File0 Line,
      File0.Buffer = (fileOf (bytesOf "# comment\ntimeout 20\n") ENCODING_ISO8859_1).Buffer ∧
      ReadLine File0 = (some Line,
        { fileOf (bytesOf "# comment\ntimeout 20\n") ENCODING_ISO8859_1 with
          Current8Ptr := 21 }) ∧
      [wstr "timeout", wstr "20"] = (tokenizeLine false Line).1 ∧
      ∀ t ∈ [wstr "timeout", wstr "20"], t = [] → 34 ∈ Line :=
  C23_empty_token_needs_quote (fileOf (bytesOf "# comment\ntimeout 20\n") ENCODING_ISO8859_1)
    { fileOf (bytesOf "# comment\ntimeout 20\n") ENCODING_ISO8859_1 with Current8Ptr := 21 }
    [wstr "timeout", wstr "20"] (by decide) (by decide)

end Refind
